import Mathlib

/-!
# Tic-tac-toe: board classification and the minimax move solver

A shallow embedding of `game.c` (`init_board`, `check_winner`) and `ai.c`
(`evaluate_board`, `minimax`, `get_best_move`), together with the turn loop of
`main.c`.  The board `char board[9]` is a function `Fin 9 → Char`; the in-place
writes `board[i] = c` are functional updates threaded through the computation,
so that the recursive `minimax` returns both its value and the array it leaves
behind.  C `int` values are modelled in `Int`; the sentinels `INT_MIN` and
`INT_MAX` are the 32-bit ones.
-/

set_option autoImplicit false

namespace TicTacToe

/-! ## Data model -/

/-- The array `char board[9]`. -/
abbrev Board := Fin 9 → Char

/-- The index range `0 .. 8` scanned by every `for (int i = 0; i < 9; ++i)`. -/
def cells : List (Fin 9) := [0, 1, 2, 3, 4, 5, 6, 7, 8]

/-- The table `win_lines[8][3]` of `game.c`. -/
def win_lines : List (Fin 9 × Fin 9 × Fin 9) :=
  [(0, 1, 2), (3, 4, 5), (6, 7, 8),
   (0, 3, 6), (1, 4, 7), (2, 5, 8),
   (0, 4, 8), (2, 4, 6)]

/-- The constant `INT_MIN` of `limits.h` for a 32-bit `int`. -/
def INT_MIN : Int := -2147483648

/-- The constant `INT_MAX` of `limits.h` for a 32-bit `int`. -/
def INT_MAX : Int := 2147483647

/-- The write `board[i] = c`. -/
def setCell (b : Board) (i : Fin 9) (c : Char) : Board := Function.update b i c

/-- Build a board from a list of cells, missing cells being empty. -/
def ofList (l : List Char) : Board := fun i => l.getD i.val ' '

/-! ## `game.c` -/

/-- The function `init_board`: every cell becomes `' '`. -/
def init_board : Board := fun _ => ' '

/-- The test `b[a] != ' ' && b[a] == b[c] && b[c] == b[d]` of `check_winner`. -/
def lineWon (b : Board) (l : Fin 9 × Fin 9 × Fin 9) : Bool :=
  b l.1 != ' ' && (b l.1 == b l.2.1 && b l.2.1 == b l.2.2)

/-- The scan `for (i = 0; i < 9; ++i) if (b[i] == ' ')`: is some cell empty? -/
def hasEmpty (b : Board) : Bool := cells.any (fun i => b i == ' ')

/-- The function `check_winner`: the mark of the first complete line in table
order, else `' '` when some cell is empty, else `'T'`. -/
def check_winner (b : Board) : Char :=
  match win_lines.find? (lineWon b) with
  | some l => b l.1
  | none => if hasEmpty b then ' ' else 'T'

/-! ## `ai.c` -/

/-- The function `evaluate_board`. -/
def evaluate_board (b : Board) (ai human : Char) : Int :=
  let w := check_winner b
  if w = ai then 10 else if w = human then -10 else 0

/-- One iteration of the maximising loop of `minimax`, on the state
`(best, board)`; `call` is the recursive call. -/
def maxStep (call : Board → Option (Int × Board)) (ai : Char)
    (st : Int × Board) (i : Fin 9) : Option (Int × Board) :=
  if st.2 i = ' ' then
    match call (setCell st.2 i ai) with
    | some (val, b1) => some (if val > st.1 then val else st.1, setCell b1 i ' ')
    | none => none
  else some st

/-- One iteration of the minimising loop of `minimax`. -/
def minStep (call : Board → Option (Int × Board)) (human : Char)
    (st : Int × Board) (i : Fin 9) : Option (Int × Board) :=
  if st.2 i = ' ' then
    match call (setCell st.2 i human) with
    | some (val, b1) => some (if val < st.1 then val else st.1, setCell b1 i ' ')
    | none => none
  else some st

/-- The function `minimax`, with the board it mutates passed in and out.  The
first argument bounds the nesting of the recursion; `none` means the bound was
reached. -/
def minimaxFuel : Nat → Board → Char → Char → Int → Bool → Option (Int × Board)
  | 0, _, _, _, _, _ => none
  | fuel + 1, board, ai, human, depth, isMax =>
    let score := evaluate_board board ai human
    if score = 10 then some (score - depth, board)
    else if score = -10 then some (score + depth, board)
    else if !hasEmpty board then some (0, board)
    else if isMax then
      cells.foldlM
        (maxStep (fun b => minimaxFuel fuel b ai human (depth + 1) false) ai)
        (INT_MIN, board)
    else
      cells.foldlM
        (minStep (fun b => minimaxFuel fuel b ai human (depth + 1) true) human)
        (INT_MAX, board)

/-- The function `minimax`: a board has at most nine empty cells, so ten nested
calls always suffice. -/
def minimax (board : Board) (ai human : Char) (depth : Int) (isMax : Bool) :
    Option (Int × Board) :=
  minimaxFuel 10 board ai human depth isMax

/-- One iteration of the scan of `get_best_move`, on the state
`(bestVal, bestMove, copy)`. -/
def moveStep (ai human : Char) (st : Int × Int × Board) (i : Fin 9) :
    Option (Int × Int × Board) :=
  if st.2.2 i = ' ' then
    match minimax (setCell st.2.2 i ai) ai human 0 false with
    | some (moveVal, c1) =>
      some (if moveVal > st.1 then (moveVal, (i.val : Int), setCell c1 i ' ')
            else (st.1, st.2.1, setCell c1 i ' '))
    | none => none
  else some st

/-- The function `get_best_move`; `none` only if a call of `minimax` did not
return. -/
def get_best_move (board : Board) (ai human : Char) : Option Int :=
  match cells.foldlM (moveStep ai human) (INT_MIN, -1, board) with
  | some (_, bestMove, _) => some (if bestMove = -1 then 0 else bestMove)
  | none => none

/-! ## The search on immutable boards -/

/-- Number of empty cells of a board. -/
def empties (b : Board) : Nat := cells.countP (fun i => b i == ' ')

/-- The running maximum kept by a scan over the empty cells in `l`: a value
replaces `best` only when it is strictly greater. -/
def scanMax (b : Board) (f : Fin 9 → Int) (l : List (Fin 9)) (init : Int) : Int :=
  l.foldl (fun best i => if b i = ' ' then (if f i > best then f i else best) else best) init

/-- The running minimum kept by a scan over the empty cells in `l`. -/
def scanMin (b : Board) (f : Fin 9 → Int) (l : List (Fin 9)) (init : Int) : Int :=
  l.foldl (fun best i => if b i = ' ' then (if f i < best then f i else best) else best) init

/-- The value computed by `minimax`, on boards that are never written to. -/
def mmVal : Nat → Board → Char → Char → Int → Bool → Int
  | 0, _, _, _, _, _ => 0
  | fuel + 1, board, ai, human, depth, isMax =>
    let score := evaluate_board board ai human
    if score = 10 then score - depth
    else if score = -10 then score + depth
    else if !hasEmpty board then 0
    else if isMax then
      scanMax board (fun i => mmVal fuel (setCell board i ai) ai human (depth + 1) false)
        cells INT_MIN
    else
      scanMin board (fun i => mmVal fuel (setCell board i human) ai human (depth + 1) true)
        cells INT_MAX

/-- The pair `(bestVal, bestMove)` kept by the scan of `get_best_move`, for
candidate values `f`. -/
def scanBest (b : Board) (f : Fin 9 → Int) (l : List (Fin 9)) (init : Int × Int) :
    Int × Int :=
  l.foldl (fun st i =>
    if b i = ' ' then (if f i > st.1 then (f i, (i.val : Int)) else st) else st) init

/-- The value `v(i)` that `get_best_move` gives to cell `i`: the result of
`minimax` on the board with `ai` placed at `i`, at depth 0, opponent to move. -/
def cellValue (b : Board) (ai human : Char) (i : Fin 9) : Option Int :=
  (minimax (setCell b i ai) ai human 0 false).map Prod.fst


/-! ## Game-theoretic notions used by the statements -/

/-- A board over `{' ', 'X', 'O'}`. -/
def overXO (b : Board) : Prop := ∀ i, b i = ' ' ∨ b i = 'X' ∨ b i = 'O'

/-- The pair `(ai, human)` is `('X', 'O')` or `('O', 'X')`. -/
def xoPair (ai human : Char) : Prop := (ai = 'X' ∧ human = 'O') ∨ (ai = 'O' ∧ human = 'X')

/-- Some line of `win_lines` holds three equal non-empty cells. -/
def hasLine (b : Board) : Bool := win_lines.any (lineWon b)

/-- Combine the values `g i` of the empty cells `i` of `b`, in the order of `l`. -/
def foldEmpty {α : Type} (b : Board) (op : α → α → α) (g : Fin 9 → α)
    (l : List (Fin 9)) (init : α) : α :=
  l.foldl (fun acc i => if b i = ' ' then op acc (g i) else acc) init

/-- The plain minimax value of a position for `ai`: `check_winner` is the
terminal test, a win of `ai` is `1`, a draw `0`, a win of `human` `-1`; on a
position that goes on, the side to move places its mark on an empty cell, `ai`
taking the greatest value of the resulting positions and `human` the least.
All values lie in `[-1, 1]`, so `-1` and `1` are neutral starts for the maximum
and the minimum.  The first argument bounds the number of plies looked ahead. -/
def plainF : Nat → Board → Char → Char → Bool → Int
  | 0, _, _, _, _ => 0
  | fuel + 1, b, ai, human, aiToMove =>
    let w := check_winner b
    if w = ' ' then
      if aiToMove then
        foldEmpty b max (fun i => plainF fuel (setCell b i ai) ai human false) cells (-1)
      else
        foldEmpty b min (fun i => plainF fuel (setCell b i human) ai human true) cells 1
    else if w = ai then 1
    else if w = human then -1
    else 0

/-- The plain minimax value of a position: no game lasts more than nine plies. -/
def plainValue (b : Board) (ai human : Char) (aiToMove : Bool) : Int :=
  plainF 10 b ai human aiToMove


/-- A check that `ai` can avoid losing from a position by following a script:
on its turns `ai` plays the next cell of the script, which must be empty; on
the opponent's turns every empty cell is tried in turn, each continuing with
what the previous one left of the script.  A finished game passes unless
`human` has won.  The result is the unused rest of the script. -/
def safeH : Nat → Board → Char → Char → Bool → List (Fin 9) → Option (List (Fin 9))
  | 0, _, _, _, _, _ => none
  | fuel + 1, b, ai, human, aiToMove, script =>
    let w := check_winner b
    if w = ' ' then
      if aiToMove then
        match script with
        | [] => none
        | mv :: rest =>
          if b mv = ' ' then safeH fuel (setCell b mv ai) ai human false rest else none
      else
        cells.foldlM (fun s i =>
          if b i = ' ' then safeH fuel (setCell b i human) ai human true s else some s)
          script
    else if w = human then none
    else some script

/-! ## The turn loop of `main.c` -/

/-- The variables `board` and `human_turn` of `main`. -/
structure Game where
  /-- The array `board`. -/
  board : Board
  /-- The flag `human_turn`. -/
  human_turn : Bool

/-- The initialisation `char ai = (human == 'X') ? 'O' : 'X';`. -/
def aiMark (human : Char) : Char := if human = 'X' then 'O' else 'X'

/-- The state on entry to the loop: `init_board(board)` and
`human_turn = (human == 'X')`. -/
def startGame (human : Char) : Game := ⟨init_board, human == 'X'⟩

/-- The write `board[k] = c` for an `int` index `k`; an index outside the array
has no defined effect. -/
def writeAt (b : Board) (k : Int) (c : Char) : Option Board :=
  if h : 0 ≤ k ∧ k < 9 then some (setCell b ⟨k.toNat, by omega⟩ c) else none

/-- One pass through the body of the `while (1)` loop of `main`, where `pos` is
the cell (entered number minus one) the human asks for if it is their turn.
`none` when the loop is left because the game is over (or a call did not
return); an occupied cell is refused and the state stays as it is. -/
def loopPass (human : Char) (g : Game) (pos : Fin 9) : Option Game :=
  if check_winner g.board ≠ ' ' then none
  else if g.human_turn then
    if g.board pos ≠ ' ' then some g
    else some ⟨setCell g.board pos human, false⟩
  else
    match get_best_move g.board (aiMark human) human with
    | some mv =>
      match writeAt g.board mv (aiMark human) with
      | some b1 => some ⟨b1, true⟩
      | none => none
    | none => none

/-- The state after the loop has gone through the passes fed by `inputs`. -/
def playFrom (human : Char) : Game → List (Fin 9) → Option Game
  | g, [] => some g
  | g, pos :: rest =>
    match loopPass human g pos with
    | some g1 => playFrom human g1 rest
    | none => none

/-- Self-play: while `check_winner` answers `' '`, the side to move places its
mark on the cell `get_best_move` returns for it, and the sides swap.  The
result is the board on which the game stopped; `none` if it has not stopped
within the given number of rounds. -/
def selfPlay : Nat → Board → Char → Char → Option Board
  | 0, _, _, _ => none
  | n + 1, b, side, other =>
    if check_winner b ≠ ' ' then some b
    else
      match get_best_move b side other with
      | some mv =>
        match writeAt b mv side with
        | some b1 => selfPlay n b1 other side
        | none => none
      | none => none


/-- A script of replies with which the first player avoids losing from the
empty board, in the order `safeH` reads it. -/
def firstScript : List (Fin 9) :=
  [0, 3, 6, 6, 6, 4, 5, 8, 5, 5, 6, 6, 3, 6, 6, 6, 4, 5, 8, 5, 5, 6, 6, 1, 4, 7, 7, 8, 7, 2, 2,
   2, 2, 2, 1, 6, 5, 8, 7, 3, 3, 3, 2, 2, 2, 2, 2, 2, 4, 6, 8, 6, 6, 1, 1, 1, 1, 1, 1, 4, 7, 7,
   8, 7, 2, 2, 2, 2, 2, 2, 4, 6, 6, 8, 6, 1, 1, 1, 1, 1, 2, 6, 4, 3, 3, 3, 1, 1, 1, 1, 1]

/-- A script of replies with which the second player avoids losing from the
empty board, in the order `safeH` reads it. -/
def secondScript : List (Fin 9) :=
  [4, 2, 6, 6, 3, 7, 5, 5, 6, 6, 1, 7, 7, 7, 3, 8, 5, 5, 7, 6, 2, 1, 7, 5, 7, 2, 2, 2, 1, 7, 7,
   7, 6, 8, 2, 2, 7, 3, 5, 5, 1, 7, 8, 7, 5, 5, 3, 5, 5, 2, 6, 8, 6, 5, 5, 1, 7, 7, 7, 7, 6, 5,
   2, 2, 4, 2, 6, 6, 3, 7, 5, 5, 6, 6, 0, 8, 8, 8, 8, 5, 6, 3, 3, 0, 8, 8, 8, 8, 2, 6, 7, 6, 0,
   8, 8, 8, 8, 2, 6, 7, 6, 3, 5, 5, 8, 2, 0, 0, 5, 5, 0, 8, 8, 8, 8, 6, 3, 2, 2, 3, 5, 5, 2, 6,
   7, 6, 5, 5, 4, 1, 7, 7, 7, 3, 8, 5, 5, 7, 0, 8, 8, 8, 8, 5, 6, 3, 3, 1, 7, 7, 7, 8, 6, 0, 0,
   7, 8, 1, 7, 7, 3, 0, 0, 0, 0, 1, 7, 7, 7, 8, 3, 0, 0, 7, 3, 5, 5, 8, 1, 0, 0, 5, 5, 5, 3, 3,
   1, 7, 7, 6, 3, 3, 4, 6, 2, 1, 7, 5, 7, 2, 2, 2, 0, 8, 8, 8, 8, 2, 6, 7, 6, 1, 7, 7, 7, 8, 6,
   0, 0, 7, 0, 8, 8, 8, 8, 2, 6, 1, 1, 0, 8, 8, 8, 8, 7, 2, 1, 1, 0, 8, 8, 8, 8, 6, 2, 5, 2, 1,
   7, 7, 7, 7, 6, 2, 5, 2, 0, 7, 6, 8, 3, 3, 5, 6, 2, 2, 3, 6, 2, 6, 2, 5, 3, 3, 3, 6, 6, 2, 6,
   3, 5, 7, 1, 1, 3, 3, 3, 5, 7, 6, 2, 2, 6, 7, 1, 1, 2, 8, 1, 1, 1, 6, 2, 2, 1, 6, 2, 2, 3, 6,
   6, 2, 7, 1, 1, 6, 6, 2, 7, 5, 3, 3, 1, 1, 1, 1, 1, 6, 5, 3, 3, 2, 2, 2, 2, 2, 7, 5, 3, 3, 1,
   1, 1, 1, 4, 1, 7, 7, 7, 6, 8, 2, 2, 7, 0, 8, 8, 8, 8, 2, 6, 7, 6, 8, 1, 7, 7, 3, 0, 0, 0, 0,
   0, 8, 8, 8, 8, 2, 6, 1, 1, 1, 7, 7, 7, 8, 3, 0, 0, 7, 2, 6, 6, 6, 8, 3, 0, 0, 6, 2, 6, 6, 6,
   7, 1, 0, 1, 6, 4, 3, 5, 5, 1, 7, 8, 7, 5, 5, 3, 5, 5, 8, 2, 0, 0, 5, 5, 1, 7, 7, 7, 8, 3, 0,
   0, 7, 0, 8, 8, 8, 8, 7, 2, 1, 1, 1, 7, 7, 7, 8, 3, 0, 0, 7, 8, 3, 5, 5, 1, 0, 0, 0, 0, 7, 1,
   3, 5, 5, 2, 1, 1, 1, 4, 3, 5, 5, 2, 6, 8, 6, 5, 5, 0, 8, 8, 8, 8, 6, 3, 2, 2, 3, 5, 5, 8, 1,
   0, 0, 5, 5, 0, 8, 8, 8, 8, 6, 2, 5, 2, 2, 6, 6, 6, 8, 3, 0, 0, 6, 8, 3, 5, 5, 1, 0, 0, 0, 0,
   6, 2, 2, 5, 3, 3, 0, 2, 2, 4, 1, 7, 7, 7, 7, 6, 5, 2, 2, 3, 5, 5, 2, 6, 7, 6, 5, 5, 5, 3, 3,
   1, 7, 7, 6, 3, 3, 1, 7, 7, 7, 7, 6, 2, 5, 2, 2, 6, 6, 6, 7, 1, 0, 1, 6, 7, 1, 3, 5, 5, 2, 1,
   1, 1, 6, 2, 2, 5, 3, 3, 0, 2, 2]


/-! ## Boards used as examples -/

/-- A full board without a complete line:
`X O X / X O O / O X X`. -/
def drawnBoard : Board := ofList ['X', 'O', 'X', 'X', 'O', 'O', 'O', 'X', 'X']

/-- The board `_ O X / X O O / O X X`, whose only empty cell is cell 0. -/
def lastCellBoard : Board := ofList [' ', 'O', 'X', 'X', 'O', 'O', 'O', 'X', 'X']


/-! ## Threats -/

/-- All three cells of the line `l` hold the mark `m`. -/
def lineOf (b : Board) (m : Char) (l : Fin 9 × Fin 9 × Fin 9) : Bool :=
  b l.1 == m && (b l.2.1 == m && b l.2.2 == m)

/-- The cell `i` is one of the three cells of the line `l`. -/
def onLine (i : Fin 9) (l : Fin 9 × Fin 9 × Fin 9) : Bool :=
  l.1 == i || (l.2.1 == i || l.2.2 == i)

/-- The cell `i` is empty and placing the mark `m` there completes a winning
triple for `m`: some line through `i` then holds three `m`. -/
def completes (b : Board) (m : Char) (i : Fin 9) : Bool :=
  b i == ' ' && win_lines.any (fun l => onLine i l && lineOf (setCell b i m) m l)


/-- The board `X X _ / _ _ _ / _ _ _`. -/
def twoInRowBoard : Board := ofList ['X', 'X', ' ', ' ', ' ', ' ', ' ', ' ', ' ']

/-- The board `_ _ _ / O O _ / _ _ _`. -/
def threatBoard : Board := ofList [' ', ' ', ' ', 'O', 'O', ' ', ' ', ' ', ' ']


/-! ## Length of a forced win -/

/-- The shorter of two forced-win lengths, `none` standing for "no forced win". -/
def optMin : Option Nat → Option Nat → Option Nat
  | none, y => y
  | some a, none => some a
  | some a, some c => some (min a c)

/-- The longer of two forced-win lengths, unless one of them is "no forced win". -/
def optMaxAll : Option Nat → Option Nat → Option Nat
  | some a, some c => some (max a c)
  | _, _ => none

/-- The forced-win length of a position for the player `ai`: the number of
further plies until `check_winner` answers `ai`, when `ai` plays to win as fast
as possible and `human` plays to delay that as long as possible; `none` when
`ai` cannot force a win.  A position won by `ai` has length 0; with `ai` to
move the length is one more than the least length among the positions `ai` can
move to; with `human` to move it is one more than the greatest length among
the positions `human` can move to, provided `ai` forces a win from all of
them.  The first argument bounds the number of plies looked ahead. -/
def winLenF : Nat → Board → Char → Char → Bool → Option Nat
  | 0, _, _, _, _ => none
  | fuel + 1, b, ai, human, aiToMove =>
    let w := check_winner b
    if w = ai then some 0
    else if w = ' ' then
      if aiToMove then
        foldEmpty b optMin
          (fun i => (winLenF fuel (setCell b i ai) ai human false).map (fun k => k + 1))
          cells none
      else
        foldEmpty b optMaxAll
          (fun i => (winLenF fuel (setCell b i human) ai human true).map (fun k => k + 1))
          cells (some 0)
    else none

/-- The forced-win length of a position: no game lasts more than nine plies. -/
def winLen (b : Board) (ai human : Char) (aiToMove : Bool) : Option Nat :=
  winLenF 10 b ai human aiToMove

/-- The board `O O _ / _ _ _ / X X _`. -/
def raceBoard : Board := ofList ['O', 'O', ' ', ' ', ' ', ' ', 'X', 'X', ' ']


/-- The forced-win length read off a search value `v` found at depth `d`: a
win scored `10 - d'` at depth `d'` lies `d' - d` plies ahead. -/
def decodeWin (d v : Int) : Option Nat :=
  if 0 < v then some (10 - d - v).toNat else none



/-- The board `O X O / X O X / O X O`, full, whose last triple `(2, 4, 6)` holds
three `O` as does the one before it, `(0, 4, 8)`. -/
def diagonalBoard : Board := ofList ['O', 'X', 'O', 'X', 'O', 'X', 'O', 'X', 'O']

/-- The board `X X X / O O O / _ _ _`, on which two triples with different
marks are complete. -/
def twoWinsBoard : Board := ofList ['X', 'X', 'X', 'O', 'O', 'O', ' ', ' ', ' ']


/-- The board `_ _ X / _ _ X / _ _ X`. -/
def columnBoard : Board := ofList [' ', ' ', 'X', ' ', ' ', 'X', ' ', ' ', 'X']


/-- The value `minimax` returns for the position reached from `board` when the
side to move (`ai` if `isMax`, else `human`) places its mark on cell `i`: the
recursive call `minimax(board, ai, human, depth + 1, !isMax)` made with
`board[i]` set. -/
def childValue (board : Board) (ai human : Char) (depth : Int) (isMax : Bool)
    (i : Fin 9) : Option Int :=
  (minimax (setCell board i (if isMax then ai else human)) ai human (depth + 1)
    (!isMax)).map Prod.fst


/-! ## Renaming the marks -/

/-- The board `b` with every `a` replaced by `a'` and every `h` replaced by
`h'`. -/
def relabel (a h a' h' : Char) (b : Board) : Board :=
  fun i => if b i = a then a' else if b i = h then h' else b i

/-- A board whose cells are all in `{' ', a, h}`. -/
def overMarks (a h : Char) (b : Board) : Prop := ∀ i, b i = ' ' ∨ b i = a ∨ b i = h

/-- Two distinct marks, neither of them `' '` or `'T'`. -/
def markPair (a h : Char) : Prop := a ≠ h ∧ a ≠ ' ' ∧ h ≠ ' ' ∧ a ≠ 'T' ∧ h ≠ 'T'


/-- A script of replies with which `'X'` avoids losing after each of its nine
possible opening moves, one opening after the other in the order of `cells`,
in the order `safeH` reads it. -/
def openingScript : List (Fin 9) :=
  [3, 6, 6, 6, 4, 5, 8, 5, 5, 6, 6, 3, 6, 6, 6, 4, 5, 8, 5, 5, 6, 6, 1, 4, 7, 7, 8, 7, 2, 2, 2,
   2, 2, 1, 6, 5, 8, 7, 3, 3, 3, 2, 2, 2, 2, 2, 2, 4, 6, 8, 6, 6, 1, 1, 1, 1, 1, 1, 4, 7, 7, 8,
   7, 2, 2, 2, 2, 2, 2, 4, 6, 6, 8, 6, 1, 1, 1, 1, 1, 2, 6, 4, 3, 3, 3, 1, 1, 1, 1, 1, 4, 7, 7,
   7, 7, 3, 5, 2, 8, 6, 5, 5, 7, 4, 7, 7, 7, 7, 3, 5, 8, 6, 0, 5, 5, 7, 0, 4, 7, 7, 8, 7, 2, 2,
   2, 2, 2, 0, 6, 5, 8, 7, 3, 3, 3, 2, 2, 2, 2, 2, 2, 4, 6, 7, 6, 6, 0, 0, 0, 0, 0, 0, 4, 7, 7,
   8, 7, 2, 2, 2, 2, 2, 0, 6, 4, 8, 5, 3, 3, 3, 2, 2, 2, 2, 2, 2, 4, 6, 6, 7, 6, 0, 0, 0, 0, 0,
   5, 8, 8, 8, 8, 8, 4, 3, 6, 3, 3, 4, 6, 6, 6, 5, 3, 8, 3, 3, 6, 6, 0, 4, 6, 8, 6, 6, 1, 1, 1,
   1, 1, 1, 8, 5, 3, 7, 6, 5, 5, 0, 0, 0, 0, 0, 0, 4, 6, 8, 6, 6, 1, 1, 1, 1, 1, 0, 8, 4, 5, 4,
   4, 1, 1, 1, 1, 1, 0, 4, 6, 6, 8, 6, 1, 1, 1, 1, 1, 0, 6, 4, 3, 3, 3, 1, 1, 1, 1, 1, 4, 5, 5,
   1, 7, 7, 2, 8, 6, 7, 5, 5, 5, 0, 6, 6, 6, 4, 5, 8, 5, 5, 6, 6, 0, 6, 6, 6, 4, 5, 8, 5, 5, 6,
   6, 0, 6, 6, 6, 2, 7, 8, 5, 1, 1, 1, 6, 6, 0, 6, 6, 6, 2, 4, 8, 7, 1, 1, 1, 6, 6, 4, 5, 5, 5,
   1, 7, 7, 8, 2, 0, 7, 5, 5, 4, 5, 5, 5, 0, 6, 6, 8, 6, 5, 5, 6, 4, 2, 5, 2, 2, 0, 0, 0, 0, 0,
   1, 7, 7, 7, 7, 3, 5, 2, 8, 6, 5, 5, 7, 0, 8, 8, 8, 8, 8, 3, 5, 6, 5, 5, 0, 8, 8, 8, 8, 8, 5,
   3, 1, 7, 6, 3, 3, 0, 8, 8, 8, 8, 8, 1, 7, 2, 2, 2, 0, 8, 8, 8, 8, 8, 2, 6, 1, 1, 1, 0, 8, 8,
   8, 8, 8, 7, 2, 5, 3, 1, 1, 1, 0, 8, 8, 8, 8, 8, 6, 2, 3, 2, 2, 1, 7, 7, 7, 7, 7, 6, 2, 5, 3,
   0, 2, 2, 2, 8, 8, 8, 8, 8, 4, 3, 6, 3, 3, 2, 8, 8, 8, 8, 8, 4, 3, 6, 3, 3, 4, 3, 3, 0, 8, 8,
   8, 1, 7, 6, 3, 3, 3, 2, 8, 8, 8, 8, 8, 0, 4, 7, 6, 1, 1, 1, 2, 8, 8, 8, 8, 8, 0, 7, 6, 3, 1,
   1, 1, 8, 2, 2, 4, 3, 0, 0, 0, 2, 2, 2, 4, 3, 3, 3, 2, 6, 6, 8, 6, 3, 3, 4, 3, 3, 3, 1, 7, 7,
   7, 6, 2, 0, 3, 3, 2, 4, 4, 8, 5, 5, 7, 5, 4, 4, 4, 0, 3, 4, 8, 2, 2, 2, 3, 3, 3, 3, 0, 3, 8,
   4, 7, 4, 4, 3, 3, 3, 3, 4, 2, 2, 7, 1, 8, 1, 1, 2, 2, 2, 3, 8, 7, 7, 7, 1, 5, 2, 0, 0, 0, 0,
   0, 0, 3, 3, 4, 2, 8, 2, 2, 3, 3, 3, 0, 3, 3, 2, 4, 1, 1, 1, 3, 3, 3, 0, 3, 3, 2, 4, 1, 1, 1,
   3, 3, 3, 6, 8, 8, 8, 8, 8, 4, 2, 1, 1, 1, 6, 8, 8, 8, 8, 8, 0, 3, 2, 5, 4, 3, 3, 8, 6, 6, 6,
   6, 6, 4, 1, 0, 0, 0, 4, 1, 6, 2, 8, 2, 2, 1, 1, 1, 1, 6, 8, 8, 8, 8, 8, 0, 3, 3, 5, 2, 1, 3,
   4, 1, 6, 2, 8, 2, 2, 1, 1, 1, 1, 4, 1, 0, 8, 8, 8, 2, 5, 3, 1, 1, 1, 1, 4, 1, 2, 6, 6, 6, 0,
   5, 3, 1, 1, 1, 1, 2, 5, 5, 5, 6, 4, 4, 7, 4, 5, 5, 2, 5, 5, 5, 4, 6, 0, 0, 0, 5, 5, 0, 4, 4,
   6, 3, 7, 3, 3, 4, 4, 4, 2, 5, 5, 5, 4, 6, 0, 0, 0, 5, 5, 5, 2, 2, 6, 7, 7, 7, 1, 3, 0, 2, 2,
   2, 4, 6, 2, 7, 2, 2, 0, 0, 0, 0, 0, 0, 4, 4, 4, 2, 5, 1, 1, 1, 4, 4, 2, 5, 5, 5, 5, 0, 4, 1,
   1, 1, 5]


/-! ## `get_best_move` with the search passed in -/

/-- One iteration of the scan of `get_best_move`, where `call` stands for the
call `minimax(copy, ai, human, 0, false)`. -/
def moveStepWith (call : Board → Option (Int × Board)) (ai : Char)
    (st : Int × Int × Board) (i : Fin 9) : Option (Int × Int × Board) :=
  if st.2.2 i = ' ' then
    match call (setCell st.2.2 i ai) with
    | some (moveVal, c1) =>
      some (if moveVal > st.1 then (moveVal, (i.val : Int), setCell c1 i ' ')
            else (st.1, st.2.1, setCell c1 i ' '))
    | none => none
  else some st

/-- The function `get_best_move` with `call` in the place of `minimax`. -/
def get_best_move_with (call : Board → Option (Int × Board)) (board : Board)
    (ai : Char) : Option Int :=
  match cells.foldlM (moveStepWith call ai) (INT_MIN, -1, board) with
  | some (_, bestMove, _) => some (if bestMove = -1 then 0 else bestMove)
  | none => none


/-- The board `_ _ _ / X X O / _ O O`, on which `'O'` threatens the cells 2
and 6. -/
def doubleThreatBoard : Board := ofList [' ', ' ', ' ', 'X', 'X', 'O', ' ', 'O', 'O']


/-! ## The search with every `int` operation checked -/

/-- The result of an `int` operation whose mathematical value is `x`: defined
only when `x` fits a 32-bit `int`. -/
def checked (x : Int) : Option Int :=
  if INT_MIN ≤ x ∧ x ≤ INT_MAX then some x else none

/-- One iteration of the maximising loop on immutable boards, where `g i` is
the outcome of the recursive call for cell `i`, if it has one. -/
def chkMaxStep (b : Board) (g : Fin 9 → Option Int) (best : Int) (i : Fin 9) :
    Option Int :=
  if b i = ' ' then
    match g i with
    | some val => some (if val > best then val else best)
    | none => none
  else some best

/-- One iteration of the minimising loop on immutable boards. -/
def chkMinStep (b : Board) (g : Fin 9 → Option Int) (best : Int) (i : Fin 9) :
    Option Int :=
  if b i = ' ' then
    match g i with
    | some val => some (if val < best then val else best)
    | none => none
  else some best

/-- The value computed by `minimax` when the operations `score - depth`,
`score + depth` and `depth + 1` are only allowed results that fit an `int`:
`none` as soon as one of them overflows (or the nesting bound is reached). -/
def minimaxChecked : Nat → Board → Char → Char → Int → Bool → Option Int
  | 0, _, _, _, _, _ => none
  | fuel + 1, board, ai, human, depth, isMax =>
    let score := evaluate_board board ai human
    if score = 10 then checked (score - depth)
    else if score = -10 then checked (score + depth)
    else if !hasEmpty board then some 0
    else if isMax then
      cells.foldlM (chkMaxStep board (fun i =>
        match checked (depth + 1) with
        | some d1 => minimaxChecked fuel (setCell board i ai) ai human d1 false
        | none => none)) INT_MIN
    else
      cells.foldlM (chkMinStep board (fun i =>
        match checked (depth + 1) with
        | some d1 => minimaxChecked fuel (setCell board i human) ai human d1 true
        | none => none)) INT_MAX


/-! ## The click-to-cell mapping of the GUIs -/

/-- The local `gridSize` of the mouse handlers of `gui_main.c` and
`gui_main_openai.c`. -/
def gridSize : Int := 500

/-- The local `cellW = gridSize / 3` (integer division). -/
def cellW : Int := gridSize / 3

/-- The index `idx = cy * 3 + cx`, with `cx = gx / cellW` and `cy = gy / cellW`,
that the mouse handlers compute for a position `(gx, gy)` relative to the grid
origin; `none` when the guard
`gx >= 0 && gy >= 0 && gx < gridSize && gy < gridSize` fails.  All operands of
the divisions are non-negative, where the C division and `/` agree. -/
def clickIndex (gx gy : Int) : Option Int :=
  if gx ≥ 0 ∧ gy ≥ 0 ∧ gx < gridSize ∧ gy < gridSize then
    some ((gy / cellW) * 3 + gx / cellW)
  else none

/-! ## `openai_ai.c` -/

/-- The test `response[i] >= '0' && response[i] <= '8'`. -/
def isMoveDigit (c : Char) : Bool := decide ('0' ≤ c) && decide (c ≤ '8')

/-- The value `response[i] - '0'`. -/
def digitValue (c : Char) : Int := (c.toNat : Int) - ('0'.toNat : Int)

/-- The read `board[k]` for an `int` index `k`; an index outside the array has
no defined value. -/
def readAt (b : Board) (k : Int) : Option Char :=
  if h : 0 ≤ k ∧ k < 9 then some (b ⟨k.toNat, by omega⟩) else none

/-- The parsing loop of `openai_get_move` over the characters of the response
still to be read, `move` being the value of the variable so far: a digit
`'0'..'8'` is stored, and the loop is left when its cell is empty. -/
def parseLoop (b : Board) : List Char → Int → Option Int
  | [], move => some move
  | c :: rest, move =>
    if isMoveDigit c then
      match readAt b (digitValue c) with
      | some x => if x = ' ' then some (digitValue c) else parseLoop b rest (digitValue c)
      | none => none
    else parseLoop b rest move

/-- The fallback loop of `openai_get_move`: the first empty cell of the scan
replaces `move`, which is kept when there is none. -/
def firstEmpty (b : Board) : List (Fin 9) → Int → Int
  | [], move => move
  | i :: rest, move => if b i = ' ' then (i.val : Int) else firstEmpty b rest move

/-- The function `openai_get_move`, where `response` is what `call_openai`
returned for the prompt: `none` for `NULL`, else the characters of the text
before its terminator.  The marks only go into the prompt.  The result is
`none` if an array read has no defined value. -/
def openai_get_move (board : Board) (_player _opponent : Char)
    (response : Option (List Char)) : Option Int :=
  match response with
  | none => some (-1)
  | some text =>
    match parseLoop board text (-1) with
    | none => none
    | some move =>
      if move = -1 then some (firstEmpty board cells move)
      else
        match readAt board move with
        | some x => if x ≠ ' ' then some (firstEmpty board cells move) else some move
        | none => none


/-! ### The frame step of `gui_main_openai.c`

The state holds the variables of `main` that the event handlers, the AI turn and the end-of-game
check read or write.  The animation variables (`place_scale`, `place_alpha`, `lastTime`) are left
out: they are written by the handlers and read only by the renderer. -/

/-- The enumeration `Scene`. -/
inductive Scene where
  | SCENE_WELCOME | SCENE_MODE_SELECT | SCENE_AI_SELECT | SCENE_GAME | SCENE_POPUP
  deriving DecidableEq

/-- The enumeration `GameMode`. -/
inductive GameMode where
  | MODE_AI | MODE_TWO_PLAYER
  deriving DecidableEq

/-- The enumeration `AIType`. -/
inductive AIType where
  | AI_LOCAL | AI_OPENAI
  deriving DecidableEq

/-- The structure `Score`. -/
structure Score where
  /-- The field `x_wins`. -/
  x_wins : Int
  /-- The field `o_wins`. -/
  o_wins : Int
  /-- The field `draws`. -/
  draws : Int
  deriving DecidableEq

/-- The structure `SDL_Rect`. -/
structure SDL_Rect where
  /-- The field `x`. -/
  x : Int
  /-- The field `y`. -/
  y : Int
  /-- The field `w`. -/
  w : Int
  /-- The field `h`. -/
  h : Int

/-- The library function `SDL_PointInRect`: the point lies in the half-open rectangle. -/
def SDL_PointInRect (px py : Int) (r : SDL_Rect) : Bool :=
  decide (px ≥ r.x) && decide (px < r.x + r.w) && decide (py ≥ r.y) && decide (py < r.y + r.h)

/-- The local `gridX` of the mouse handlers. -/
def gridX : Int := 150

/-- The local `gridY` of the mouse handlers. -/
def gridY : Int := 280

/-- The variables of `main` in `gui_main_openai.c`. -/
structure Gui where
  /-- The variable `running`. -/
  running : Bool
  /-- The variable `scene`. -/
  scene : Scene
  /-- The variable `gameMode`. -/
  gameMode : GameMode
  /-- The variable `aiType`. -/
  aiType : AIType
  /-- The variable `mouseX`. -/
  mouseX : Int
  /-- The variable `mouseY`. -/
  mouseY : Int
  /-- The array `board`. -/
  board : Board
  /-- The variable `current_player`. -/
  current_player : Char
  /-- The variable `human`. -/
  human : Char
  /-- The variable `ai`. -/
  ai : Char
  /-- The variable `player_can_move`. -/
  player_can_move : Int
  /-- The variable `ai_thinking`. -/
  ai_thinking : Bool
  /-- The variable `hover_cell`. -/
  hover_cell : Int
  /-- The variable `score`. -/
  score : Score
  /-- The variable `aiThinkStartTime`, a `Uint32`. -/
  aiThinkStartTime : Nat

/-- The values of the variables on entry to the `while (running)` loop. -/
def initGui : Gui :=
  { running := true, scene := Scene.SCENE_WELCOME, gameMode := GameMode.MODE_AI,
    aiType := AIType.AI_LOCAL, mouseX := 0, mouseY := 0, board := init_board,
    current_player := 'X', human := 'X', ai := 'O', player_can_move := 1,
    ai_thinking := false, hover_cell := -1, score := ⟨0, 0, 0⟩, aiThinkStartTime := 0 }

/-- The events the loop distinguishes: `SDL_QUIT`, `SDL_MOUSEMOTION` at a position,
`SDL_MOUSEBUTTONDOWN` of the left button at a position (with the value `SDL_GetTicks()` has when
the event is handled), and any other event. -/
inductive Event where
  | quit
  | motion (x y : Int)
  | leftDown (x y : Int) (ticks : Nat)
  | other

/-- The body of the `SDL_MOUSEMOTION` branch. -/
def onMotion (s : Gui) (x y : Int) : Option Gui :=
  if s.scene = Scene.SCENE_GAME then
    match clickIndex (x - gridX) (y - gridY) with
    | some idx =>
      match readAt s.board idx with
      | some c =>
        if s.gameMode = GameMode.MODE_TWO_PLAYER then
          some { s with mouseX := x, mouseY := y, hover_cell := if c = ' ' then idx else -1 }
        else
          some { s with mouseX := x, mouseY := y,
                        hover_cell := if c = ' ' ∧ s.player_can_move ≠ 0 ∧ s.ai_thinking = false
                                      then idx else -1 }
      | none => none
    | none => some { s with mouseX := x, mouseY := y, hover_cell := -1 }
  else some { s with mouseX := x, mouseY := y }

/-- The body of the branch `scene == SCENE_GAME && !ai_thinking` of the click handler. -/
def onGameClick (s : Gui) (mx my : Int) (ticks : Nat) : Option Gui :=
  match clickIndex (mx - gridX) (my - gridY) with
  | some idx =>
    match readAt s.board idx with
    | some c =>
      if c = ' ' then
        if s.gameMode = GameMode.MODE_TWO_PLAYER then
          match writeAt s.board idx s.current_player with
          | some b =>
            some { s with board := b,
                          current_player := if s.current_player = 'X' then 'O' else 'X' }
          | none => none
        else if s.gameMode = GameMode.MODE_AI ∧ s.player_can_move ≠ 0 then
          match writeAt s.board idx s.human with
          | some b =>
            some { s with board := b, player_can_move := 0, ai_thinking := true,
                          aiThinkStartTime := ticks % 2 ^ 32 }
          | none => none
        else some s
      else some s
    | none => none
  | none => some s

/-- The body of the `SDL_MOUSEBUTTONDOWN` branch for the left button. -/
def onLeftDown (openai_available : Bool) (s : Gui) (mx my : Int) (ticks : Nat) : Option Gui :=
  match s.scene with
  | Scene.SCENE_WELCOME =>
    if SDL_PointInRect mx my ⟨250, 380, 300, 70⟩ then
      some { s with scene := Scene.SCENE_MODE_SELECT }
    else if SDL_PointInRect mx my ⟨250, 480, 300, 70⟩ then
      some { s with running := false }
    else some s
  | Scene.SCENE_MODE_SELECT =>
    if SDL_PointInRect mx my ⟨150, 250, 500, 100⟩ then
      some { s with gameMode := GameMode.MODE_AI, scene := Scene.SCENE_AI_SELECT }
    else if SDL_PointInRect mx my ⟨150, 380, 500, 100⟩ then
      some { s with gameMode := GameMode.MODE_TWO_PLAYER, scene := Scene.SCENE_GAME,
                    board := init_board, current_player := 'X', player_can_move := 1,
                    ai_thinking := false }
    else if SDL_PointInRect mx my ⟨250, 520, 300, 70⟩ then
      some { s with scene := Scene.SCENE_WELCOME }
    else some s
  | Scene.SCENE_AI_SELECT =>
    if SDL_PointInRect mx my ⟨100, 200, 600, 120⟩ then
      some { s with aiType := AIType.AI_LOCAL, scene := Scene.SCENE_GAME, board := init_board,
                    current_player := 'X', human := 'X', ai := 'O', player_can_move := 1,
                    ai_thinking := false }
    else if SDL_PointInRect mx my ⟨100, 350, 600, 120⟩ then
      if openai_available then
        some { s with aiType := AIType.AI_OPENAI, scene := Scene.SCENE_GAME, board := init_board,
                      current_player := 'X', human := 'X', ai := 'O', player_can_move := 1,
                      ai_thinking := false }
      else some s
    else if SDL_PointInRect mx my ⟨250, 520, 300, 70⟩ then
      some { s with scene := Scene.SCENE_MODE_SELECT }
    else some s
  | Scene.SCENE_GAME =>
    if s.ai_thinking then some s else onGameClick s mx my ticks
  | Scene.SCENE_POPUP =>
    some { s with board := init_board, scene := Scene.SCENE_WELCOME, current_player := 'X',
                  ai_thinking := false }

/-- The body of the loop `while (SDL_PollEvent(&e))` for one event. -/
def handleEvent (openai_available : Bool) (s : Gui) : Event → Option Gui
  | Event.quit => some { s with running := false }
  | Event.motion x y => onMotion s x y
  | Event.leftDown x y ticks => onLeftDown openai_available s x y ticks
  | Event.other => some s

/-- The move `mv` the AI turn settles on: the remote one if it is usable, else the one of
`get_best_move`.  `response` is what `call_openai` returns inside `openai_get_move`. -/
def chooseMove (openai_available : Bool) (s : Gui) (response : Option (List Char)) : Option Int :=
  if s.aiType = AIType.AI_OPENAI ∧ openai_available = true then
    match openai_get_move s.board s.ai s.human response with
    | some mv =>
      if mv < 0 ∨ mv ≥ 9 then get_best_move s.board s.ai s.human
      else
        match readAt s.board mv with
        | some c => if c ≠ ' ' then get_best_move s.board s.ai s.human else some mv
        | none => none
    | none => none
  else get_best_move s.board s.ai s.human

/-- The block `// AI turn (only in AI mode)`; `now` is the `Uint32` value of `SDL_GetTicks()`
of this frame, and the difference `now - aiThinkStartTime` is taken modulo `2^32`. -/
def aiTurn (openai_available : Bool) (s : Gui) (now : Nat) (response : Option (List Char)) :
    Option Gui :=
  if s.gameMode = GameMode.MODE_AI ∧ s.ai_thinking = true ∧ check_winner s.board = ' '
      ∧ s.scene = Scene.SCENE_GAME then
    if (now % 2 ^ 32 + 2 ^ 32 - s.aiThinkStartTime % 2 ^ 32) % 2 ^ 32
        > (if s.aiType = AIType.AI_OPENAI then 500 else 300) then
      match chooseMove openai_available s response with
      | some mv =>
        if mv ≥ 0 ∧ mv < 9 then
          match readAt s.board mv with
          | some c =>
            if c = ' ' then
              match writeAt s.board mv s.ai with
              | some b => some { s with board := b, player_can_move := 1, ai_thinking := false }
              | none => none
            else some { s with player_can_move := 1, ai_thinking := false }
          | none => none
        else some { s with player_can_move := 1, ai_thinking := false }
      | none => none
    else some s
  else some s

/-- The block `// Check end game`. -/
def endCheck (s : Gui) : Gui :=
  if check_winner s.board ≠ ' ' ∧ s.scene = Scene.SCENE_GAME ∧ s.ai_thinking = false then
    { s with
      score :=
        if check_winner s.board = 'X' then { s.score with x_wins := s.score.x_wins + 1 }
        else if check_winner s.board = 'O' then { s.score with o_wins := s.score.o_wins + 1 }
        else if check_winner s.board = 'T' then { s.score with draws := s.score.draws + 1 }
        else s.score,
      scene := Scene.SCENE_POPUP }
  else s

/-- One pass through the body of `while (running)`, up to the rendering: the pending events are
handled in order, then the AI turn, then the end-of-game check. -/
def frame (openai_available : Bool) (s : Gui) (events : List Event) (now : Nat)
    (response : Option (List Char)) : Option Gui :=
  match events.foldlM (handleEvent openai_available) s with
  | some s1 =>
    match aiTurn openai_available s1 now response with
    | some s2 => some (endCheck s2)
    | none => none
  | none => none

/-- A sequence of frames, each with its events, its clock value and the remote reply (if the
frame asks for one). -/
def runFrames (openai_available : Bool) :
    Gui → List (List Event × Nat × Option (List Char)) → Option Gui
  | s, [] => some s
  | s, (events, now, response) :: rest =>
    match frame openai_available s events now response with
    | some s1 => runFrames openai_available s1 rest
    | none => none

/-- What the end-of-game check is about: the winner of the board, the scene, the flag
`ai_thinking` and the score. -/
def tally (s : Gui) : Char × Scene × Bool × Score :=
  (check_winner s.board, s.scene, s.ai_thinking, s.score)

/-- A game against the remote AI that the human wins: Start, "vs AI", "OpenAI", then the human
takes cells 0, 1 and 2 while the remote replies are "3" and "4". -/
def humanWinsFrames : List (List Event × Nat × Option (List Char)) :=
  [ ([Event.leftDown 300 400 100], 100, none),
    ([Event.leftDown 200 300 200], 200, none),
    ([Event.leftDown 200 400 300], 300, none),
    ([Event.leftDown 160 290 1000], 1000, none),
    ([], 2000, some ['3']),
    ([Event.leftDown 326 290 3000], 3000, none),
    ([], 4000, some ['4']),
    ([Event.leftDown 492 290 5000], 5000, none) ]

/-- A two-player game on the same screen that `'X'` wins with the same cells. -/
def twoPlayerFrames : List (List Event × Nat × Option (List Char)) :=
  [ ([Event.leftDown 300 400 100], 100, none),
    ([Event.leftDown 200 400 200], 200, none),
    ([Event.leftDown 160 290 1000], 1000, none),
    ([Event.leftDown 160 456 2000], 2000, none),
    ([Event.leftDown 326 290 3000], 3000, none),
    ([Event.leftDown 326 456 4000], 4000, none),
    ([Event.leftDown 492 290 5000], 5000, none) ]


/-! ### The symmetries of the 3x3 grid -/

/-- The quarter turn of the grid on indices `row*3 + col`: the cell read at `(row, col)` is the
one at `(col, 2 - row)`. -/
def rotate (i : Fin 9) : Fin 9 :=
  ⟨3 * (i.val % 3) + (2 - i.val / 3), by have := i.isLt; omega⟩

/-- The reflection of the grid in its middle column: `(row, col)` and `(row, 2 - col)`. -/
def mirror (i : Fin 9) : Fin 9 :=
  ⟨3 * (i.val / 3) + (2 - i.val % 3), by have := i.isLt; omega⟩

/-- The 8 symmetries of the grid: the 4 rotations, and the 4 reflections (a rotation after
`mirror`). -/
def symmetries : List (Fin 9 → Fin 9) :=
  [id, rotate, rotate ∘ rotate, rotate ∘ rotate ∘ rotate,
   mirror, rotate ∘ mirror, rotate ∘ rotate ∘ mirror, rotate ∘ rotate ∘ rotate ∘ mirror]

/-- The board `s(board)`: its cell `i` is the cell `s i` of `board`. -/
def symBoard (s : Fin 9 → Fin 9) (b : Board) : Board := fun i => b (s i)

/-- The mark `m` has a complete triple on some line of `win_lines`. -/
def hasTriple (b : Board) (m : Char) : Bool := win_lines.any (lineOf b m)

/-- At most one of the marks `'X'` and `'O'` has a complete winning triple. -/
def oneWinner (b : Board) : Prop := ¬ (hasTriple b 'X' = true ∧ hasTriple b 'O' = true)

/-- What the proofs use of a symmetry `s`: it is a bijection of the cells, and a mark has a
triple on `s(board)` exactly when it has one on `board`. -/
def gridSym (s : Fin 9 → Fin 9) : Prop :=
  Function.Injective s ∧ Function.Surjective s
    ∧ ∀ (b : Board) (m : Char), hasTriple (symBoard s b) m = hasTriple b m

/-- A board after one move of each side: `'X'` in the top left corner, `'O'` in the centre. -/
def cornerBoard : Board := ofList ['X', ' ', ' ', ' ', 'O', ' ', ' ', ' ', ' ']

end TicTacToe

namespace TicTacToe

/-! ## Boards and empty cells -/

theorem mem_cells (i : Fin 9) : i ∈ cells := by
  revert i; decide

theorem cells_nodup : cells.Nodup := by decide

theorem setCell_same (b : Board) (i : Fin 9) (c : Char) : setCell b i c i = c := by
  simp [setCell]

theorem setCell_other (b : Board) (i j : Fin 9) (c : Char) (h : j ≠ i) :
    setCell b i c j = b j := by
  simp [setCell, Function.update_noteq h]

theorem setCell_undo (b : Board) (i : Fin 9) (c : Char) (h : b i = ' ') :
    setCell (setCell b i c) i ' ' = b := by
  funext j
  by_cases hj : j = i
  · subst hj; simp [setCell, h]
  · simp [setCell, Function.update_noteq hj]

theorem hasEmpty_iff (b : Board) : hasEmpty b = true ↔ ∃ i, b i = ' ' := by
  unfold hasEmpty
  rw [List.any_eq_true]
  constructor
  · rintro ⟨i, _, hi⟩
    exact ⟨i, by simpa using hi⟩
  · rintro ⟨i, hi⟩
    exact ⟨i, mem_cells i, by simpa using hi⟩

theorem countP_setCell (b : Board) (i : Fin 9) (c : Char) (hb : b i = ' ') (hc : c ≠ ' ')
    (l : List (Fin 9)) (hl : l.Nodup) :
    l.countP (fun j => setCell b i c j == ' ') + (if i ∈ l then 1 else 0)
      = l.countP (fun j => b j == ' ') := by
  induction l with
  | nil => simp
  | cons a t ih =>
    have hnd := List.nodup_cons.mp hl
    have iht := ih hnd.2
    by_cases ha : a = i
    · subst ha
      have hnot : a ∉ t := hnd.1
      simp only [hnot, if_false, Nat.add_zero] at iht
      simp [List.countP_cons, setCell_same, hb, hc, iht]
    · have hia : i ≠ a := fun h => ha h.symm
      by_cases hit : i ∈ t
      · simp only [hit, if_true] at iht
        simp only [List.countP_cons, setCell_other b i a c ha, List.mem_cons, hia, hit,
          false_or, if_true]
        omega
      · simp only [hit, if_false, Nat.add_zero] at iht
        simp only [List.countP_cons, setCell_other b i a c ha, List.mem_cons, hia, hit,
          false_or, if_false, Nat.add_zero]
        omega

theorem empties_setCell (b : Board) (i : Fin 9) (c : Char) (hb : b i = ' ')
    (hc : c ≠ ' ') : empties (setCell b i c) + 1 = empties b := by
  have h := countP_setCell b i c hb hc cells cells_nodup
  simpa [empties, mem_cells] using h

theorem empties_le (b : Board) : empties b ≤ 9 := by
  unfold empties
  exact le_trans (List.countP_le_length _) (by simp [cells])

theorem empties_pos (b : Board) (i : Fin 9) (hb : b i = ' ') : 0 < empties b := by
  unfold empties
  rw [List.countP_pos_iff]
  exact ⟨i, mem_cells i, by simpa using hb⟩

end TicTacToe

namespace TicTacToe

/-! ## Scans over the empty cells -/

theorem scanMax_cons (b : Board) (f : Fin 9 → Int) (a : Fin 9) (t : List (Fin 9))
    (init : Int) :
    scanMax b f (a :: t) init
      = scanMax b f t (if b a = ' ' then (if f a > init then f a else init) else init) := rfl

theorem scanMin_cons (b : Board) (f : Fin 9 → Int) (a : Fin 9) (t : List (Fin 9))
    (init : Int) :
    scanMin b f (a :: t) init
      = scanMin b f t (if b a = ' ' then (if f a < init then f a else init) else init) := rfl

theorem scanMax_ge_init (b : Board) (f : Fin 9 → Int) (l : List (Fin 9)) (init : Int) :
    init ≤ scanMax b f l init := by
  induction l generalizing init with
  | nil => exact le_refl _
  | cons a t ih =>
    rw [scanMax_cons]
    refine le_trans ?_ (ih _)
    split_ifs <;> omega

theorem scanMin_le_init (b : Board) (f : Fin 9 → Int) (l : List (Fin 9)) (init : Int) :
    scanMin b f l init ≤ init := by
  induction l generalizing init with
  | nil => exact le_refl _
  | cons a t ih =>
    rw [scanMin_cons]
    refine le_trans (ih _) ?_
    split_ifs <;> omega

theorem scanMax_ge (b : Board) (f : Fin 9 → Int) (l : List (Fin 9)) (init : Int)
    (i : Fin 9) (hi : i ∈ l) (hb : b i = ' ') : f i ≤ scanMax b f l init := by
  induction l generalizing init with
  | nil => cases hi
  | cons a t ih =>
    rw [scanMax_cons]
    rcases List.mem_cons.mp hi with h | h
    · subst h
      refine le_trans ?_ (scanMax_ge_init b f t _)
      rw [if_pos hb]
      split_ifs <;> omega
    · exact ih _ h

theorem scanMin_le (b : Board) (f : Fin 9 → Int) (l : List (Fin 9)) (init : Int)
    (i : Fin 9) (hi : i ∈ l) (hb : b i = ' ') : scanMin b f l init ≤ f i := by
  induction l generalizing init with
  | nil => cases hi
  | cons a t ih =>
    rw [scanMin_cons]
    rcases List.mem_cons.mp hi with h | h
    · subst h
      refine le_trans (scanMin_le_init b f t _) ?_
      rw [if_pos hb]
      split_ifs <;> omega
    · exact ih _ h

theorem scanMax_mem (b : Board) (f : Fin 9 → Int) (l : List (Fin 9)) (init : Int) :
    scanMax b f l init = init ∨ ∃ i ∈ l, b i = ' ' ∧ f i = scanMax b f l init := by
  induction l generalizing init with
  | nil => exact Or.inl rfl
  | cons a t ih =>
    rw [scanMax_cons]
    rcases ih (if b a = ' ' then (if f a > init then f a else init) else init) with h | h
    · rw [h]
      by_cases hb : b a = ' '
      · by_cases hv : f a > init
        · right
          exact ⟨a, List.mem_cons_self _ _, hb, by simp [hb, hv]⟩
        · left; simp [hb, hv]
      · left; simp [hb]
    · obtain ⟨i, hi, hbi, hfi⟩ := h
      exact Or.inr ⟨i, List.mem_cons_of_mem _ hi, hbi, hfi⟩

theorem scanMin_mem (b : Board) (f : Fin 9 → Int) (l : List (Fin 9)) (init : Int) :
    scanMin b f l init = init ∨ ∃ i ∈ l, b i = ' ' ∧ f i = scanMin b f l init := by
  induction l generalizing init with
  | nil => exact Or.inl rfl
  | cons a t ih =>
    rw [scanMin_cons]
    rcases ih (if b a = ' ' then (if f a < init then f a else init) else init) with h | h
    · rw [h]
      by_cases hb : b a = ' '
      · by_cases hv : f a < init
        · right
          exact ⟨a, List.mem_cons_self _ _, hb, by simp [hb, hv]⟩
        · left; simp [hb, hv]
      · left; simp [hb]
    · obtain ⟨i, hi, hbi, hfi⟩ := h
      exact Or.inr ⟨i, List.mem_cons_of_mem _ hi, hbi, hfi⟩

/-- A scan that meets a value above its start value ends on one of the values. -/
theorem scanMax_attains (b : Board) (f : Fin 9 → Int) (l : List (Fin 9)) (init : Int)
    (i0 : Fin 9) (h0 : i0 ∈ l) (hb0 : b i0 = ' ') (hlt : init < f i0) :
    ∃ i ∈ l, b i = ' ' ∧ f i = scanMax b f l init := by
  rcases scanMax_mem b f l init with h | h
  · have := scanMax_ge b f l init i0 h0 hb0
    omega
  · exact h

theorem scanMin_attains (b : Board) (f : Fin 9 → Int) (l : List (Fin 9)) (init : Int)
    (i0 : Fin 9) (h0 : i0 ∈ l) (hb0 : b i0 = ' ') (hlt : f i0 < init) :
    ∃ i ∈ l, b i = ' ' ∧ f i = scanMin b f l init := by
  rcases scanMin_mem b f l init with h | h
  · have := scanMin_le b f l init i0 h0 hb0
    omega
  · exact h

theorem scanMax_congr (b : Board) (f g : Fin 9 → Int) (l : List (Fin 9)) (init : Int)
    (h : ∀ i, b i = ' ' → f i = g i) : scanMax b f l init = scanMax b g l init := by
  induction l generalizing init with
  | nil => rfl
  | cons a t ih =>
    rw [scanMax_cons, scanMax_cons]
    by_cases hb : b a = ' '
    · rw [h a hb]; exact ih _
    · simp only [hb, if_false]; exact ih _

theorem scanMin_congr (b : Board) (f g : Fin 9 → Int) (l : List (Fin 9)) (init : Int)
    (h : ∀ i, b i = ' ' → f i = g i) : scanMin b f l init = scanMin b g l init := by
  induction l generalizing init with
  | nil => rfl
  | cons a t ih =>
    rw [scanMin_cons, scanMin_cons]
    by_cases hb : b a = ' '
    · rw [h a hb]; exact ih _
    · simp only [hb, if_false]; exact ih _

/-- A map `g` that turns "keep the greater" into `op` carries the whole scan. -/
theorem scanMax_map {α : Type} (g : Int → α) (op : α → α → α)
    (hg : ∀ best v : Int, g (if v > best then v else best) = op (g best) (g v))
    (b : Board) (f : Fin 9 → Int) (l : List (Fin 9)) (init : Int) :
    g (scanMax b f l init)
      = l.foldl (fun acc i => if b i = ' ' then op acc (g (f i)) else acc) (g init) := by
  induction l generalizing init with
  | nil => rfl
  | cons a t ih =>
    rw [scanMax_cons, ih, List.foldl_cons]
    by_cases hb : b a = ' '
    · simp only [hb, if_true, hg]
    · simp only [hb, if_false]

theorem scanMin_map {α : Type} (g : Int → α) (op : α → α → α)
    (hg : ∀ best v : Int, g (if v < best then v else best) = op (g best) (g v))
    (b : Board) (f : Fin 9 → Int) (l : List (Fin 9)) (init : Int) :
    g (scanMin b f l init)
      = l.foldl (fun acc i => if b i = ' ' then op acc (g (f i)) else acc) (g init) := by
  induction l generalizing init with
  | nil => rfl
  | cons a t ih =>
    rw [scanMin_cons, ih, List.foldl_cons]
    by_cases hb : b a = ' '
    · simp only [hb, if_true, hg]
    · simp only [hb, if_false]

end TicTacToe

namespace TicTacToe

/-! ## The in-place search computes `mmVal` and restores the board -/

theorem foldlM_maxStep (call : Board → Option (Int × Board)) (ai : Char) (b : Board)
    (f : Fin 9 → Int)
    (hcall : ∀ i, b i = ' ' → call (setCell b i ai) = some (f i, setCell b i ai))
    (l : List (Fin 9)) (best : Int) :
    l.foldlM (maxStep call ai) (best, b) = some (scanMax b f l best, b) := by
  induction l generalizing best with
  | nil => rfl
  | cons a t ih =>
    rw [List.foldlM_cons, scanMax_cons]
    by_cases hb : b a = ' '
    · have h1 : maxStep call ai (best, b) a
          = some (if f a > best then f a else best, b) := by
        simp only [maxStep, hb, if_true, hcall a hb, setCell_undo b a ai hb]
      rw [h1, if_pos hb]
      exact ih _
    · have h1 : maxStep call ai (best, b) a = some (best, b) := by
        simp only [maxStep, hb, if_false]
      rw [h1, if_neg hb]
      exact ih _

theorem foldlM_minStep (call : Board → Option (Int × Board)) (human : Char) (b : Board)
    (f : Fin 9 → Int)
    (hcall : ∀ i, b i = ' ' → call (setCell b i human) = some (f i, setCell b i human))
    (l : List (Fin 9)) (best : Int) :
    l.foldlM (minStep call human) (best, b) = some (scanMin b f l best, b) := by
  induction l generalizing best with
  | nil => rfl
  | cons a t ih =>
    rw [List.foldlM_cons, scanMin_cons]
    by_cases hb : b a = ' '
    · have h1 : minStep call human (best, b) a
          = some (if f a < best then f a else best, b) := by
        simp only [minStep, hb, if_true, hcall a hb, setCell_undo b a human hb]
      rw [h1, if_pos hb]
      exact ih _
    · have h1 : minStep call human (best, b) a = some (best, b) := by
        simp only [minStep, hb, if_false]
      rw [h1, if_neg hb]
      exact ih _

/-- With more nested calls allowed than the board has empty cells, `minimax`
returns, its value is `mmVal`, and the board is back to what it was. -/
theorem minimaxFuel_eq (fuel : Nat) (b : Board) (ai human : Char) (depth : Int)
    (isMax : Bool) (hai : ai ≠ ' ') (hhu : human ≠ ' ') (hf : empties b < fuel) :
    minimaxFuel fuel b ai human depth isMax
      = some (mmVal fuel b ai human depth isMax, b) := by
  induction fuel generalizing b depth isMax with
  | zero => omega
  | succ n ih =>
    unfold minimaxFuel mmVal
    simp only []
    by_cases h1 : evaluate_board b ai human = 10
    · simp only [h1, if_true]
    · rw [if_neg h1, if_neg h1]
      by_cases h2 : evaluate_board b ai human = -10
      · simp only [h2, if_true]
      · rw [if_neg h2, if_neg h2]
        by_cases h3 : (!hasEmpty b) = true
        · simp only [h3, if_true]
        · rw [if_neg h3, if_neg h3]
          cases isMax with
          | true =>
            simp only [if_true]
            apply foldlM_maxStep
            intro i hi
            apply ih
            have := empties_setCell b i ai hi hai
            omega
          | false =>
            simp only [Bool.false_eq_true, if_false]
            apply foldlM_minStep
            intro i hi
            apply ih
            have := empties_setCell b i human hi hhu
            omega

theorem mmVal_fuel (n m : Nat) (b : Board) (ai human : Char) (depth : Int) (isMax : Bool)
    (hai : ai ≠ ' ') (hhu : human ≠ ' ') (hn : empties b < n) (hm : empties b < m) :
    mmVal n b ai human depth isMax = mmVal m b ai human depth isMax := by
  induction n generalizing m b depth isMax with
  | zero => omega
  | succ n ih =>
    cases m with
    | zero => omega
    | succ m =>
      unfold mmVal
      simp only []
      by_cases h1 : evaluate_board b ai human = 10
      · simp only [h1, if_true]
      · rw [if_neg h1, if_neg h1]
        by_cases h2 : evaluate_board b ai human = -10
        · simp only [h2, if_true]
        · rw [if_neg h2, if_neg h2]
          by_cases h3 : (!hasEmpty b) = true
          · simp only [h3, if_true]
          · rw [if_neg h3, if_neg h3]
            cases isMax with
            | true =>
              simp only [if_true]
              apply scanMax_congr
              intro i hi
              have := empties_setCell b i ai hi hai
              exact ih m _ _ _ (by omega) (by omega)
            | false =>
              simp only [Bool.false_eq_true, if_false]
              apply scanMin_congr
              intro i hi
              have := empties_setCell b i human hi hhu
              exact ih m _ _ _ (by omega) (by omega)

/-- The function `minimax` on any board: it returns `mmVal` and the same board. -/
theorem minimax_eq (b : Board) (ai human : Char) (depth : Int) (isMax : Bool)
    (hai : ai ≠ ' ') (hhu : human ≠ ' ') :
    minimax b ai human depth isMax = some (mmVal 10 b ai human depth isMax, b) := by
  unfold minimax
  exact minimaxFuel_eq 10 b ai human depth isMax hai hhu
    (Nat.lt_succ_of_le (empties_le b))

/-- The candidate value of cell `i` on immutable boards. -/
theorem cellValue_eq (b : Board) (ai human : Char) (i : Fin 9)
    (hai : ai ≠ ' ') (hhu : human ≠ ' ') :
    cellValue b ai human i = some (mmVal 10 (setCell b i ai) ai human 0 false) := by
  unfold cellValue
  rw [minimax_eq _ _ _ _ _ hai hhu]
  rfl

theorem scanBest_cons (b : Board) (f : Fin 9 → Int) (a : Fin 9) (t : List (Fin 9))
    (init : Int × Int) :
    scanBest b f (a :: t) init
      = scanBest b f t
          (if b a = ' ' then (if f a > init.1 then (f a, (a.val : Int)) else init)
           else init) := rfl

theorem foldlM_moveStep (ai human : Char) (hai : ai ≠ ' ') (hhu : human ≠ ' ')
    (b : Board) (l : List (Fin 9)) (bv bm : Int) :
    l.foldlM (moveStep ai human) (bv, bm, b)
      = some ((scanBest b (fun i => mmVal 10 (setCell b i ai) ai human 0 false) l
                (bv, bm)).1,
              (scanBest b (fun i => mmVal 10 (setCell b i ai) ai human 0 false) l
                (bv, bm)).2, b) := by
  induction l generalizing bv bm with
  | nil => rfl
  | cons a t ih =>
    rw [List.foldlM_cons, scanBest_cons]
    by_cases hb : b a = ' '
    · by_cases hv : mmVal 10 (setCell b a ai) ai human 0 false > bv
      · have h1 : moveStep ai human (bv, bm, b) a
            = some (mmVal 10 (setCell b a ai) ai human 0 false, (a.val : Int), b) := by
          simp only [moveStep, hb, if_true, minimax_eq _ _ _ _ _ hai hhu, hv,
            setCell_undo b a ai hb]
        rw [h1]
        simp only [hb, hv, if_true]
        exact ih _ _
      · have h1 : moveStep ai human (bv, bm, b) a = some (bv, bm, b) := by
          simp only [moveStep, hb, if_true, minimax_eq _ _ _ _ _ hai hhu, hv, if_false,
            setCell_undo b a ai hb]
        rw [h1]
        simp only [hb, hv, if_true, if_false]
        exact ih _ _
    · have h1 : moveStep ai human (bv, bm, b) a = some (bv, bm, b) := by
        simp only [moveStep, hb, if_false]
      rw [h1]
      simp only [hb, if_false]
      exact ih _ _

/-- The function `get_best_move` in terms of the scan over candidate values. -/
theorem get_best_move_eq (b : Board) (ai human : Char) (hai : ai ≠ ' ')
    (hhu : human ≠ ' ') :
    get_best_move b ai human
      = some (if (scanBest b (fun i => mmVal 10 (setCell b i ai) ai human 0 false) cells
                    (INT_MIN, -1)).2 = -1 then 0
              else (scanBest b (fun i => mmVal 10 (setCell b i ai) ai human 0 false) cells
                    (INT_MIN, -1)).2) := by
  unfold get_best_move
  rw [foldlM_moveStep ai human hai hhu]

end TicTacToe

namespace TicTacToe

/-! ## Bounds on the search value -/

theorem evaluate_board_cases (b : Board) (ai human : Char) :
    evaluate_board b ai human = 10 ∨ evaluate_board b ai human = -10
      ∨ evaluate_board b ai human = 0 := by
  unfold evaluate_board
  simp only []
  split_ifs <;> simp

/-- At depth `d` on a board with `e` empty cells, `d + e ≤ 10`, the value lies
between `-10 + d` and `10 - d`. -/
theorem mmVal_bounds (n : Nat) (b : Board) (ai human : Char) (d : Int) (isMax : Bool)
    (hai : ai ≠ ' ') (hhu : human ≠ ' ') (hn : empties b < n) (hd : 0 ≤ d)
    (hde : d + empties b ≤ 10) :
    -10 + d ≤ mmVal n b ai human d isMax ∧ mmVal n b ai human d isMax ≤ 10 - d := by
  induction n generalizing b d isMax with
  | zero => omega
  | succ n ih =>
    unfold mmVal
    simp only []
    by_cases h1 : evaluate_board b ai human = 10
    · simp only [h1, if_true]; omega
    · rw [if_neg h1]
      by_cases h2 : evaluate_board b ai human = -10
      · simp only [h2, if_true]; omega
      · rw [if_neg h2]
        by_cases h3 : (!hasEmpty b) = true
        · simp only [h3, if_true]; omega
        · rw [if_neg h3]
          have he : hasEmpty b = true := by simpa using h3
          obtain ⟨i0, hi0⟩ := (hasEmpty_iff b).mp he
          have hchild : ∀ (c : Char) (m : Bool), c ≠ ' ' → ∀ i, b i = ' ' →
              -10 + (d + 1) ≤ mmVal n (setCell b i c) ai human (d + 1) m
                ∧ mmVal n (setCell b i c) ai human (d + 1) m ≤ 10 - (d + 1) := by
            intro c m hc i hi
            have := empties_setCell b i c hi hc
            exact ih _ _ _ (by omega) (by omega) (by omega)
          cases isMax with
          | true =>
            simp only [if_true]
            obtain ⟨i, _, hbi, hfi⟩ := scanMax_attains b
              (fun i => mmVal n (setCell b i ai) ai human (d + 1) false) cells INT_MIN
              i0 (mem_cells i0) hi0
              (by have := (hchild ai false hai i0 hi0).1; simp only [INT_MIN]; omega)
            rw [← hfi]
            have := hchild ai false hai i hbi
            constructor <;> omega
          | false =>
            simp only [Bool.false_eq_true, if_false]
            obtain ⟨i, _, hbi, hfi⟩ := scanMin_attains b
              (fun i => mmVal n (setCell b i human) ai human (d + 1) true) cells INT_MAX
              i0 (mem_cells i0) hi0
              (by have := (hchild human true hhu i0 hi0).2; simp only [INT_MAX]; omega)
            rw [← hfi]
            have := hchild human true hhu i hbi
            constructor <;> omega

/-- Every candidate value of `get_best_move` lies in `[-10, 10]`. -/
theorem candidate_bounds (b : Board) (ai human : Char) (i : Fin 9)
    (hai : ai ≠ ' ') (hhu : human ≠ ' ') (hb : b i = ' ') :
    -10 ≤ mmVal 10 (setCell b i ai) ai human 0 false
      ∧ mmVal 10 (setCell b i ai) ai human 0 false ≤ 10 := by
  have he := empties_setCell b i ai hb hai
  have h9 := empties_le b
  have := mmVal_bounds 10 (setCell b i ai) ai human 0 false hai hhu (by omega)
    (le_refl _) (by omega)
  omega

/-! ## The scan of `get_best_move` -/

/-- The scan keeps its start state when no empty cell beats it, and otherwise
ends on the first cell, in list order, carrying the greatest value. -/
theorem scanBest_spec (b : Board) (f : Fin 9 → Int) (l : List (Fin 9))
    (hl : l.Pairwise (fun x y => x < y)) (bv bm : Int) :
    (scanBest b f l (bv, bm) = (bv, bm) ∧ ∀ j ∈ l, b j = ' ' → f j ≤ bv)
    ∨ ∃ i ∈ l, b i = ' ' ∧ scanBest b f l (bv, bm) = (f i, (i.val : Int)) ∧ bv < f i
        ∧ ∀ j ∈ l, b j = ' ' → f j ≤ f i ∧ (f j = f i → i ≤ j) := by
  induction l generalizing bv bm with
  | nil => exact Or.inl ⟨rfl, fun j hj => by cases hj⟩
  | cons a t ih =>
    have hp := List.pairwise_cons.mp hl
    rw [scanBest_cons]
    by_cases hb : b a = ' '
    · by_cases hv : f a > bv
      · simp only [hb, hv, if_true]
        right
        rcases ih hp.2 (f a) (a.val : Int) with ⟨heq, hall⟩ | ⟨i, hi, hbi, heq, hlt, hall⟩
        · refine ⟨a, List.mem_cons_self _ _, hb, heq, hv, ?_⟩
          intro j hj hbj
          rcases List.mem_cons.mp hj with h | h
          · subst h; exact ⟨le_refl _, fun _ => le_refl _⟩
          · exact ⟨hall j h hbj, fun _ => le_of_lt (hp.1 j h)⟩
        · refine ⟨i, List.mem_cons_of_mem _ hi, hbi, heq, by omega, ?_⟩
          intro j hj hbj
          rcases List.mem_cons.mp hj with h | h
          · subst h; exact ⟨by omega, fun h => by omega⟩
          · exact hall j h hbj
      · simp only [hb, hv, if_true, if_false]
        rcases ih hp.2 bv bm with ⟨heq, hall⟩ | ⟨i, hi, hbi, heq, hlt, hall⟩
        · left
          refine ⟨heq, ?_⟩
          intro j hj hbj
          rcases List.mem_cons.mp hj with h | h
          · subst h; omega
          · exact hall j h hbj
        · right
          refine ⟨i, List.mem_cons_of_mem _ hi, hbi, heq, hlt, ?_⟩
          intro j hj hbj
          rcases List.mem_cons.mp hj with h | h
          · subst h; exact ⟨by omega, fun h => by omega⟩
          · exact hall j h hbj
    · simp only [hb, if_false]
      rcases ih hp.2 bv bm with ⟨heq, hall⟩ | ⟨i, hi, hbi, heq, hlt, hall⟩
      · left
        refine ⟨heq, ?_⟩
        intro j hj hbj
        rcases List.mem_cons.mp hj with h | h
        · subst h; exact absurd hbj hb
        · exact hall j h hbj
      · right
        refine ⟨i, List.mem_cons_of_mem _ hi, hbi, heq, hlt, ?_⟩
        intro j hj hbj
        rcases List.mem_cons.mp hj with h | h
        · subst h; exact absurd hbj hb
        · exact hall j h hbj

theorem cells_sorted : cells.Pairwise (fun x y => x < y) := by decide

/-- On a board with an empty cell, `get_best_move` returns the first empty cell
that carries the greatest candidate value. -/
theorem get_best_move_argmax (b : Board) (ai human : Char) (hai : ai ≠ ' ')
    (hhu : human ≠ ' ') (hne : ∃ i, b i = ' ') :
    ∃ i : Fin 9, get_best_move b ai human = some (i.val : Int) ∧ b i = ' '
      ∧ ∀ j, b j = ' ' →
          mmVal 10 (setCell b j ai) ai human 0 false
              ≤ mmVal 10 (setCell b i ai) ai human 0 false
          ∧ (mmVal 10 (setCell b j ai) ai human 0 false
              = mmVal 10 (setCell b i ai) ai human 0 false → i ≤ j) := by
  obtain ⟨i0, hi0⟩ := hne
  rw [get_best_move_eq b ai human hai hhu]
  rcases scanBest_spec b (fun i => mmVal 10 (setCell b i ai) ai human 0 false) cells
      cells_sorted INT_MIN (-1) with ⟨_, hall⟩ | ⟨i, _, hbi, heq, _, hall⟩
  · have h1 := hall i0 (mem_cells i0) hi0
    have h2 := (candidate_bounds b ai human i0 hai hhu hi0).1
    simp only [INT_MIN] at h1
    omega
  · refine ⟨i, ?_, hbi, fun j hj => hall j (mem_cells j) hj⟩
    rw [heq]
    have : ¬ ((i.val : Int) = -1) := by omega
    simp only [this, if_false]

end TicTacToe

namespace TicTacToe

/-! ## The move returned by `get_best_move` -/

/-- C1: on every board with at least one empty cell, for distinct marks `ai`
and `human` both different from `' '`, `get_best_move` returns an index between
0 and 8 whose cell is empty. -/
theorem get_best_move_returns_empty_cell (board : Board) (ai human : Char)
    (hai : ai ≠ ' ') (hhu : human ≠ ' ') (_hd : ai ≠ human)
    (hne : ∃ i, board i = ' ') :
    ∃ r : Int, get_best_move board ai human = some r ∧ 0 ≤ r ∧ r ≤ 8
      ∧ ∃ i : Fin 9, (i.val : Int) = r ∧ board i = ' ' := by
  obtain ⟨i, hr, hbi, _⟩ := get_best_move_argmax board ai human hai hhu hne
  refine ⟨(i.val : Int), hr, by omega, by omega, i, rfl, hbi⟩

theorem get_best_move_returns_empty_cell_witness :
    ∃ r : Int, get_best_move (ofList ['X', 'X', ' ', ' ', 'O', ' ', ' ', 'O', ' ']) 'X' 'O'
        = some r ∧ 0 ≤ r ∧ r ≤ 8
      ∧ ∃ i : Fin 9, (i.val : Int) = r
          ∧ ofList ['X', 'X', ' ', ' ', 'O', ' ', ' ', 'O', ' '] i = ' ' :=
  get_best_move_returns_empty_cell (ofList ['X', 'X', ' ', ' ', 'O', ' ', ' ', 'O', ' '])
    'X' 'O' (by decide) (by decide) (by decide) ⟨2, by decide⟩

/-- C10: on every board with at least one empty cell, for distinct marks both
different from `' '`, `get_best_move` returns the smallest index `i` among the
empty cells whose value `v(i)` (the result of `minimax` on the board with `ai`
placed at `i`, depth 0, opponent to move) is the greatest value over all empty
cells. -/
theorem get_best_move_first_maximum (board : Board) (ai human : Char)
    (hai : ai ≠ ' ') (hhu : human ≠ ' ') (_hd : ai ≠ human)
    (hne : ∃ i, board i = ' ') :
    ∃ (i : Fin 9) (vi : Int), get_best_move board ai human = some (i.val : Int)
      ∧ board i = ' ' ∧ cellValue board ai human i = some vi
      ∧ ∀ j, board j = ' ' →
          ∃ vj, cellValue board ai human j = some vj ∧ vj ≤ vi ∧ (vj = vi → i ≤ j) := by
  obtain ⟨i, hr, hbi, hall⟩ := get_best_move_argmax board ai human hai hhu hne
  refine ⟨i, _, hr, hbi, cellValue_eq board ai human i hai hhu, ?_⟩
  intro j hj
  exact ⟨_, cellValue_eq board ai human j hai hhu, hall j hj⟩

theorem get_best_move_first_maximum_witness :
    ∃ (i : Fin 9) (vi : Int),
      get_best_move (ofList ['X', 'O', 'X', 'O', ' ', ' ', 'O', 'X', ' ']) 'X' 'O'
        = some (i.val : Int)
      ∧ ofList ['X', 'O', 'X', 'O', ' ', ' ', 'O', 'X', ' '] i = ' '
      ∧ cellValue (ofList ['X', 'O', 'X', 'O', ' ', ' ', 'O', 'X', ' ']) 'X' 'O' i = some vi
      ∧ ∀ j, ofList ['X', 'O', 'X', 'O', ' ', ' ', 'O', 'X', ' '] j = ' ' →
          ∃ vj, cellValue (ofList ['X', 'O', 'X', 'O', ' ', ' ', 'O', 'X', ' ']) 'X' 'O' j
              = some vj ∧ vj ≤ vi ∧ (vj = vi → i ≤ j) :=
  get_best_move_first_maximum (ofList ['X', 'O', 'X', 'O', ' ', ' ', 'O', 'X', ' '])
    'X' 'O' (by decide) (by decide) (by decide) ⟨4, by decide⟩

end TicTacToe

namespace TicTacToe

/-! ## `check_winner` -/

theorem lineWon_iff (b : Board) (l : Fin 9 × Fin 9 × Fin 9) :
    lineWon b l = true ↔ b l.1 ≠ ' ' ∧ b l.1 = b l.2.1 ∧ b l.2.1 = b l.2.2 := by
  simp [lineWon]

theorem hasLine_iff (b : Board) :
    hasLine b = true ↔ ∃ l ∈ win_lines, lineWon b l = true := by
  simp [hasLine, List.any_eq_true]

theorem hasLine_false_iff (b : Board) :
    hasLine b = false ↔ ∀ l ∈ win_lines, lineWon b l = false := by
  rw [← Bool.not_eq_true, hasLine_iff]
  simp

/-- The result of `check_winner`: the first cell of a complete line, or the
answer of the scan for an empty cell. -/
theorem check_winner_cases (b : Board) :
    (∃ l ∈ win_lines, lineWon b l = true ∧ check_winner b = b l.1)
    ∨ (hasLine b = false ∧ check_winner b = if hasEmpty b then ' ' else 'T') := by
  unfold check_winner
  cases h : win_lines.find? (lineWon b) with
  | none =>
    right
    refine ⟨?_, rfl⟩
    rw [hasLine_false_iff]
    intro l hl
    have := List.find?_eq_none.mp h l hl
    simpa using this
  | some l =>
    left
    exact ⟨l, List.mem_of_find?_eq_some h, List.find?_some h, rfl⟩

theorem check_winner_noLine (b : Board) (h : hasLine b = false) :
    check_winner b = if hasEmpty b then ' ' else 'T' := by
  rcases check_winner_cases b with ⟨l, hl, hw, _⟩ | ⟨_, h2⟩
  · have := (hasLine_false_iff b).mp h l hl
    rw [this] at hw; cases hw
  · exact h2

theorem check_winner_space (b : Board) (h : check_winner b = ' ') :
    hasLine b = false ∧ hasEmpty b = true := by
  rcases check_winner_cases b with ⟨l, _, hw, he⟩ | ⟨hn, he⟩
  · have := ((lineWon_iff b l).mp hw).1
    rw [h] at he
    exact absurd he.symm this
  · refine ⟨hn, ?_⟩
    rw [h] at he
    by_cases hE : hasEmpty b = true
    · exact hE
    · rw [if_neg hE] at he
      exact absurd he (by decide)

theorem overXO_setCell (b : Board) (i : Fin 9) (c : Char) (hb : overXO b)
    (hc : c = 'X' ∨ c = 'O') : overXO (setCell b i c) := by
  intro j
  by_cases hj : j = i
  · subst hj; rw [setCell_same]; exact Or.inr hc
  · rw [setCell_other b i j c hj]; exact hb j

theorem xoPair_ai (ai human : Char) (h : xoPair ai human) : ai = 'X' ∨ ai = 'O' := by
  rcases h with ⟨h, _⟩ | ⟨h, _⟩
  · exact Or.inl h
  · exact Or.inr h

theorem xoPair_human (ai human : Char) (h : xoPair ai human) :
    human = 'X' ∨ human = 'O' := by
  rcases h with ⟨_, h⟩ | ⟨_, h⟩
  · exact Or.inr h
  · exact Or.inl h

theorem xoPair_facts (ai human : Char) (h : xoPair ai human) :
    ai ≠ ' ' ∧ human ≠ ' ' ∧ ai ≠ human ∧ ai ≠ 'T' ∧ human ≠ 'T' := by
  rcases h with ⟨h1, h2⟩ | ⟨h1, h2⟩ <;> subst h1 <;> subst h2 <;> decide

/-- On a board over `{' ', 'X', 'O'}`, `check_winner` answers one of the two
marks, or `' '` with an empty cell left, or `'T'` with none. -/
theorem check_winner_overXO (b : Board) (ai human : Char) (hb : overXO b)
    (hp : xoPair ai human) :
    check_winner b = ai ∨ check_winner b = human
      ∨ (check_winner b = ' ' ∧ hasEmpty b = true)
      ∨ (check_winner b = 'T' ∧ hasEmpty b = false) := by
  rcases check_winner_cases b with ⟨l, _, hw, he⟩ | ⟨_, he⟩
  · have hne := ((lineWon_iff b l).mp hw).1
    rw [he]
    rcases hb l.1 with h | h | h
    · exact absurd h hne
    · rcases hp with ⟨h1, h2⟩ | ⟨h1, h2⟩
      · left; rw [h, h1]
      · right; left; rw [h, h2]
    · rcases hp with ⟨h1, h2⟩ | ⟨h1, h2⟩
      · right; left; rw [h, h2]
      · left; rw [h, h1]
  · by_cases hE : hasEmpty b = true
    · right; right; left
      rw [he]; simp [hE]
    · right; right; right
      rw [he]; simp [hE]

end TicTacToe

namespace TicTacToe

/-! ## The sign of the search value is the plain minimax value -/

theorem foldEmpty_congr {α : Type} (b : Board) (op : α → α → α) (g g' : Fin 9 → α)
    (l : List (Fin 9)) (init : α) (h : ∀ i, b i = ' ' → g i = g' i) :
    foldEmpty b op g l init = foldEmpty b op g' l init := by
  induction l generalizing init with
  | nil => rfl
  | cons a t ih =>
    unfold foldEmpty at ih ⊢
    rw [List.foldl_cons, List.foldl_cons]
    by_cases hb : b a = ' '
    · simp only [hb, if_true, h a hb]; exact ih _
    · simp only [hb, if_false]; exact ih _

theorem scanMax_foldEmpty {α : Type} (g : Int → α) (op : α → α → α)
    (hg : ∀ best v : Int, g (if v > best then v else best) = op (g best) (g v))
    (b : Board) (f : Fin 9 → Int) (l : List (Fin 9)) (init : Int) :
    g (scanMax b f l init) = foldEmpty b op (fun i => g (f i)) l (g init) :=
  scanMax_map g op hg b f l init

theorem scanMin_foldEmpty {α : Type} (g : Int → α) (op : α → α → α)
    (hg : ∀ best v : Int, g (if v < best then v else best) = op (g best) (g v))
    (b : Board) (f : Fin 9 → Int) (l : List (Fin 9)) (init : Int) :
    g (scanMin b f l init) = foldEmpty b op (fun i => g (f i)) l (g init) :=
  scanMin_map g op hg b f l init

theorem sign_cases (v : Int) :
    (0 < v ∧ v.sign = 1) ∨ (v = 0 ∧ v.sign = 0) ∨ (v < 0 ∧ v.sign = -1) := by
  rcases lt_trichotomy v 0 with h | h | h
  · exact Or.inr (Or.inr ⟨h, Int.sign_eq_neg_one_of_neg h⟩)
  · exact Or.inr (Or.inl ⟨h, by rw [h]; rfl⟩)
  · exact Or.inl ⟨h, Int.sign_eq_one_of_pos h⟩

theorem sign_keep_greater (best v : Int) :
    (if v > best then v else best).sign = max best.sign v.sign := by
  rcases sign_cases best with ⟨h1, e1⟩ | ⟨h1, e1⟩ | ⟨h1, e1⟩ <;>
  rcases sign_cases v with ⟨h2, e2⟩ | ⟨h2, e2⟩ | ⟨h2, e2⟩ <;>
  split_ifs <;> simp only [e1, e2] <;> omega

theorem sign_keep_less (best v : Int) :
    (if v < best then v else best).sign = min best.sign v.sign := by
  rcases sign_cases best with ⟨h1, e1⟩ | ⟨h1, e1⟩ | ⟨h1, e1⟩ <;>
  rcases sign_cases v with ⟨h2, e2⟩ | ⟨h2, e2⟩ | ⟨h2, e2⟩ <;>
  split_ifs <;> simp only [e1, e2] <;> omega

/-- While every win or loss is scored at a depth below 10, the sign of the
depth-adjusted value is the plain minimax value. -/
theorem sign_mmVal (n : Nat) (b : Board) (ai human : Char) (d : Int) (isMax : Bool)
    (hb : overXO b) (hp : xoPair ai human) (hn : empties b < n) (hd : 0 ≤ d)
    (hde : d + empties b ≤ 9) :
    (mmVal n b ai human d isMax).sign = plainF n b ai human isMax := by
  obtain ⟨hai, hhu, hne, haT, hhT⟩ := xoPair_facts ai human hp
  induction n generalizing b d isMax with
  | zero => omega
  | succ n ih =>
    unfold mmVal plainF evaluate_board
    simp only []
    rcases check_winner_overXO b ai human hb hp with h | h | ⟨h, hE⟩ | ⟨h, hE⟩
    · have h10 : (10 - d).sign = 1 := Int.sign_eq_one_of_pos (by omega)
      simp [h, hai, h10]
    · have h10 : (-10 + d).sign = -1 := Int.sign_eq_neg_one_of_neg (by omega)
      simp [h, hhu, hne.symm, h10]
    · have hchild : ∀ (c : Char) (m : Bool), (c = 'X' ∨ c = 'O') → c ≠ ' ' →
          ∀ i, b i = ' ' →
            (mmVal n (setCell b i c) ai human (d + 1) m).sign
              = plainF n (setCell b i c) ai human m := by
        intro c m hc hc' i hi
        have := empties_setCell b i c hi hc'
        exact ih _ _ _ (overXO_setCell b i c hb hc) (by omega) (by omega) (by omega)
      have e1 : ¬ (' ' = ai) := fun h => hai h.symm
      have e2 : ¬ (' ' = human) := fun h => hhu h.symm
      have z1 : ¬ ((0 : Int) = 10) := by decide
      have z2 : ¬ ((0 : Int) = -10) := by decide
      simp only [h, e1, e2, z1, z2, if_false, hE, Bool.not_true, Bool.false_eq_true,
        if_true]
      cases isMax with
      | true =>
        simp only [if_true]
        rw [scanMax_foldEmpty Int.sign max sign_keep_greater]
        have : INT_MIN.sign = -1 := by decide
        rw [this]
        exact foldEmpty_congr _ _ _ _ _ _
          (fun i hi => hchild ai false (xoPair_ai ai human hp) hai i hi)
      | false =>
        simp only [Bool.false_eq_true, if_false]
        rw [scanMin_foldEmpty Int.sign min sign_keep_less]
        have : INT_MAX.sign = 1 := by decide
        rw [this]
        exact foldEmpty_congr _ _ _ _ _ _
          (fun i hi => hchild human true (xoPair_human ai human hp) hhu i hi)
    · have e1 : ¬ ('T' = ai) := fun h => haT h.symm
      have e2 : ¬ ('T' = human) := fun h => hhT h.symm
      have e3 : ¬ ('T' = ' ') := by decide
      simp [h, e1, e2, e3, hE]

end TicTacToe

namespace TicTacToe

theorem sign_mono (v w : Int) (h : v ≤ w) : v.sign ≤ w.sign := by
  rcases sign_cases v with ⟨h1, e1⟩ | ⟨h1, e1⟩ | ⟨h1, e1⟩ <;>
  rcases sign_cases w with ⟨h2, e2⟩ | ⟨h2, e2⟩ | ⟨h2, e2⟩ <;>
  simp only [e1, e2] <;> omega

theorem sign_le_one (v : Int) : v.sign ≤ 1 := by
  rcases sign_cases v with ⟨_, e1⟩ | ⟨_, e1⟩ | ⟨_, e1⟩ <;> simp only [e1] <;> omega

/-- The plain value of the position after `ai` takes the empty cell `i` is the
sign of the candidate value of `i`. -/
theorem plainValue_candidate (b : Board) (ai human : Char) (i : Fin 9) (hb : overXO b)
    (hp : xoPair ai human) (hi : b i = ' ') :
    plainValue (setCell b i ai) ai human false
      = (mmVal 10 (setCell b i ai) ai human 0 false).sign := by
  have hai := (xoPair_facts ai human hp).1
  have he := empties_setCell b i ai hi hai
  have h9 := empties_le b
  unfold plainValue
  rw [sign_mmVal 10 (setCell b i ai) ai human 0 false
    (overXO_setCell b i ai hb (xoPair_ai ai human hp)) hp (by omega) (le_refl _) (by omega)]

/-- C2: on every board over `{' ', 'X', 'O'}` with an empty cell, for
`(ai, human)` equal to `('X', 'O')` or `('O', 'X')`, the cell returned by
`get_best_move` has the greatest plain minimax value (win `1`, draw `0`, loss
`-1`, `check_winner` as terminal test, opponent to move next) among all empty
cells: if some empty cell wins by force the returned one does, and otherwise if
some empty cell draws at least the returned one does. -/
theorem get_best_move_optimal (board : Board) (ai human : Char) (hb : overXO board)
    (hp : xoPair ai human) (hne : ∃ i, board i = ' ') :
    ∃ r : Fin 9, get_best_move board ai human = some (r.val : Int) ∧ board r = ' '
      ∧ (∀ j, board j = ' ' →
          plainValue (setCell board j ai) ai human false
            ≤ plainValue (setCell board r ai) ai human false)
      ∧ ((∃ j, board j = ' ' ∧ plainValue (setCell board j ai) ai human false = 1) →
          plainValue (setCell board r ai) ai human false = 1)
      ∧ ((∃ j, board j = ' ' ∧ 0 ≤ plainValue (setCell board j ai) ai human false) →
          0 ≤ plainValue (setCell board r ai) ai human false) := by
  obtain ⟨hai, hhu, _, _, _⟩ := xoPair_facts ai human hp
  obtain ⟨r, hr, hbr, hall⟩ := get_best_move_argmax board ai human hai hhu hne
  have hle : ∀ j, board j = ' ' →
      plainValue (setCell board j ai) ai human false
        ≤ plainValue (setCell board r ai) ai human false := by
    intro j hj
    rw [plainValue_candidate board ai human j hb hp hj,
      plainValue_candidate board ai human r hb hp hbr]
    exact sign_mono _ _ (hall j hj).1
  refine ⟨r, hr, hbr, hle, ?_, ?_⟩
  · rintro ⟨j, hj, h1⟩
    have h2 := hle j hj
    have h3 : plainValue (setCell board r ai) ai human false ≤ 1 := by
      rw [plainValue_candidate board ai human r hb hp hbr]
      exact sign_le_one _
    omega
  · rintro ⟨j, hj, h1⟩
    have h2 := hle j hj
    omega

theorem get_best_move_optimal_witness :
    ∃ r : Fin 9,
      get_best_move (ofList ['X', 'O', 'X', 'O', ' ', ' ', 'O', 'X', ' ']) 'X' 'O'
        = some (r.val : Int)
      ∧ ofList ['X', 'O', 'X', 'O', ' ', ' ', 'O', 'X', ' '] r = ' '
      ∧ (∀ j, ofList ['X', 'O', 'X', 'O', ' ', ' ', 'O', 'X', ' '] j = ' ' →
          plainValue (setCell (ofList ['X', 'O', 'X', 'O', ' ', ' ', 'O', 'X', ' ']) j 'X')
              'X' 'O' false
            ≤ plainValue
                (setCell (ofList ['X', 'O', 'X', 'O', ' ', ' ', 'O', 'X', ' ']) r 'X')
                'X' 'O' false)
      ∧ ((∃ j, ofList ['X', 'O', 'X', 'O', ' ', ' ', 'O', 'X', ' '] j = ' '
            ∧ plainValue
                (setCell (ofList ['X', 'O', 'X', 'O', ' ', ' ', 'O', 'X', ' ']) j 'X')
                'X' 'O' false = 1) →
          plainValue (setCell (ofList ['X', 'O', 'X', 'O', ' ', ' ', 'O', 'X', ' ']) r 'X')
            'X' 'O' false = 1)
      ∧ ((∃ j, ofList ['X', 'O', 'X', 'O', ' ', ' ', 'O', 'X', ' '] j = ' '
            ∧ 0 ≤ plainValue
                (setCell (ofList ['X', 'O', 'X', 'O', ' ', ' ', 'O', 'X', ' ']) j 'X')
                'X' 'O' false) →
          0 ≤ plainValue
                (setCell (ofList ['X', 'O', 'X', 'O', ' ', ' ', 'O', 'X', ' ']) r 'X')
                'X' 'O' false) :=
  get_best_move_optimal (ofList ['X', 'O', 'X', 'O', ' ', ' ', 'O', 'X', ' ']) 'X' 'O'
    (by unfold overXO; decide) (Or.inl ⟨rfl, rfl⟩) ⟨4, by decide⟩

end TicTacToe

namespace TicTacToe

/-! ## Plain minimax values along a game -/

theorem foldEmpty_max_eq (b : Board) (g : Fin 9 → Int) (l : List (Fin 9)) (init : Int) :
    foldEmpty b max g l init = scanMax b g l init :=
  (scanMax_foldEmpty id max
    (fun best v => by simp only [id]; split_ifs <;> omega) b g l init).symm

theorem foldEmpty_min_eq (b : Board) (g : Fin 9 → Int) (l : List (Fin 9)) (init : Int) :
    foldEmpty b min g l init = scanMin b g l init :=
  (scanMin_foldEmpty id min
    (fun best v => by simp only [id]; split_ifs <;> omega) b g l init).symm

theorem plainF_fuel (n m : Nat) (b : Board) (ai human : Char) (aiToMove : Bool)
    (hai : ai ≠ ' ') (hhu : human ≠ ' ') (hn : empties b < n) (hm : empties b < m) :
    plainF n b ai human aiToMove = plainF m b ai human aiToMove := by
  induction n generalizing m b aiToMove with
  | zero => omega
  | succ n ih =>
    cases m with
    | zero => omega
    | succ m =>
      unfold plainF
      simp only []
      by_cases hw : check_winner b = ' '
      · simp only [hw, if_true]
        cases aiToMove with
        | true =>
          simp only [if_true]
          apply foldEmpty_congr
          intro i hi
          have := empties_setCell b i ai hi hai
          exact ih m _ _ (by omega) (by omega)
        | false =>
          simp only [Bool.false_eq_true, if_false]
          apply foldEmpty_congr
          intro i hi
          have := empties_setCell b i human hi hhu
          exact ih m _ _ (by omega) (by omega)
      · simp only [hw, if_false]

/-- A position that goes on, `ai` to move: the plain value is the greatest
plain value of the positions `ai` can move to. -/
theorem plainValue_ai_turn (b : Board) (ai human : Char) (hai : ai ≠ ' ')
    (hhu : human ≠ ' ') (hw : check_winner b = ' ') :
    plainValue b ai human true
      = scanMax b (fun i => plainValue (setCell b i ai) ai human false) cells (-1) := by
  unfold plainValue
  rw [plainF]
  simp only [hw, if_true]
  rw [foldEmpty_max_eq]
  apply scanMax_congr
  intro i hi
  have := empties_setCell b i ai hi hai
  have := empties_le b
  exact plainF_fuel 9 10 _ ai human false hai hhu (by omega) (by omega)

/-- A position that goes on, `human` to move: the plain value is the least
plain value of the positions `human` can move to. -/
theorem plainValue_human_turn (b : Board) (ai human : Char) (hai : ai ≠ ' ')
    (hhu : human ≠ ' ') (hw : check_winner b = ' ') :
    plainValue b ai human false
      = scanMin b (fun i => plainValue (setCell b i human) ai human true) cells 1 := by
  unfold plainValue
  rw [plainF]
  simp only [hw, if_true, Bool.false_eq_true, if_false]
  rw [foldEmpty_min_eq]
  apply scanMin_congr
  intro i hi
  have := empties_setCell b i human hi hhu
  have := empties_le b
  exact plainF_fuel 9 10 _ ai human true hai hhu (by omega) (by omega)

/-- Whatever empty cell `human` takes, a position that was not lost for `ai`
is still not lost. -/
theorem plain_human_step (b : Board) (ai human : Char) (hai : ai ≠ ' ')
    (hhu : human ≠ ' ') (hw : check_winner b = ' ') (pos : Fin 9) (hpos : b pos = ' ')
    (h0 : 0 ≤ plainValue b ai human false) :
    0 ≤ plainValue (setCell b pos human) ai human true := by
  rw [plainValue_human_turn b ai human hai hhu hw] at h0
  exact le_trans h0 (scanMin_le b _ cells 1 pos (mem_cells pos) hpos)

/-- The cell `get_best_move` returns keeps a position that was not lost for
`ai` not lost. -/
theorem plain_ai_step (b : Board) (ai human : Char) (hb : overXO b)
    (hp : xoPair ai human) (hw : check_winner b = ' ')
    (h0 : 0 ≤ plainValue b ai human true) :
    ∃ r : Fin 9, get_best_move b ai human = some (r.val : Int) ∧ b r = ' '
      ∧ 0 ≤ plainValue (setCell b r ai) ai human false := by
  obtain ⟨hai, hhu, _, _, _⟩ := xoPair_facts ai human hp
  have hE := (check_winner_space b hw).2
  obtain ⟨r, hr, hbr, hall⟩ :=
    get_best_move_argmax b ai human hai hhu ((hasEmpty_iff b).mp hE)
  refine ⟨r, hr, hbr, ?_⟩
  rw [plainValue_ai_turn b ai human hai hhu hw] at h0
  rcases scanMax_mem b (fun i => plainValue (setCell b i ai) ai human false) cells (-1)
    with h | ⟨j, _, hbj, hj⟩
  · omega
  · have hj0 : 0 ≤ plainValue (setCell b j ai) ai human false := by
      omega
    rw [plainValue_candidate b ai human j hb hp hbj] at hj0
    rw [plainValue_candidate b ai human r hb hp hbr]
    exact le_trans hj0 (sign_mono _ _ (hall j hbj).1)

/-- In a position that is not lost for `ai`, `check_winner` does not answer the
opponent's mark. -/
theorem plain_final (b : Board) (ai human : Char) (hhu : human ≠ ' ') (hne : ai ≠ human)
    (aiToMove : Bool) (h0 : 0 ≤ plainValue b ai human aiToMove) :
    check_winner b ≠ human := by
  intro hw
  unfold plainValue at h0
  rw [plainF] at h0
  have e1 : ¬ (human = ai) := fun h => hne h.symm
  simp only [hw, hhu, e1, if_false, if_true] at h0
  omega

theorem safeH_foldlM (n : Nat) (b : Board) (ai human : Char) (l : List (Fin 9))
    (script rest : List (Fin 9))
    (h : l.foldlM (fun s i =>
          if b i = ' ' then safeH n (setCell b i human) ai human true s else some s)
          script = some rest) :
    ∀ i ∈ l, b i = ' ' → ∃ s s', safeH n (setCell b i human) ai human true s = some s' := by
  induction l generalizing script with
  | nil => intro i hi; cases hi
  | cons a t ih =>
    rw [List.foldlM_cons] at h
    intro i hi hbi
    by_cases hb : b a = ' '
    · simp only [hb, if_true] at h
      cases hs : safeH n (setCell b a human) ai human true script with
      | none => rw [hs] at h; cases h
      | some s1 =>
        rw [hs] at h
        rcases List.mem_cons.mp hi with e | e
        · subst e; exact ⟨script, s1, hs⟩
        · exact ih s1 h i e hbi
    · simp only [hb, if_false] at h
      rcases List.mem_cons.mp hi with e | e
      · subst e; exact absurd hbi hb
      · exact ih script h i e hbi

/-- A position that passes the scripted check is not lost for `ai`. -/
theorem safeH_sound (n : Nat) (b : Board) (ai human : Char) (aiToMove : Bool)
    (script rest : List (Fin 9)) (h : safeH n b ai human aiToMove script = some rest) :
    0 ≤ plainF n b ai human aiToMove := by
  induction n generalizing b aiToMove script rest with
  | zero => simp [safeH] at h
  | succ n ih =>
    unfold safeH at h
    rw [plainF]
    simp only [] at h ⊢
    by_cases hw : check_winner b = ' '
    · simp only [hw, if_true] at h ⊢
      cases aiToMove with
      | true =>
        simp only [if_true] at h ⊢
        cases script with
        | nil => simp at h
        | cons mv tl =>
          simp only [] at h
          by_cases hb : b mv = ' '
          · simp only [hb, if_true] at h
            rw [foldEmpty_max_eq]
            exact le_trans (ih _ _ _ _ h) (scanMax_ge b _ cells (-1) mv (mem_cells mv) hb)
          · simp only [hb, if_false] at h
            cases h
      | false =>
        simp only [Bool.false_eq_true, if_false] at h ⊢
        have hall := safeH_foldlM n b ai human cells script rest h
        rw [foldEmpty_min_eq]
        rcases scanMin_mem b (fun i => plainF n (setCell b i human) ai human true) cells 1
          with e | ⟨i, hi, hbi, e⟩
        · omega
        · obtain ⟨s, s', hs⟩ := hall i hi hbi
          have := ih _ _ _ _ hs
          omega
    · simp only [hw, if_false] at h ⊢
      by_cases hh : check_winner b = human
      · simp only [hh, if_true] at h
        cases h
      · simp only [hh, if_false]
        split_ifs <;> omega

set_option maxRecDepth 1000000 in
theorem safe_first : safeH 10 init_board 'X' 'O' true firstScript = some [] := by
  decide!

set_option maxRecDepth 1000000 in
theorem safe_second : safeH 10 init_board 'O' 'X' false secondScript = some [] := by
  decide!

/-- The player who opens on the empty board with `'X'` cannot be forced to lose. -/
theorem plain_first : 0 ≤ plainValue init_board 'X' 'O' true :=
  safeH_sound 10 init_board 'X' 'O' true firstScript [] safe_first

/-- The player who answers with `'O'` on the empty board cannot be forced to lose. -/
theorem plain_second : 0 ≤ plainValue init_board 'O' 'X' false :=
  safeH_sound 10 init_board 'O' 'X' false secondScript [] safe_second

end TicTacToe

namespace TicTacToe

/-! ## Games against the solver -/

theorem writeAt_cell (b : Board) (r : Fin 9) (c : Char) :
    writeAt b (r.val : Int) c = some (setCell b r c) := by
  unfold writeAt
  have h : 0 ≤ (r.val : Int) ∧ (r.val : Int) < 9 := by omega
  rw [dif_pos h]
  congr

theorem overXO_init : overXO init_board := fun _ => Or.inl rfl

theorem aiMark_pair (human : Char) (hh : human = 'X' ∨ human = 'O') :
    xoPair (aiMark human) human := by
  rcases hh with h | h <;> subst h
  · exact Or.inr ⟨rfl, rfl⟩
  · exact Or.inl ⟨rfl, rfl⟩

/-- What holds of every state of the turn loop: the board is over
`{' ', 'X', 'O'}` and the position is not lost for the solver. -/
theorem loopPass_keeps (human : Char) (hh : human = 'X' ∨ human = 'O') (g g1 : Game)
    (pos : Fin 9) (hb : overXO g.board)
    (h0 : 0 ≤ plainValue g.board (aiMark human) human (!g.human_turn))
    (hstep : loopPass human g pos = some g1) :
    overXO g1.board ∧ 0 ≤ plainValue g1.board (aiMark human) human (!g1.human_turn) := by
  have hp := aiMark_pair human hh
  obtain ⟨hai, hhu, _, _, _⟩ := xoPair_facts _ _ hp
  unfold loopPass at hstep
  by_cases hw : check_winner g.board = ' '
  · simp only [hw, ne_eq, not_true_eq_false, if_false] at hstep
    cases ht : g.human_turn with
    | true =>
      rw [ht] at h0
      simp only [ht, if_true] at hstep
      by_cases hpos : g.board pos = ' '
      · simp only [hpos, ne_eq, not_true_eq_false, if_false, Option.some.injEq] at hstep
        subst hstep
        exact ⟨overXO_setCell _ _ _ hb hh,
          plain_human_step g.board _ human hai hhu hw pos hpos h0⟩
      · simp only [ne_eq, hpos, not_false_eq_true, if_true, Option.some.injEq] at hstep
        subst hstep
        rw [ht]
        exact ⟨hb, h0⟩
    | false =>
      rw [ht] at h0
      simp only [ht, Bool.false_eq_true, if_false] at hstep
      obtain ⟨r, hr, _, hr0⟩ := plain_ai_step g.board _ human hb hp hw h0
      rw [hr] at hstep
      simp only [writeAt_cell, Option.some.injEq] at hstep
      subst hstep
      exact ⟨overXO_setCell _ _ _ hb (xoPair_ai _ _ hp), hr0⟩
  · simp only [ne_eq, hw, not_false_eq_true, if_true] at hstep
    cases hstep

theorem playFrom_keeps (human : Char) (hh : human = 'X' ∨ human = 'O')
    (inputs : List (Fin 9)) (g g1 : Game) (hb : overXO g.board)
    (h0 : 0 ≤ plainValue g.board (aiMark human) human (!g.human_turn))
    (hplay : playFrom human g inputs = some g1) :
    overXO g1.board ∧ 0 ≤ plainValue g1.board (aiMark human) human (!g1.human_turn) := by
  induction inputs generalizing g with
  | nil =>
    simp only [playFrom, Option.some.injEq] at hplay
    subst hplay
    exact ⟨hb, h0⟩
  | cons pos rest ih =>
    unfold playFrom at hplay
    cases hs : loopPass human g pos with
    | none => rw [hs] at hplay; cases hplay
    | some g2 =>
      rw [hs] at hplay
      obtain ⟨hb2, h2⟩ := loopPass_keeps human hh g g2 pos hb h0 hs
      exact ih g2 hb2 h2 hplay

theorem startGame_safe (human : Char) (hh : human = 'X' ∨ human = 'O') :
    0 ≤ plainValue (startGame human).board (aiMark human) human
      (!(startGame human).human_turn) := by
  rcases hh with h | h <;> subst h
  · exact plain_second
  · exact plain_first

theorem playFrom_cons_some (human : Char) (g g2 : Game) (pos : Fin 9) (l : List (Fin 9))
    (h : loopPass human g pos = some g2) :
    playFrom human g (pos :: l) = playFrom human g2 l := by
  rw [playFrom, h]

/-- A pass of the loop from a state in which the game goes on always yields the next state: the
human's pass refuses an occupied cell or writes the human's mark on the empty cell asked for,
and the AI's pass writes the AI's mark on the empty cell that `get_best_move` returns. -/
theorem loopPass_step (human : Char) (hh : human = 'X' ∨ human = 'O') (g : Game) (pos : Fin 9)
    (hw : check_winner g.board = ' ') :
    ∃ g1, loopPass human g pos = some g1
      ∧ (g.human_turn = true →
          (g.board pos ≠ ' ' ∧ g1 = g)
            ∨ (g.board pos = ' ' ∧ g1 = ⟨setCell g.board pos human, false⟩))
      ∧ (g.human_turn = false →
          ∃ r : Fin 9, get_best_move g.board (aiMark human) human = some (r.val : Int)
            ∧ g.board r = ' ' ∧ g1 = ⟨setCell g.board r (aiMark human), true⟩) := by
  have hp := aiMark_pair human hh
  obtain ⟨hai, hhu, _, _, _⟩ := xoPair_facts _ _ hp
  by_cases ht : g.human_turn = true
  · by_cases hpos : g.board pos = ' '
    · refine ⟨⟨setCell g.board pos human, false⟩, ?_, fun _ => Or.inr ⟨hpos, rfl⟩, fun h => ?_⟩
      · unfold loopPass
        simp only [hw, ht, hpos, ne_eq, not_true_eq_false, if_false, if_true]
      · rw [ht] at h
        cases h
    · refine ⟨g, ?_, fun _ => Or.inl ⟨hpos, rfl⟩, fun h => ?_⟩
      · unfold loopPass
        simp only [hw, ht, hpos, ne_eq, not_true_eq_false, not_false_eq_true, if_false, if_true]
      · rw [ht] at h
        cases h
  · have hf : g.human_turn = false := Bool.eq_false_iff.mpr ht
    obtain ⟨r, hr, hbr, _⟩ := get_best_move_argmax g.board (aiMark human) human hai hhu
      ((hasEmpty_iff g.board).mp (check_winner_space g.board hw).2)
    refine ⟨⟨setCell g.board r (aiMark human), true⟩, ?_, fun h => ?_,
      fun _ => ⟨r, hr, hbr, rfl⟩⟩
    · unfold loopPass
      simp only [hw, hf, ne_eq, not_true_eq_false, if_false, Bool.false_eq_true, hr,
        writeAt_cell]
    · rw [hf] at h
      cases h

/-- The loop goes through the passes fed to it until the game is over: for some `k`, the first
`k` passes each yield the next state, and if passes are left over, the game is over in the state
reached. -/
theorem playFrom_run (human : Char) (hh : human = 'X' ∨ human = 'O')
    (inputs : List (Fin 9)) (g : Game) :
    ∃ (k : Nat) (g1 : Game), k ≤ inputs.length
      ∧ playFrom human g (inputs.take k) = some g1
      ∧ (k < inputs.length → check_winner g1.board ≠ ' ')
      ∧ ∀ j, j < k → ∃ (gj gj1 : Game) (pos : Fin 9),
          playFrom human g (inputs.take j) = some gj
            ∧ playFrom human g (inputs.take (j + 1)) = some gj1
            ∧ check_winner gj.board = ' ' ∧ loopPass human gj pos = some gj1 := by
  induction inputs generalizing g with
  | nil =>
    exact ⟨0, g, le_refl _, rfl, fun h => absurd h (Nat.lt_irrefl _),
      fun j hj => absurd hj (Nat.not_lt_zero j)⟩
  | cons pos rest ih =>
    by_cases hw : check_winner g.board = ' '
    · obtain ⟨g2, hs, _, _⟩ := loopPass_step human hh g pos hw
      obtain ⟨k, g1, hk, hrun, hover, hsteps⟩ := ih g2
      refine ⟨k + 1, g1, by simp only [List.length_cons]; omega, ?_, ?_, ?_⟩
      · rw [List.take_succ_cons, playFrom_cons_some human g g2 pos _ hs]
        exact hrun
      · intro h
        exact hover (by simp only [List.length_cons] at h; omega)
      · intro j hj
        cases j with
        | zero =>
          refine ⟨g, g2, pos, rfl, ?_, hw, hs⟩
          rw [List.take_succ_cons, playFrom_cons_some human g g2 pos _ hs]
          rfl
        | succ j =>
          obtain ⟨gj, gj1, p, h1, h2, h3, h4⟩ := hsteps j (by omega)
          refine ⟨gj, gj1, p, ?_, ?_, h3, h4⟩
          · rw [List.take_succ_cons, playFrom_cons_some human g g2 pos _ hs]
            exact h1
          · rw [List.take_succ_cons, playFrom_cons_some human g g2 pos _ hs]
            exact h2
    · exact ⟨0, g, Nat.zero_le _, rfl, fun _ => hw, fun j hj => absurd hj (Nat.not_lt_zero j)⟩

/-- After the human's opening move in the centre the game goes on, so the first two passes fed
by `[4, 0]` are both made. -/
theorem centre_opening_goes_on (k : Nat) (g : Game) (hk : k < 2)
    (hrun : playFrom 'X' (startGame 'X') (List.take k [4, 0]) = some g) :
    check_winner g.board = ' ' := by
  have e0 : playFrom 'X' (startGame 'X') (List.take 0 [4, 0]) = some (startGame 'X') := rfl
  have e1 : playFrom 'X' (startGame 'X') (List.take 1 [4, 0])
      = some ⟨setCell init_board 4 'X', false⟩ := rfl
  interval_cases k
  · rw [e0] at hrun
    cases hrun
    decide
  · rw [e1] at hrun
    cases hrun
    decide

/-- C3: the local minimax AI is unbeatable.  In every game of the turn loop of `main.c` started
from the empty board, `'X'` moving first, the human (playing `'X'` or `'O'`) asking for arbitrary
cells and the AI always playing `get_best_move(board, ai, human)`: the loop makes the passes fed
to it one after the other, each AI pass placing the mark on the cell `get_best_move` returns,
until all are made or the game is over (`check_winner(board) != ' '`), and in the state it
reaches `check_winner(board)` is not the human's mark.  So no state the loop reaches has
`check_winner(board)` equal to the human's mark. -/
theorem minimax_ai_unbeatable (human : Char) (hh : human = 'X' ∨ human = 'O')
    (inputs : List (Fin 9)) :
    (∃ (k : Nat) (g : Game), k ≤ inputs.length
        ∧ playFrom human (startGame human) (inputs.take k) = some g
        ∧ (k < inputs.length → check_winner g.board ≠ ' ')
        ∧ check_winner g.board ≠ human)
      ∧ ∀ g, playFrom human (startGame human) inputs = some g →
          check_winner g.board ≠ human := by
  have hp := aiMark_pair human hh
  obtain ⟨_, hhu, hne, _, _⟩ := xoPair_facts _ _ hp
  have safe : ∀ (l : List (Fin 9)) (g : Game),
      playFrom human (startGame human) l = some g → check_winner g.board ≠ human := by
    intro l g hplay
    obtain ⟨_, h0⟩ := playFrom_keeps human hh l (startGame human) g overXO_init
      (startGame_safe human hh) hplay
    exact plain_final g.board (aiMark human) human hhu hne _ h0
  obtain ⟨k, g, hk, hrun, hover, _⟩ := playFrom_run human hh inputs (startGame human)
  exact ⟨⟨k, g, hk, hrun, hover, safe _ g hrun⟩, safe inputs⟩

/-- The human opens in the centre and the AI answers: the two passes are made, the second one
by `get_best_move`, and the human has not won. -/
theorem minimax_ai_unbeatable_witness :
    ∃ g, playFrom 'X' (startGame 'X') [4, 0] = some g ∧ g.human_turn = true
      ∧ check_winner g.board ≠ 'X' := by
  obtain ⟨⟨k, g, hk, hrun, hover, hsafe⟩, _⟩ :=
    minimax_ai_unbeatable 'X' (Or.inl rfl) [4, 0]
  have hk2 : k = 2 := by
    by_contra hne
    have hlt : k < 2 := by
      simp only [List.length_cons, List.length_nil] at hk
      omega
    exact hover (by simp only [List.length_cons, List.length_nil]; omega)
      (centre_opening_goes_on k g hlt hrun)
  subst hk2
  have e0 : loopPass 'X' (startGame 'X') 4 = some ⟨setCell init_board 4 'X', false⟩ := rfl
  have e1 : playFrom 'X' (startGame 'X') [4, 0]
      = playFrom 'X' ⟨setCell init_board 4 'X', false⟩ [0] :=
    playFrom_cons_some 'X' (startGame 'X') ⟨setCell init_board 4 'X', false⟩ 4 [0] e0
  have hrun2 : playFrom 'X' (startGame 'X') [4, 0] = some g := hrun
  refine ⟨g, hrun2, ?_, hsafe⟩
  rw [e1] at hrun2
  obtain ⟨g1, hs, _, hai⟩ := loopPass_step 'X' (Or.inl rfl) ⟨setCell init_board 4 'X', false⟩ 0
    (by decide)
  rw [playFrom_cons_some 'X' _ g1 0 [] hs] at hrun2
  obtain ⟨r, _, _, hg1⟩ := hai rfl
  have hg : g = g1 := by
    simp only [playFrom, Option.some.injEq] at hrun2
    exact hrun2.symm
  rw [hg, hg1]

/-- What holds along self-play: neither side is in a lost position. -/
theorem selfPlay_draw (n : Nat) (b : Board) (side other : Char) (hp : xoPair side other)
    (hb : overXO b) (hn : empties b < n) (h1 : 0 ≤ plainValue b side other true)
    (h2 : 0 ≤ plainValue b other side false) :
    ∃ b1, selfPlay n b side other = some b1 ∧ check_winner b1 = 'T' := by
  induction n generalizing b side other with
  | zero => omega
  | succ n ih =>
    obtain ⟨hs, ho, hne, _, _⟩ := xoPair_facts side other hp
    unfold selfPlay
    by_cases hw : check_winner b = ' '
    · simp only [hw, ne_eq, not_true_eq_false, if_false]
      obtain ⟨r, hr, hbr, hr0⟩ := plain_ai_step b side other hb hp hw h1
      rw [hr]
      simp only [writeAt_cell]
      have he := empties_setCell b r side hbr hs
      have hp' : xoPair other side := by
        rcases hp with ⟨e1, e2⟩ | ⟨e1, e2⟩
        · exact Or.inr ⟨e2, e1⟩
        · exact Or.inl ⟨e2, e1⟩
      exact ih (setCell b r side) other side hp'
        (overXO_setCell b r side hb (xoPair_ai _ _ hp)) (by omega)
        (plain_human_step b other side ho hs hw r hbr h2) hr0
    · simp only [ne_eq, hw, not_false_eq_true, if_true]
      refine ⟨b, rfl, ?_⟩
      have n1 := plain_final b side other ho hne true h1
      have n2 := plain_final b other side hs (fun h => hne h.symm) false h2
      rcases check_winner_overXO b side other hb hp with h | h | ⟨h, _⟩ | ⟨h, _⟩
      · exact absurd h n2
      · exact absurd h n1
      · exact absurd h hw
      · exact h

/-- C4: self-play is a draw.  Starting from the empty board and placing, for
the side to move (`'X'` first, then alternating), that side's mark on the cell
returned by `get_best_move(board, side, other side)` until `check_winner`
answers something else than `' '`, the game stops, and it stops on a board
with `check_winner(board) = 'T'`. -/
theorem self_play_is_draw :
    ∃ b, selfPlay 10 init_board 'X' 'O' = some b ∧ check_winner b = 'T' :=
  selfPlay_draw 10 init_board 'X' 'O' (Or.inl ⟨rfl, rfl⟩) overXO_init (by decide)
    plain_first plain_second

end TicTacToe

namespace TicTacToe

/-! ## `get_best_move` on a full board -/

theorem foldlM_moveStep_full (ai human : Char) (b : Board) (hfull : ∀ i, b i ≠ ' ')
    (l : List (Fin 9)) (st : Int × Int) :
    l.foldlM (moveStep ai human) (st.1, st.2, b) = some (st.1, st.2, b) := by
  induction l with
  | nil => rfl
  | cons a t ih =>
    rw [List.foldlM_cons]
    have h1 : moveStep ai human (st.1, st.2, b) a = some (st.1, st.2, b) := by
      simp only [moveStep, hfull a, if_false]
    rw [h1]
    exact ih

/-- C5, counterexample: the full board `drawnBoard` and the board
`lastCellBoard`, which has an empty cell, get the same result from
`get_best_move`, index 0: the result on a full board is not distinguishable
from a move. -/
theorem full_board_result_is_a_move :
    (∀ i, drawnBoard i ≠ ' ') ∧ (∃ i, lastCellBoard i = ' ')
      ∧ get_best_move drawnBoard 'X' 'O' = some 0
      ∧ get_best_move lastCellBoard 'X' 'O' = some 0 := by
  refine ⟨by decide, ⟨0, by decide⟩, by decide, by decide⟩

/-- C5, as amended: on every board with no empty cell `get_best_move` signals
no failure; it returns index 0, which is also what it returns on
`lastCellBoard`, a board whose cell 0 is empty. -/
theorem get_best_move_full_board (board : Board) (ai human : Char)
    (hfull : ∀ i, board i ≠ ' ') :
    get_best_move board ai human = some 0
      ∧ get_best_move board ai human = get_best_move lastCellBoard 'X' 'O' := by
  have h : get_best_move board ai human = some 0 := by
    unfold get_best_move
    rw [foldlM_moveStep_full ai human board hfull cells (INT_MIN, -1)]
    rfl
  refine ⟨h, ?_⟩
  rw [h]
  decide

theorem get_best_move_full_board_witness :
    get_best_move drawnBoard 'O' 'X' = some 0
      ∧ get_best_move drawnBoard 'O' 'X' = get_best_move lastCellBoard 'X' 'O' :=
  get_best_move_full_board drawnBoard 'O' 'X' (by decide)

end TicTacToe

namespace TicTacToe

/-! ## Lines and single placements -/

theorem lineOf_iff (b : Board) (m : Char) (l : Fin 9 × Fin 9 × Fin 9) :
    lineOf b m l = true ↔ b l.1 = m ∧ b l.2.1 = m ∧ b l.2.2 = m := by
  simp [lineOf]

theorem onLine_false_iff (i : Fin 9) (l : Fin 9 × Fin 9 × Fin 9) :
    onLine i l = false ↔ l.1 ≠ i ∧ l.2.1 ≠ i ∧ l.2.2 ≠ i := by
  simp [onLine]

theorem onLine_iff (i : Fin 9) (l : Fin 9 × Fin 9 × Fin 9) :
    onLine i l = true ↔ l.1 = i ∨ l.2.1 = i ∨ l.2.2 = i := by
  simp [onLine]

theorem completes_iff (b : Board) (m : Char) (i : Fin 9) :
    completes b m i = true
      ↔ b i = ' ' ∧ ∃ l ∈ win_lines, onLine i l = true ∧ lineOf (setCell b i m) m l = true := by
  simp [completes, List.any_eq_true]

/-- A line off the cell written to is complete after the write only if it was
before. -/
theorem lineWon_off (b : Board) (i : Fin 9) (m : Char) (l : Fin 9 × Fin 9 × Fin 9)
    (h : onLine i l = false) : lineWon (setCell b i m) l = lineWon b l := by
  obtain ⟨h1, h2, h3⟩ := (onLine_false_iff i l).mp h
  unfold lineWon
  rw [setCell_other b i _ m h1, setCell_other b i _ m h2, setCell_other b i _ m h3]

theorem lineOf_off (b : Board) (i : Fin 9) (m m' : Char) (l : Fin 9 × Fin 9 × Fin 9)
    (h : onLine i l = false) : lineOf (setCell b i m) m' l = lineOf b m' l := by
  obtain ⟨h1, h2, h3⟩ := (onLine_false_iff i l).mp h
  unfold lineOf
  rw [setCell_other b i _ m h1, setCell_other b i _ m h2, setCell_other b i _ m h3]

/-- A complete line through the cell written to holds three times the mark
written. -/
theorem lineWon_on (b : Board) (i : Fin 9) (m : Char) (l : Fin 9 × Fin 9 × Fin 9)
    (h : onLine i l = true) (hw : lineWon (setCell b i m) l = true) :
    lineOf (setCell b i m) m l = true := by
  obtain ⟨_, e1, e2⟩ := (lineWon_iff _ l).mp hw
  rw [lineOf_iff]
  rcases (onLine_iff i l).mp h with h | h | h
  · have h0 : setCell b i m l.1 = m := by rw [h]; exact setCell_same b i m
    exact ⟨h0, by rw [← e1, h0], by rw [← e2, ← e1, h0]⟩
  · have h0 : setCell b i m l.2.1 = m := by rw [h]; exact setCell_same b i m
    exact ⟨by rw [e1, h0], h0, by rw [← e2, h0]⟩
  · have h0 : setCell b i m l.2.2 = m := by rw [h]; exact setCell_same b i m
    exact ⟨by rw [e1, e2, h0], by rw [e2, h0], h0⟩

theorem lineOf_lineWon (b : Board) (m : Char) (l : Fin 9 × Fin 9 × Fin 9) (hm : m ≠ ' ')
    (h : lineOf b m l = true) : lineWon b l = true := by
  obtain ⟨h1, h2, h3⟩ := (lineOf_iff b m l).mp h
  rw [lineWon_iff]
  exact ⟨by rw [h1]; exact hm, by rw [h1, h2], by rw [h2, h3]⟩

/-- Placing a mark on an empty cell that completes nothing leaves the board
without a complete line. -/
theorem hasLine_setCell (b : Board) (m : Char) (j : Fin 9) (hl : hasLine b = false)
    (hj : b j = ' ') (hc : completes b m j = false) : hasLine (setCell b j m) = false := by
  rw [hasLine_false_iff]
  intro l hlm
  by_contra hcon
  have hw : lineWon (setCell b j m) l = true := by simpa using hcon
  by_cases hon : onLine j l = true
  · have := (completes_iff b m j).mpr ⟨hj, l, hlm, hon, lineWon_on b j m l hon hw⟩
    rw [this] at hc; cases hc
  · have hoff : onLine j l = false := by simpa using hon
    rw [lineWon_off b j m l hoff] at hw
    rw [(hasLine_false_iff b).mp hl l hlm] at hw
    cases hw

/-- Placing a mark where it completes a triple makes `check_winner` answer that
mark. -/
theorem check_winner_completes (b : Board) (m : Char) (j : Fin 9) (hm : m ≠ ' ')
    (hl : hasLine b = false) (hc : completes b m j = true) :
    check_winner (setCell b j m) = m := by
  obtain ⟨_, l0, hl0, _, hline⟩ := (completes_iff b m j).mp hc
  rcases check_winner_cases (setCell b j m) with ⟨l, hlm, hw, he⟩ | ⟨hn, _⟩
  · rw [he]
    by_cases hon : onLine j l = true
    · exact ((lineOf_iff _ m l).mp (lineWon_on b j m l hon hw)).1
    · have hoff : onLine j l = false := by simpa using hon
      rw [lineWon_off b j m l hoff, (hasLine_false_iff b).mp hl l hlm] at hw
      cases hw
  · have := (hasLine_false_iff _).mp hn l0 hl0
    rw [lineOf_lineWon _ m l0 hm hline] at this
    cases this

/-- Placing a mark where it completes nothing does not make `check_winner`
answer a mark. -/
theorem check_winner_quiet (b : Board) (m : Char) (j : Fin 9) (hl : hasLine b = false)
    (hj : b j = ' ') (hc : completes b m j = false) :
    check_winner (setCell b j m) = ' ' ∨ check_winner (setCell b j m) = 'T' := by
  rw [check_winner_noLine _ (hasLine_setCell b m j hl hj hc)]
  split_ifs
  · exact Or.inl rfl
  · exact Or.inr rfl

/-- A threat of `m` at `c` survives the other mark being placed elsewhere. -/
theorem completes_after_other (b : Board) (m m' : Char) (c j : Fin 9) (hj : b j = ' ')
    (hne : j ≠ c) (hm : m ≠ ' ') (hc : completes b m c = true) :
    completes (setCell b j m') m c = true := by
  obtain ⟨hbc, l, hlm, hon, hline⟩ := (completes_iff b m c).mp hc
  rw [completes_iff]
  refine ⟨by rw [setCell_other b j c m' (fun h => hne h.symm)]; exact hbc, l, hlm, hon, ?_⟩
  obtain ⟨h1, h2, h3⟩ := (lineOf_iff _ m l).mp hline
  have key : ∀ k, setCell b c m k = m → setCell (setCell b j m') c m k = m := by
    intro k hk
    by_cases hkc : k = c
    · subst hkc; exact setCell_same _ _ _
    · rw [setCell_other _ c k m hkc] at hk ⊢
      by_cases hkj : k = j
      · subst hkj; rw [hj] at hk; exact absurd hk.symm hm
      · rw [setCell_other b j k m' hkj]; exact hk
  rw [lineOf_iff]
  exact ⟨key _ h1, key _ h2, key _ h3⟩

/-- A threat of `m` that exists after the other mark was placed on an empty
cell existed before. -/
theorem completes_before_other (b : Board) (m m' : Char) (c k : Fin 9) (hbc : b c = ' ')
    (hmm : m' ≠ m) (hm' : m' ≠ ' ') (hc : completes (setCell b c m') m k = true) :
    completes b m k = true := by
  obtain ⟨hbk, l, hlm, hon, hline⟩ := (completes_iff _ m k).mp hc
  have hkc : k ≠ c := by
    intro h; subst h; rw [setCell_same] at hbk; exact hm' hbk
  rw [setCell_other b c k m' hkc] at hbk
  rw [completes_iff]
  refine ⟨hbk, l, hlm, hon, ?_⟩
  obtain ⟨h1, h2, h3⟩ := (lineOf_iff _ m l).mp hline
  have key : ∀ x, setCell (setCell b c m') k m x = m → setCell b k m x = m := by
    intro x hx
    by_cases hxk : x = k
    · subst hxk; exact setCell_same _ _ _
    · rw [setCell_other _ k x m hxk] at hx ⊢
      by_cases hxc : x = c
      · subst hxc; rw [setCell_same] at hx; exact absurd hx hmm
      · rw [setCell_other b c x m' hxc] at hx; exact hx
  rw [lineOf_iff]
  exact ⟨key _ h1, key _ h2, key _ h3⟩

end TicTacToe

namespace TicTacToe

/-! ## The search value at and next to a finished game -/

theorem mmVal_win (n : Nat) (b : Board) (ai human : Char) (d : Int) (isMax : Bool)
    (hw : check_winner b = ai) : mmVal (n + 1) b ai human d isMax = 10 - d := by
  unfold mmVal evaluate_board
  simp [hw]

theorem mmVal_loss (n : Nat) (b : Board) (ai human : Char) (d : Int) (isMax : Bool)
    (hne : ai ≠ human) (hw : check_winner b = human) :
    mmVal (n + 1) b ai human d isMax = -10 + d := by
  unfold mmVal evaluate_board
  have e : ¬ (human = ai) := fun h => hne h.symm
  simp [hw, e]

theorem mmVal_minNode (n : Nat) (b : Board) (ai human : Char) (d : Int)
    (hai : ai ≠ ' ') (hhu : human ≠ ' ') (hw : check_winner b = ' ') :
    mmVal (n + 1) b ai human d false
      = scanMin b (fun i => mmVal n (setCell b i human) ai human (d + 1) true)
          cells INT_MAX := by
  have hE := (check_winner_space b hw).2
  have e1 : ¬ (' ' = ai) := fun h => hai h.symm
  have e2 : ¬ (' ' = human) := fun h => hhu h.symm
  have hs : evaluate_board b ai human = 0 := by
    unfold evaluate_board
    simp only [hw, e1, e2, if_false]
  have z1 : ¬ ((0 : Int) = 10) := by decide
  have z2 : ¬ ((0 : Int) = -10) := by decide
  rw [mmVal]
  simp only [hs, z1, z2, hE, if_false, Bool.not_true, Bool.false_eq_true, if_true]

theorem mmVal_maxNode (n : Nat) (b : Board) (ai human : Char) (d : Int)
    (hai : ai ≠ ' ') (hhu : human ≠ ' ') (hw : check_winner b = ' ') :
    mmVal (n + 1) b ai human d true
      = scanMax b (fun i => mmVal n (setCell b i ai) ai human (d + 1) false)
          cells INT_MIN := by
  have hE := (check_winner_space b hw).2
  have e1 : ¬ (' ' = ai) := fun h => hai h.symm
  have e2 : ¬ (' ' = human) := fun h => hhu h.symm
  have hs : evaluate_board b ai human = 0 := by
    unfold evaluate_board
    simp only [hw, e1, e2, if_false]
  have z1 : ¬ ((0 : Int) = 10) := by decide
  have z2 : ¬ ((0 : Int) = -10) := by decide
  rw [mmVal]
  simp only [hs, z1, z2, hE, if_false, Bool.not_true, Bool.false_eq_true, if_true]

theorem evaluate_board_eq_win (b : Board) (ai human : Char)
    (h : evaluate_board b ai human = 10) : check_winner b = ai := by
  unfold evaluate_board at h
  by_contra h1
  simp only [h1, if_false] at h
  split_ifs at h
  omega

theorem evaluate_board_eq_loss (b : Board) (ai human : Char)
    (h : evaluate_board b ai human = -10) : check_winner b = human := by
  unfold evaluate_board at h
  by_contra h1
  simp only [h1, if_false] at h
  split_ifs at h

/-- Unless `check_winner` answers `ai` on the board itself, the value at depth
`d` is at most `9 - d`; unless it answers `human`, at least `-9 + d`. -/
theorem mmVal_strict (n : Nat) (b : Board) (ai human : Char) (d : Int) (isMax : Bool)
    (hai : ai ≠ ' ') (hhu : human ≠ ' ') (hn : empties b < n) (hd : 0 ≤ d)
    (hd9 : d ≤ 9) (hde : d + empties b ≤ 10) :
    (check_winner b ≠ ai → mmVal n b ai human d isMax ≤ 9 - d)
    ∧ (check_winner b ≠ human → -9 + d ≤ mmVal n b ai human d isMax) := by
  cases n with
  | zero => omega
  | succ n =>
    have hchild : ∀ (c : Char) (m : Bool), c ≠ ' ' → ∀ i, b i = ' ' →
        -10 + (d + 1) ≤ mmVal n (setCell b i c) ai human (d + 1) m
          ∧ mmVal n (setCell b i c) ai human (d + 1) m ≤ 10 - (d + 1) := by
      intro c m hc i hi
      have := empties_setCell b i c hi hc
      exact mmVal_bounds n _ ai human (d + 1) m hai hhu (by omega) (by omega) (by omega)
    have main : (evaluate_board b ai human ≠ 10 → mmVal (n + 1) b ai human d isMax ≤ 9 - d)
        ∧ (evaluate_board b ai human ≠ -10 → -9 + d ≤ mmVal (n + 1) b ai human d isMax) := by
      unfold mmVal
      simp only []
      by_cases h1 : evaluate_board b ai human = 10
      · simp only [h1, if_true]
        exact ⟨fun h => absurd rfl h, fun _ => by omega⟩
      · rw [if_neg h1]
        by_cases h2 : evaluate_board b ai human = -10
        · simp only [h2, if_true]
          exact ⟨fun _ => by omega, fun h => absurd rfl h⟩
        · rw [if_neg h2]
          by_cases h3 : (!hasEmpty b) = true
          · simp only [h3, if_true]
            exact ⟨fun _ => by omega, fun _ => by omega⟩
          · rw [if_neg h3]
            have he : hasEmpty b = true := by simpa using h3
            obtain ⟨i0, hi0⟩ := (hasEmpty_iff b).mp he
            cases isMax with
            | true =>
              simp only [if_true]
              obtain ⟨i, _, hbi, hfi⟩ := scanMax_attains b
                (fun i => mmVal n (setCell b i ai) ai human (d + 1) false) cells INT_MIN
                i0 (mem_cells i0) hi0
                (by have := (hchild ai false hai i0 hi0).1; simp only [INT_MIN]; omega)
              rw [← hfi]
              have := hchild ai false hai i hbi
              exact ⟨fun _ => by omega, fun _ => by omega⟩
            | false =>
              simp only [Bool.false_eq_true, if_false]
              obtain ⟨i, _, hbi, hfi⟩ := scanMin_attains b
                (fun i => mmVal n (setCell b i human) ai human (d + 1) true) cells INT_MAX
                i0 (mem_cells i0) hi0
                (by have := (hchild human true hhu i0 hi0).2; simp only [INT_MAX]; omega)
              rw [← hfi]
              have := hchild human true hhu i hbi
              exact ⟨fun _ => by omega, fun _ => by omega⟩
    constructor
    · intro hw
      exact main.1 (fun h => hw (evaluate_board_eq_win b ai human h))
    · intro hw
      exact main.2 (fun h => hw (evaluate_board_eq_loss b ai human h))

end TicTacToe

namespace TicTacToe

theorem mmVal_full (n : Nat) (b : Board) (ai human : Char) (d : Int) (isMax : Bool)
    (h1 : check_winner b ≠ ai) (h2 : check_winner b ≠ human) (hE : hasEmpty b = false) :
    mmVal (n + 1) b ai human d isMax = 0 := by
  have hs : evaluate_board b ai human = 0 := by
    unfold evaluate_board
    simp only [h1, h2, if_false]
  have z1 : ¬ ((0 : Int) = 10) := by decide
  have z2 : ¬ ((0 : Int) = -10) := by decide
  rw [mmVal]
  simp only [hs, z1, z2, hE, if_false, Bool.not_false, if_true]

/-- The candidate value of a cell that completes a triple for `ai` is 10. -/
theorem candidate_win (b : Board) (ai human : Char) (i : Fin 9) (hai : ai ≠ ' ')
    (hl : hasLine b = false) (hc : completes b ai i = true) :
    mmVal 10 (setCell b i ai) ai human 0 false = 10 := by
  rw [mmVal_win 9 _ ai human 0 false (check_winner_completes b ai i hai hl hc)]
  rfl

/-- The candidate value of an empty cell that completes no triple for `ai` is
at most 9. -/
theorem candidate_no_win (b : Board) (ai human : Char) (j : Fin 9) (hai : ai ≠ ' ')
    (hhu : human ≠ ' ') (haT : ai ≠ 'T') (hl : hasLine b = false) (hj : b j = ' ')
    (hc : completes b ai j = false) :
    mmVal 10 (setCell b j ai) ai human 0 false ≤ 9 := by
  have he := empties_setCell b j ai hj hai
  have h9 := empties_le b
  have hq : check_winner (setCell b j ai) ≠ ai := by
    rcases check_winner_quiet b ai j hl hj hc with h | h <;> rw [h]
    · exact fun e => hai e.symm
    · exact fun e => haT e.symm
  have := (mmVal_strict 10 (setCell b j ai) ai human 0 false hai hhu (by omega)
    (le_refl _) (by omega) (by omega)).1 hq
  omega

/-- C6, win in one: on every board over `{' ', 'X', 'O'}` with no completed
winning triple, for `(ai, human)` equal to `('X', 'O')` or `('O', 'X')`, if some
empty cell completes a winning triple for `ai`, then `get_best_move` returns
the lowest-indexed such cell. -/
theorem get_best_move_takes_win (board : Board) (ai human : Char) (_hb : overXO board)
    (hl : hasLine board = false) (hp : xoPair ai human)
    (hwin : ∃ i, completes board ai i = true) :
    ∃ r : Fin 9, get_best_move board ai human = some (r.val : Int)
      ∧ completes board ai r = true ∧ ∀ j, completes board ai j = true → r ≤ j := by
  obtain ⟨hai, hhu, _, haT, _⟩ := xoPair_facts ai human hp
  obtain ⟨i0, hi0⟩ := hwin
  have hb0 := ((completes_iff board ai i0).mp hi0).1
  obtain ⟨r, hr, hbr, hall⟩ := get_best_move_argmax board ai human hai hhu ⟨i0, hb0⟩
  have hv0 := candidate_win board ai human i0 hai hl hi0
  have hcr : completes board ai r = true := by
    by_contra hcon
    have hf : completes board ai r = false := by simpa using hcon
    have h9 := candidate_no_win board ai human r hai hhu haT hl hbr hf
    have := (hall i0 hb0).1
    omega
  refine ⟨r, hr, hcr, ?_⟩
  intro j hj
  have hbj := ((completes_iff board ai j).mp hj).1
  apply (hall j hbj).2
  rw [candidate_win board ai human j hai hl hj, candidate_win board ai human r hai hl hcr]

theorem get_best_move_takes_win_witness :
    get_best_move twoInRowBoard 'X' 'O' = some 2 := by
  obtain ⟨r, hr, hc, _⟩ := get_best_move_takes_win twoInRowBoard 'X' 'O'
    (by unfold overXO; decide) (by decide) (Or.inl ⟨rfl, rfl⟩) ⟨2, by decide⟩
  have h2 : ∀ k : Fin 9, completes twoInRowBoard 'X' k = true → k = 2 := by decide
  rw [h2 r hc] at hr
  exact hr

/-- A cell that neither completes a triple for `ai` nor takes the cell where
`human` completes one has candidate value -9: the opponent wins at once. -/
theorem candidate_unblocked (b : Board) (ai human : Char) (r c : Fin 9) (hai : ai ≠ ' ')
    (hhu : human ≠ ' ') (hne : ai ≠ human) (hl : hasLine b = false)
    (hbr : b r = ' ') (hrc : r ≠ c) (hnr : completes b ai r = false)
    (hc : completes b human c = true) :
    mmVal 10 (setCell b r ai) ai human 0 false = -9 := by
  have hbc := ((completes_iff b human c).mp hc).1
  have h9 := empties_le b
  have her := empties_setCell b r ai hbr hai
  have hlr : hasLine (setCell b r ai) = false := hasLine_setCell b ai r hl hbr hnr
  have hcr : setCell b r ai c = ' ' := by
    rw [setCell_other b r c ai (fun h => hrc h.symm)]; exact hbc
  have hEr : hasEmpty (setCell b r ai) = true := (hasEmpty_iff _).mpr ⟨c, hcr⟩
  have hwr : check_winner (setCell b r ai) = ' ' := by
    rw [check_winner_noLine _ hlr, if_pos hEr]
  have hthreat : completes (setCell b r ai) human c = true :=
    completes_after_other b human ai c r hbr hrc hhu hc
  have hlow : mmVal 10 (setCell b r ai) ai human 0 false ≤ -9 := by
    rw [mmVal_minNode 9 _ ai human 0 hai hhu hwr]
    refine le_trans (scanMin_le _ _ cells INT_MAX c (mem_cells c) hcr) ?_
    rw [mmVal_loss 8 _ ai human (0 + 1) true hne
      (check_winner_completes _ human c hhu hlr hthreat)]
    omega
  have hq : check_winner (setCell b r ai) ≠ human := by
    rw [hwr]; exact fun e => hhu e.symm
  have := (mmVal_strict 10 (setCell b r ai) ai human 0 false hai hhu (by omega)
    (le_refl _) (by omega) (by omega)).2 hq
  omega

/-- C7, block a forced loss: on every board over `{' ', 'X', 'O'}` with no
completed winning triple, for `(ai, human)` equal to `('X', 'O')` or
`('O', 'X')`, if no empty cell completes a triple for `ai` and exactly one
empty cell `c` completes a triple for `human`, then `get_best_move` returns
`c`, wherever `c` lies in the index order. -/
theorem get_best_move_blocks (board : Board) (ai human : Char) (_hb : overXO board)
    (hl : hasLine board = false) (hp : xoPair ai human)
    (hno : ∀ i, completes board ai i = false) (c : Fin 9)
    (hc : completes board human c = true)
    (huniq : ∀ j, completes board human j = true → j = c) :
    get_best_move board ai human = some (c.val : Int) := by
  obtain ⟨hai, hhu, hne, haT, hhT⟩ := xoPair_facts ai human hp
  have hbc := ((completes_iff board human c).mp hc).1
  have h9 := empties_le board
  obtain ⟨r, hr, hbr, hall⟩ := get_best_move_argmax board ai human hai hhu ⟨c, hbc⟩
  by_cases hrc : r = c
  · rw [← hrc]; exact hr
  · exfalso
    -- any other cell lets the opponent complete the triple at once
    have hlow := candidate_unblocked board ai human r c hai hhu hne hl hbr hrc
      (hno r) hc
    -- the blocking cell does not lose at once
    have hlc : hasLine (setCell board c ai) = false :=
      hasLine_setCell board ai c hl hbc (hno c)
    have hec := empties_setCell board c ai hbc hai
    have hhigh : -8 ≤ mmVal 10 (setCell board c ai) ai human 0 false := by
      rcases check_winner_quiet board ai c hl hbc (hno c) with hw | hw
      · rw [mmVal_minNode 9 _ ai human 0 hai hhu hw]
        rcases scanMin_mem (setCell board c ai)
            (fun i => mmVal 9 (setCell (setCell board c ai) i human) ai human (0 + 1) true)
            cells INT_MAX with e | ⟨k, _, hbk, e⟩
        · rw [e]; simp only [INT_MAX]; omega
        · rw [← e]
          have hkc : k ≠ c := by
            intro h; rw [h, setCell_same] at hbk; exact hai hbk
          have hnk : completes (setCell board c ai) human k = false := by
            by_contra hcon
            have ht : completes (setCell board c ai) human k = true := by simpa using hcon
            exact hkc (huniq k (completes_before_other board human ai c k hbc hne hai ht))
          have hq : check_winner (setCell (setCell board c ai) k human) ≠ human := by
            rcases check_winner_quiet _ human k hlc hbk hnk with h | h <;> rw [h]
            · exact fun e => hhu e.symm
            · exact fun e => hhT e.symm
          have hek := empties_setCell (setCell board c ai) k human hbk hhu
          have := (mmVal_strict 9 (setCell (setCell board c ai) k human) ai human (0 + 1)
            true hai hhu (by omega) (by omega) (by omega) (by omega)).2 hq
          omega
      · have hE : hasEmpty (setCell board c ai) = false := by
          have := check_winner_noLine _ hlc
          rw [hw] at this
          by_contra hcon
          have hT : hasEmpty (setCell board c ai) = true := by simpa using hcon
          rw [if_pos hT] at this
          exact absurd this (by decide)
        rw [mmVal_full 9 _ ai human 0 false (by rw [hw]; exact fun e => haT e.symm)
          (by rw [hw]; exact fun e => hhT e.symm) hE]
        omega
    have := (hall c hbc).1
    omega

theorem get_best_move_blocks_witness :
    get_best_move threatBoard 'X' 'O' = some 5 :=
  get_best_move_blocks threatBoard 'X' 'O' (by unfold overXO; decide) (by decide)
    (Or.inl ⟨rfl, rfl⟩) (by decide) 5 (by decide) (by decide)

end TicTacToe

namespace TicTacToe

/-! ## Swapping the two players negates the search value -/

theorem evaluate_board_swap (b : Board) (ai human : Char) (hne : ai ≠ human) :
    evaluate_board b ai human = - evaluate_board b human ai := by
  unfold evaluate_board
  simp only []
  by_cases h1 : check_winner b = ai
  · have h2 : ¬ (check_winner b = human) := fun h => hne (h1.symm.trans h)
    simp [h1, h2, hne]
  · by_cases h2 : check_winner b = human
    · have e : ¬ (human = ai) := fun h => hne h.symm
      simp [h1, h2, e]
    · simp [h1, h2]

/-- The value of a position for one player is the negation of its value for
the other. -/
theorem mmVal_swap (n : Nat) (b : Board) (ai human : Char) (d : Int) (isMax : Bool)
    (hai : ai ≠ ' ') (hhu : human ≠ ' ') (hne : ai ≠ human) (hn : empties b < n)
    (hd : 0 ≤ d) (hde : d + empties b ≤ 10) :
    mmVal n b ai human d isMax = - mmVal n b human ai d (!isMax) := by
  induction n generalizing b d isMax with
  | zero => omega
  | succ n ih =>
    have hsw := evaluate_board_swap b ai human hne
    rw [mmVal, mmVal]
    by_cases h1 : evaluate_board b ai human = 10
    · have h1' : evaluate_board b human ai = -10 := by omega
      have z : ¬ ((-10 : Int) = 10) := by decide
      simp only [h1, h1', z, if_true, if_false]
      omega
    · by_cases h2 : evaluate_board b ai human = -10
      · have h2' : evaluate_board b human ai = 10 := by omega
        have z : ¬ ((-10 : Int) = 10) := by decide
        simp only [h2, h2', z, if_true, if_false]
        omega
      · have h1' : ¬ (evaluate_board b human ai = -10) := by omega
        have h2' : ¬ (evaluate_board b human ai = 10) := by omega
        rw [if_neg h1, if_neg h2, if_neg h2', if_neg h1']
        by_cases h3 : (!hasEmpty b) = true
        · simp only [h3, if_true]; rfl
        · rw [if_neg h3, if_neg h3]
          have he : hasEmpty b = true := by simpa using h3
          obtain ⟨i0, hi0⟩ := (hasEmpty_iff b).mp he
          have hbd : ∀ (c : Char) (m : Bool), c ≠ ' ' → ∀ i, b i = ' ' →
              -10 + (d + 1) ≤ mmVal n (setCell b i c) human ai (d + 1) m
                ∧ mmVal n (setCell b i c) human ai (d + 1) m ≤ 10 - (d + 1) := by
            intro c m hc i hi
            have := empties_setCell b i c hi hc
            exact mmVal_bounds n _ human ai (d + 1) m hhu hai (by omega) (by omega)
              (by omega)
          have hsw' : ∀ (c : Char) (m : Bool), c ≠ ' ' → ∀ i, b i = ' ' →
              mmVal n (setCell b i c) ai human (d + 1) m
                = - mmVal n (setCell b i c) human ai (d + 1) (!m) := by
            intro c m hc i hi
            have := empties_setCell b i c hi hc
            exact ih _ _ _ (by omega) (by omega) (by omega)
          cases isMax with
          | true =>
            simp only [if_true, Bool.not_true, Bool.false_eq_true, if_false]
            rw [scanMax_congr b _ (fun i => - mmVal n (setCell b i ai) human ai (d + 1) true)
              cells INT_MIN (fun i hi => hsw' ai false hai i hi)]
            obtain ⟨i, _, hbi, hfi⟩ := scanMax_attains b
              (fun i => - mmVal n (setCell b i ai) human ai (d + 1) true) cells INT_MIN
              i0 (mem_cells i0) hi0
              (by have := (hbd ai true hai i0 hi0).2; simp only [INT_MIN]; omega)
            obtain ⟨k, _, hbk, hfk⟩ := scanMin_attains b
              (fun i => mmVal n (setCell b i ai) human ai (d + 1) true) cells INT_MAX
              i0 (mem_cells i0) hi0
              (by have := (hbd ai true hai i0 hi0).2; simp only [INT_MAX]; omega)
            have a1 := scanMax_ge b
              (fun i => - mmVal n (setCell b i ai) human ai (d + 1) true) cells INT_MIN
              k (mem_cells k) hbk
            have a2 := scanMin_le b
              (fun i => mmVal n (setCell b i ai) human ai (d + 1) true) cells INT_MAX
              i (mem_cells i) hbi
            simp only [] at hfi hfk a1 a2
            omega
          | false =>
            simp only [if_true, Bool.not_false, Bool.false_eq_true, if_false]
            rw [scanMin_congr b _
              (fun i => - mmVal n (setCell b i human) human ai (d + 1) false)
              cells INT_MAX (fun i hi => hsw' human true hhu i hi)]
            obtain ⟨i, _, hbi, hfi⟩ := scanMin_attains b
              (fun i => - mmVal n (setCell b i human) human ai (d + 1) false) cells INT_MAX
              i0 (mem_cells i0) hi0
              (by have := (hbd human false hhu i0 hi0).1; simp only [INT_MAX]; omega)
            obtain ⟨k, _, hbk, hfk⟩ := scanMax_attains b
              (fun i => mmVal n (setCell b i human) human ai (d + 1) false) cells INT_MIN
              i0 (mem_cells i0) hi0
              (by have := (hbd human false hhu i0 hi0).1; simp only [INT_MIN]; omega)
            have a1 := scanMin_le b
              (fun i => - mmVal n (setCell b i human) human ai (d + 1) false) cells INT_MAX
              k (mem_cells k) hbk
            have a2 := scanMax_ge b
              (fun i => mmVal n (setCell b i human) human ai (d + 1) false) cells INT_MIN
              i (mem_cells i) hbi
            simp only [] at hfi hfk a1 a2
            omega

end TicTacToe

namespace TicTacToe

/-! ## Positive search values encode the length of the forced win -/

theorem decodeWin_keep_greater (d best v : Int) :
    decodeWin d (if v > best then v else best)
      = optMin (decodeWin d best) (decodeWin d v) := by
  unfold decodeWin
  by_cases hb : 0 < best <;> by_cases hv : 0 < v <;> by_cases hvb : v > best <;>
    simp only [hb, hv, hvb, if_true, if_false, optMin] <;>
    first
      | rfl
      | omega
      | (congr 1; omega)

theorem decodeWin_keep_less (d best v : Int) :
    decodeWin d (if v < best then v else best)
      = optMaxAll (decodeWin d best) (decodeWin d v) := by
  unfold decodeWin
  by_cases hb : 0 < best <;> by_cases hv : 0 < v <;> by_cases hvb : v < best <;>
    simp only [hb, hv, hvb, if_true, if_false, optMaxAll] <;>
    first
      | rfl
      | omega
      | (congr 1; omega)

theorem decodeWin_child (d v : Int) (hv : v ≤ 10 - (d + 1)) :
    decodeWin d v = (decodeWin (d + 1) v).map (fun k => k + 1) := by
  unfold decodeWin
  by_cases h : 0 < v
  · simp only [h, if_true, Option.map_some']
    congr 1
    omega
  · simp only [h, if_false, Option.map_none']

/-- On a board over `{' ', 'X', 'O'}`, the forced-win length of a position is
the one encoded by its search value. -/
theorem winLenF_decode (n : Nat) (b : Board) (ai human : Char) (d : Int) (isMax : Bool)
    (hb : overXO b) (hp : xoPair ai human) (hn : empties b < n) (hd : 0 ≤ d)
    (hde : d + empties b ≤ 9) :
    winLenF n b ai human isMax = decodeWin d (mmVal n b ai human d isMax) := by
  obtain ⟨hai, hhu, hne, haT, hhT⟩ := xoPair_facts ai human hp
  induction n generalizing b d isMax with
  | zero => omega
  | succ n ih =>
    rw [winLenF]
    rcases check_winner_overXO b ai human hb hp with h | h | ⟨h, hE⟩ | ⟨h, hE⟩
    · rw [mmVal_win n b ai human d isMax h]
      have hpos : (0 : Int) < 10 - d := by omega
      simp only [h, if_true, decodeWin, hpos]
      congr 1
      omega
    · rw [mmVal_loss n b ai human d isMax hne h]
      have hneg : ¬ ((0 : Int) < -10 + d) := by omega
      have e1 : ¬ (human = ai) := fun e => hne e.symm
      simp only [h, e1, hhu, if_false, decodeWin, hneg]
    · have e1 : ¬ (' ' = ai) := fun e => hai e.symm
      simp only [h, e1, if_false, if_true]
      have hchild : ∀ (c : Char) (m : Bool), (c = 'X' ∨ c = 'O') → c ≠ ' ' →
          ∀ i, b i = ' ' →
            (winLenF n (setCell b i c) ai human m).map (fun k => k + 1)
              = decodeWin d (mmVal n (setCell b i c) ai human (d + 1) m) := by
        intro c m hc hc' i hi
        have he := empties_setCell b i c hi hc'
        rw [ih _ (d + 1) m (overXO_setCell b i c hb hc) (by omega) (by omega) (by omega)]
        exact (decodeWin_child d _
          (mmVal_bounds n _ ai human (d + 1) m hai hhu (by omega) (by omega)
            (by omega)).2).symm
      cases isMax with
      | true =>
        simp only [if_true]
        rw [mmVal_maxNode n b ai human d hai hhu h,
          scanMax_foldEmpty (decodeWin d) optMin (decodeWin_keep_greater d)]
        have hinit : decodeWin d INT_MIN = none := by
          simp [decodeWin, INT_MIN]
        rw [hinit]
        exact foldEmpty_congr _ _ _ _ _ _
          (fun i hi => hchild ai false (xoPair_ai ai human hp) hai i hi)
      | false =>
        simp only [Bool.false_eq_true, if_false]
        rw [mmVal_minNode n b ai human d hai hhu h,
          scanMin_foldEmpty (decodeWin d) optMaxAll (decodeWin_keep_less d)]
        have hinit : decodeWin d INT_MAX = some 0 := by
          have hpos : (0 : Int) < INT_MAX := by decide
          simp only [decodeWin, hpos, if_true]
          congr 1
          simp only [INT_MAX]
          omega
        rw [hinit]
        exact foldEmpty_congr _ _ _ _ _ _
          (fun i hi => hchild human true (xoPair_human ai human hp) hhu i hi)
    · have e1 : ¬ ('T' = ai) := fun e => haT e.symm
      have e2 : ¬ ('T' = human) := fun e => hhT e.symm
      have e3 : ¬ ('T' = ' ') := by decide
      rw [mmVal_full n b ai human d isMax (by rw [h]; exact e1) (by rw [h]; exact e2) hE]
      simp [h, e1, e3, decodeWin]

end TicTacToe

namespace TicTacToe

theorem decodeWin_some (d v : Int) (L : Nat) (h : decodeWin d v = some L) :
    0 < v ∧ L = (10 - d - v).toNat := by
  unfold decodeWin at h
  by_cases hv : 0 < v
  · simp only [hv, if_true, Option.some.injEq] at h
    exact ⟨hv, h.symm⟩
  · simp only [hv, if_false] at h
    cases h

theorem decodeWin_pos (d v : Int) (hv : 0 < v) :
    decodeWin d v = some (10 - d - v).toNat := by
  simp only [decodeWin, hv, if_true]

theorem xoPair_swap (ai human : Char) (hp : xoPair ai human) : xoPair human ai := by
  rcases hp with ⟨e1, e2⟩ | ⟨e1, e2⟩
  · exact Or.inr ⟨e2, e1⟩
  · exact Or.inl ⟨e2, e1⟩

/-- The forced-win length for `ai` after `ai` takes the empty cell `i`, read
off the candidate value of `i`. -/
theorem winLen_candidate (b : Board) (ai human : Char) (i : Fin 9) (hb : overXO b)
    (hp : xoPair ai human) (hi : b i = ' ') :
    winLen (setCell b i ai) ai human false
      = decodeWin 0 (mmVal 10 (setCell b i ai) ai human 0 false) := by
  have hai := (xoPair_facts ai human hp).1
  have he := empties_setCell b i ai hi hai
  have h9 := empties_le b
  unfold winLen
  exact winLenF_decode 10 (setCell b i ai) ai human 0 false
    (overXO_setCell b i ai hb (xoPair_ai ai human hp)) hp (by omega) (le_refl _) (by omega)

/-- The forced-win length for `human` after `ai` takes the empty cell `i`, read
off the candidate value of `i`. -/
theorem loseLen_candidate (b : Board) (ai human : Char) (i : Fin 9) (hb : overXO b)
    (hp : xoPair ai human) (hi : b i = ' ') :
    winLen (setCell b i ai) human ai true
      = decodeWin 0 (- mmVal 10 (setCell b i ai) ai human 0 false) := by
  obtain ⟨hai, hhu, hne, _, _⟩ := xoPair_facts ai human hp
  have he := empties_setCell b i ai hi hai
  have h9 := empties_le b
  rw [mmVal_swap 10 (setCell b i ai) ai human 0 false hai hhu hne (by omega) (le_refl _)
    (by omega), neg_neg]
  unfold winLen
  exact winLenF_decode 10 (setCell b i ai) human ai 0 true
    (overXO_setCell b i ai hb (xoPair_ai ai human hp)) (xoPair_swap ai human hp)
    (by omega) (le_refl _) (by omega)

/-- A forced win for `ai`, to move on a board without a complete line, starts
with some empty cell. -/
theorem forced_win_cell (b : Board) (ai human : Char) (hb : overXO b)
    (hl : hasLine b = false) (hp : xoPair ai human)
    (hwin : winLen b ai human true ≠ none) :
    ∃ j, b j = ' ' ∧ 0 < mmVal 10 (setCell b j ai) ai human 0 false := by
  obtain ⟨hai, hhu, _, haT, hhT⟩ := xoPair_facts ai human hp
  have h9 := empties_le b
  have hdec : winLen b ai human true = decodeWin 0 (mmVal 10 b ai human 0 true) :=
    winLenF_decode 10 b ai human 0 true hb hp (by omega) (le_refl _) (by omega)
  have hpos : 0 < mmVal 10 b ai human 0 true := by
    by_contra hcon
    apply hwin
    rw [hdec]
    simp only [decodeWin, hcon, if_false]
  have hw : check_winner b = ' ' := by
    have hcw := check_winner_noLine b hl
    by_cases hE : hasEmpty b = true
    · rw [hcw, if_pos hE]
    · exfalso
      rw [if_neg hE] at hcw
      have hE' : hasEmpty b = false := by simpa using hE
      rw [mmVal_full 9 b ai human 0 true (by rw [hcw]; exact fun e => haT e.symm)
        (by rw [hcw]; exact fun e => hhT e.symm) hE'] at hpos
      omega
  rw [mmVal_maxNode 9 b ai human 0 hai hhu hw] at hpos
  rcases scanMax_mem b (fun i => mmVal 9 (setCell b i ai) ai human (0 + 1) false) cells
    INT_MIN with e | ⟨j, _, hbj, e⟩
  · rw [e] at hpos
    simp only [INT_MIN] at hpos
    omega
  · refine ⟨j, hbj, ?_⟩
    have he := empties_setCell b j ai hbj hai
    have hbx := overXO_setCell b j ai hb (xoPair_ai ai human hp)
    have hj1 : 0 < mmVal 9 (setCell b j ai) ai human (0 + 1) false := by omega
    have s1 := sign_mmVal 9 (setCell b j ai) ai human (0 + 1) false hbx hp (by omega)
      (by omega) (by omega)
    have s2 := sign_mmVal 10 (setCell b j ai) ai human 0 false hbx hp (by omega)
      (le_refl _) (by omega)
    rw [plainF_fuel 9 10 _ ai human false hai hhu (by omega) (by omega), ← s2,
      Int.sign_eq_one_of_pos hj1] at s1
    rcases sign_cases (mmVal 10 (setCell b j ai) ai human 0 false)
      with ⟨h, _⟩ | ⟨_, e0⟩ | ⟨_, e0⟩
    · exact h
    · rw [e0] at s1; cases s1
    · rw [e0] at s1; cases s1

/-- C8, depth preference for wins: on every board over `{' ', 'X', 'O'}` with
no completed winning triple on which `ai`, to move, has a forced win,
`get_best_move` returns a cell whose forced-win length (the number of further
plies until the win of `ai`, `ai` winning as fast as possible and the opponent
delaying as long as possible) is minimal over all empty cells. -/
theorem get_best_move_fastest_win (board : Board) (ai human : Char) (hb : overXO board)
    (hl : hasLine board = false) (hp : xoPair ai human)
    (hwin : winLen board ai human true ≠ none) :
    ∃ (r : Fin 9) (L : Nat), get_best_move board ai human = some (r.val : Int)
      ∧ board r = ' ' ∧ winLen (setCell board r ai) ai human false = some L
      ∧ ∀ j, board j = ' ' →
          ∀ L', winLen (setCell board j ai) ai human false = some L' → L ≤ L' := by
  obtain ⟨hai, hhu, _, _, _⟩ := xoPair_facts ai human hp
  obtain ⟨j0, hj0, hv0⟩ := forced_win_cell board ai human hb hl hp hwin
  obtain ⟨r, hr, hbr, hall⟩ := get_best_move_argmax board ai human hai hhu ⟨j0, hj0⟩
  have hvr : 0 < mmVal 10 (setCell board r ai) ai human 0 false := by
    have := (hall j0 hj0).1
    omega
  refine ⟨r, (10 - 0 - mmVal 10 (setCell board r ai) ai human 0 false).toNat, hr, hbr,
    ?_, ?_⟩
  · rw [winLen_candidate board ai human r hb hp hbr]
    exact decodeWin_pos 0 _ hvr
  · intro j hj L' hL'
    rw [winLen_candidate board ai human j hb hp hj] at hL'
    obtain ⟨_, e⟩ := decodeWin_some 0 _ L' hL'
    have := (hall j hj).1
    omega

set_option maxRecDepth 100000 in
theorem get_best_move_fastest_win_witness :
    get_best_move raceBoard 'X' 'O' = some 8
      ∧ winLen (setCell raceBoard 8 'X') 'X' 'O' false = some 0
      ∧ winLen (setCell raceBoard 2 'X') 'X' 'O' false = some 2
      ∧ cellValue raceBoard 'X' 'O' 8 = some 10
      ∧ cellValue raceBoard 'X' 'O' 2 = some 8 := by
  obtain ⟨r, L, hr, hbr, hL, hmin⟩ := get_best_move_fastest_win raceBoard 'X' 'O'
    (by unfold overXO; decide) (by decide) (Or.inl ⟨rfl, rfl⟩) (by decide)
  have h8 : winLen (setCell raceBoard 8 'X') 'X' 'O' false = some 0 := by decide
  have h2 : winLen (setCell raceBoard 2 'X') 'X' 'O' false = some 2 := by decide
  have hL0 : L = 0 := Nat.le_zero.mp (hmin 8 (by decide) 0 h8)
  have honly : ∀ k : Fin 9, raceBoard k = ' ' →
      winLen (setCell raceBoard k 'X') 'X' 'O' false = some 0 → k = 8 := by decide
  rw [hL0] at hL
  rw [honly r hbr hL] at hr
  exact ⟨hr, h8, h2, by decide, by decide⟩

/-- C9, depth preference for losses: on every board over `{' ', 'X', 'O'}`
with no completed winning triple and at least one empty cell on which every
empty cell loses for `ai` under optimal opposition, `get_best_move` returns a
cell that maximises the number of plies until the opponent's forced win (the
opponent winning as fast as possible, `ai` delaying as long as possible). -/
theorem get_best_move_slowest_loss (board : Board) (ai human : Char) (hb : overXO board)
    (_hl : hasLine board = false) (hp : xoPair ai human) (hne : ∃ i, board i = ' ')
    (hlose : ∀ j, board j = ' ' → winLen (setCell board j ai) human ai true ≠ none) :
    ∃ (r : Fin 9) (L : Nat), get_best_move board ai human = some (r.val : Int)
      ∧ board r = ' ' ∧ winLen (setCell board r ai) human ai true = some L
      ∧ ∀ j, board j = ' ' →
          ∀ L', winLen (setCell board j ai) human ai true = some L' → L' ≤ L := by
  obtain ⟨hai, hhu, _, _, _⟩ := xoPair_facts ai human hp
  obtain ⟨r, hr, hbr, hall⟩ := get_best_move_argmax board ai human hai hhu hne
  have hlr := hlose r hbr
  rw [loseLen_candidate board ai human r hb hp hbr] at hlr
  have hvr : 0 < - mmVal 10 (setCell board r ai) ai human 0 false := by
    by_contra hcon
    apply hlr
    simp only [decodeWin, hcon, if_false]
  refine ⟨r, (10 - 0 - (- mmVal 10 (setCell board r ai) ai human 0 false)).toNat, hr, hbr,
    ?_, ?_⟩
  · rw [loseLen_candidate board ai human r hb hp hbr]
    exact decodeWin_pos 0 _ hvr
  · intro j hj L' hL'
    rw [loseLen_candidate board ai human j hb hp hj] at hL'
    obtain ⟨_, e⟩ := decodeWin_some 0 _ L' hL'
    have := (hall j hj).1
    omega

end TicTacToe

namespace TicTacToe

theorem get_best_move_slowest_loss_witness :
    get_best_move threatBoard 'X' 'O' = some 5
      ∧ cellValue threatBoard 'X' 'O' 5 = some (-7)
      ∧ ∀ j, threatBoard j = ' ' → j ≠ 5 → cellValue threatBoard 'X' 'O' j = some (-9) := by
  have hx : overXO threatBoard := by unfold overXO; decide
  have hp : xoPair 'X' 'O' := Or.inl ⟨rfl, rfl⟩
  have hv5 : mmVal 10 (setCell threatBoard 5 'X') 'X' 'O' 0 false = -7 := by decide!
  have hvj : ∀ j, threatBoard j = ' ' → j ≠ 5 →
      mmVal 10 (setCell threatBoard j 'X') 'X' 'O' 0 false = -9 := fun j hj hne =>
    candidate_unblocked threatBoard 'X' 'O' j 5 (by decide) (by decide) (by decide)
      (by decide) hj hne
      ((by decide : ∀ k, completes threatBoard 'X' k = false) j) (by decide)
  have hlen : ∀ j, threatBoard j = ' ' →
      winLen (setCell threatBoard j 'X') 'O' 'X' true = if j = 5 then some 3 else some 1 := by
    intro j hj
    rw [loseLen_candidate threatBoard 'X' 'O' j hx hp hj]
    by_cases h5 : j = 5
    · rw [if_pos h5, h5, hv5]; decide
    · rw [if_neg h5, hvj j hj h5]; decide
  obtain ⟨r, L, hr, hbr, hL, hmax⟩ := get_best_move_slowest_loss threatBoard 'X' 'O' hx
    (by decide) hp ⟨5, by decide⟩
    (fun j hj => by rw [hlen j hj]; split_ifs <;> exact Option.some_ne_none _)
  have h3 : 3 ≤ L := hmax 5 (by decide) 3 (by rw [hlen 5 (by decide)]; rfl)
  have hr5 : r = 5 := by
    by_contra hne
    rw [hlen r hbr, if_neg hne] at hL
    have : L = 1 := (Option.some.inj hL).symm
    omega
  rw [hr5] at hr
  refine ⟨hr, ?_, ?_⟩
  · rw [cellValue_eq threatBoard 'X' 'O' 5 (by decide) (by decide), hv5]
  · intro j hj hne
    rw [cellValue_eq threatBoard 'X' 'O' j (by decide) (by decide), hvj j hj hne]

end TicTacToe

namespace TicTacToe

/-! ## The answers of `check_winner` -/

theorem find?_first {α : Type} (p : α → Bool) (l : List α) (k : Fin l.length)
    (hk : p (l.get k) = true) (hpre : ∀ j : Fin l.length, j < k → p (l.get j) = false) :
    l.find? p = some (l.get k) := by
  induction l with
  | nil => exact k.elim0
  | cons a t ih =>
    obtain ⟨kv, hkv⟩ := k
    cases kv with
    | zero =>
      simp only [List.get] at hk ⊢
      simp [List.find?, hk]
    | succ k' =>
      have h0 : p a = false := hpre ⟨0, by simp⟩ (by simp [Fin.lt_def])
      have hk' : k' < t.length := by simpa using hkv
      simp only [List.get] at hk ⊢
      rw [List.find?, h0]
      refine ih ⟨k', hk'⟩ hk ?_
      intro j hj
      have := hpre ⟨j.val + 1, by simp⟩ (by simp only [Fin.lt_def] at hj ⊢; omega)
      simpa [List.get] using this

/-- The answer of `check_winner` when the triple of index `k` is the first
complete one. -/
theorem check_winner_first (b : Board) (k : Fin win_lines.length)
    (hk : lineWon b (win_lines.get k) = true)
    (hpre : ∀ j : Fin win_lines.length, j < k → lineWon b (win_lines.get j) = false) :
    check_winner b = b (win_lines.get k).1 := by
  unfold check_winner
  rw [find?_first (lineWon b) win_lines k hk hpre]

/-- C12: for each of the eight winning triples, in the order
`(0,1,2),(3,4,5),(6,7,8),(0,3,6),(1,4,7),(2,5,8),(0,4,8),(2,4,6)`, every mark
`m` different from `' '` and every board whose three cells of that triple all
hold `m`, the other cells being arbitrary, and on which no triple earlier in
the order is complete, `check_winner` returns `m`, whether or not the board
still has empty cells. -/
theorem check_winner_triple (b : Board) (m : Char) (k : Fin win_lines.length)
    (hm : m ≠ ' ')
    (h1 : b (win_lines.get k).1 = m) (h2 : b (win_lines.get k).2.1 = m)
    (h3 : b (win_lines.get k).2.2 = m)
    (hpre : ∀ j : Fin win_lines.length, j < k → lineWon b (win_lines.get j) = false) :
    check_winner b = m := by
  have hk : lineWon b (win_lines.get k) = true :=
    lineOf_lineWon b m _ hm ((lineOf_iff b m _).mpr ⟨h1, h2, h3⟩)
  rw [check_winner_first b k hk hpre, h1]

theorem check_winner_triple_witness :
    check_winner diagonalBoard = 'O' ∧ check_winner columnBoard = 'X' :=
  ⟨check_winner_triple diagonalBoard 'O' ⟨6, by decide⟩ (by decide) (by decide) (by decide)
    (by decide) (by decide),
   check_winner_triple columnBoard 'X' ⟨5, by decide⟩ (by decide) (by decide) (by decide)
    (by decide) (by decide)⟩

end TicTacToe

namespace TicTacToe

theorem hasLine_false_of (b : Board)
    (h : ∀ l ∈ win_lines, ¬ (b l.1 ≠ ' ' ∧ b l.1 = b l.2.1 ∧ b l.2.1 = b l.2.2)) :
    hasLine b = false := by
  rw [hasLine_false_iff]
  intro l hl
  by_contra hcon
  have hw : lineWon b l = true := by simpa using hcon
  exact h l hl ((lineWon_iff b l).mp hw)

/-- C13: on every board on which no winning triple holds three equal cells
different from `' '` and at least one cell is `' '`, `check_winner` returns
`' '` (ongoing); in particular it returns `' '` on the board made by
`init_board`, all nine cells of which are `' '`. -/
theorem check_winner_ongoing (b : Board)
    (hno : ∀ l ∈ win_lines, ¬ (b l.1 ≠ ' ' ∧ b l.1 = b l.2.1 ∧ b l.2.1 = b l.2.2))
    (hE : ∃ i, b i = ' ') :
    check_winner b = ' ' ∧ (∀ i, init_board i = ' ') ∧ check_winner init_board = ' ' := by
  refine ⟨?_, fun _ => rfl, by decide⟩
  rw [check_winner_noLine b (hasLine_false_of b hno), if_pos ((hasEmpty_iff b).mpr hE)]

set_option maxRecDepth 100000 in
theorem check_winner_ongoing_witness :
    check_winner threatBoard = ' ' ∧ (∀ i, init_board i = ' ')
      ∧ check_winner init_board = ' ' :=
  check_winner_ongoing threatBoard (by decide) ⟨0, by decide⟩

/-- C14: on every board none of whose nine cells is `' '` and on which no
winning triple holds three equal cells, `check_winner` returns `'T'` (draw). -/
theorem check_winner_draw (b : Board) (hfull : ∀ i, b i ≠ ' ')
    (hno : ∀ l ∈ win_lines, ¬ (b l.1 = b l.2.1 ∧ b l.2.1 = b l.2.2)) :
    check_winner b = 'T' := by
  have hl : hasLine b = false := hasLine_false_of b (fun l hl h => hno l hl h.2)
  have hE : ¬ (hasEmpty b = true) := by
    rw [hasEmpty_iff]
    rintro ⟨i, hi⟩
    exact hfull i hi
  rw [check_winner_noLine b hl, if_neg hE]

set_option maxRecDepth 100000 in
theorem check_winner_draw_witness : check_winner drawnBoard = 'T' :=
  check_winner_draw drawnBoard (by decide) (by decide)

/-- C15: when several winning triples are complete on a board, possibly with
different marks, `check_winner` returns the mark of the complete triple that
comes first in the order of `win_lines`, whatever triples later in the order
are complete; in particular it does not return the different mark of a later
complete triple. -/
theorem check_winner_first_triple (b : Board) (k : Fin win_lines.length)
    (hk : lineWon b (win_lines.get k) = true)
    (hpre : ∀ j : Fin win_lines.length, j < k → lineWon b (win_lines.get j) = false) :
    check_winner b = b (win_lines.get k).1
      ∧ ∀ k' : Fin win_lines.length, k < k' → lineWon b (win_lines.get k') = true →
          b (win_lines.get k').1 ≠ b (win_lines.get k).1 →
          check_winner b ≠ b (win_lines.get k').1 := by
  have h := check_winner_first b k hk hpre
  refine ⟨h, ?_⟩
  intro k' _ _ hne
  rw [h]
  exact fun e => hne e.symm

theorem check_winner_first_triple_witness :
    check_winner twoWinsBoard = 'X' ∧ check_winner twoWinsBoard ≠ 'O' := by
  have h := check_winner_first_triple twoWinsBoard ⟨0, by decide⟩ (by decide) (by decide)
  exact ⟨h.1, h.2 ⟨1, by decide⟩ (by decide) (by decide) (by decide)⟩

/-- C16: on every board whose cells are all in `{' ', 'X', 'O'}`,
`check_winner` returns one of `'X'`, `'O'`, `'T'`, `' '`; it returns `'X'`
(respectively `'O'`) only if some winning triple has all three cells equal to
`'X'` (respectively `'O'`); and it returns `'T'` if and only if the board has
no empty cell and no complete triple. -/
theorem check_winner_range (b : Board) (hb : overXO b) :
    (check_winner b = 'X' ∨ check_winner b = 'O' ∨ check_winner b = 'T'
        ∨ check_winner b = ' ')
      ∧ (check_winner b = 'X' →
          ∃ l ∈ win_lines, b l.1 = 'X' ∧ b l.2.1 = 'X' ∧ b l.2.2 = 'X')
      ∧ (check_winner b = 'O' →
          ∃ l ∈ win_lines, b l.1 = 'O' ∧ b l.2.1 = 'O' ∧ b l.2.2 = 'O')
      ∧ (check_winner b = 'T' ↔
          (∀ i, b i ≠ ' ') ∧ ∀ l ∈ win_lines, lineWon b l = false) := by
  have hline : ∀ m : Char, m ≠ ' ' → m ≠ 'T' → check_winner b = m →
      ∃ l ∈ win_lines, b l.1 = m ∧ b l.2.1 = m ∧ b l.2.2 = m := by
    intro m hm hmT hw
    rcases check_winner_cases b with ⟨l, hl, hwon, he⟩ | ⟨_, he⟩
    · obtain ⟨_, e1, e2⟩ := (lineWon_iff b l).mp hwon
      have h1 : b l.1 = m := by rw [← he]; exact hw
      exact ⟨l, hl, h1, by rw [← e1]; exact h1, by rw [← e2, ← e1]; exact h1⟩
    · rw [hw] at he
      split_ifs at he
      · exact absurd he hm
      · exact absurd he hmT
  refine ⟨?_, hline 'X' (by decide) (by decide), hline 'O' (by decide) (by decide), ?_⟩
  · rcases check_winner_overXO b 'X' 'O' hb (Or.inl ⟨rfl, rfl⟩)
      with h | h | ⟨h, _⟩ | ⟨h, _⟩
    · exact Or.inl h
    · exact Or.inr (Or.inl h)
    · exact Or.inr (Or.inr (Or.inr h))
    · exact Or.inr (Or.inr (Or.inl h))
  · constructor
    · intro hT
      rcases check_winner_cases b with ⟨l, _, hwon, he⟩ | ⟨hn, he⟩
      · exfalso
        have hne := ((lineWon_iff b l).mp hwon).1
        rw [hT] at he
        rcases hb l.1 with h | h | h
        · exact hne h
        · rw [h] at he; exact absurd he (by decide)
        · rw [h] at he; exact absurd he (by decide)
      · refine ⟨?_, (hasLine_false_iff b).mp hn⟩
        intro i hi
        have hE : hasEmpty b = true := (hasEmpty_iff b).mpr ⟨i, hi⟩
        rw [hT, if_pos hE] at he
        exact absurd he (by decide)
    · rintro ⟨hfull, hno⟩
      have hE : ¬ (hasEmpty b = true) := by
        rw [hasEmpty_iff]
        rintro ⟨i, hi⟩
        exact hfull i hi
      rw [check_winner_noLine b ((hasLine_false_iff b).mpr hno), if_neg hE]

theorem check_winner_range_witness :
    (check_winner raceBoard = 'X' ∨ check_winner raceBoard = 'O'
        ∨ check_winner raceBoard = 'T' ∨ check_winner raceBoard = ' ')
      ∧ (check_winner raceBoard = 'X' →
          ∃ l ∈ win_lines, raceBoard l.1 = 'X' ∧ raceBoard l.2.1 = 'X'
            ∧ raceBoard l.2.2 = 'X')
      ∧ (check_winner raceBoard = 'O' →
          ∃ l ∈ win_lines, raceBoard l.1 = 'O' ∧ raceBoard l.2.1 = 'O'
            ∧ raceBoard l.2.2 = 'O')
      ∧ (check_winner raceBoard = 'T' ↔
          (∀ i, raceBoard i ≠ ' ') ∧ ∀ l ∈ win_lines, lineWon raceBoard l = false) :=
  check_winner_range raceBoard (by unfold overXO; decide)

end TicTacToe

namespace TicTacToe

/-! ## The board after the search -/

/-- C17: for every board, every pair of marks different from `' '`, every
depth and flag, `minimax` returns and the board array it was given then holds
exactly the contents it held on entry.  Consequently the scan of
`get_best_move`, started on a copy equal to the caller's board, has that copy
equal to the caller's board again after any number of candidates, and each
empty candidate cell `i` is evaluated by `minimax` on the caller's board plus
the single placement at `i`; the caller's board itself is only read. -/
theorem minimax_restores_board (board : Board) (ai human : Char) (depth : Int)
    (isMax : Bool) (hai : ai ≠ ' ') (hhu : human ≠ ' ') :
    (∃ v, minimax board ai human depth isMax = some (v, board))
      ∧ (∀ (l : List (Fin 9)) (bestVal bestMove : Int), ∃ bv bm,
          l.foldlM (moveStep ai human) (bestVal, bestMove, board) = some (bv, bm, board))
      ∧ (∀ i, board i = ' ' → ∀ bestVal bestMove : Int, ∃ v,
          minimax (setCell board i ai) ai human 0 false = some (v, setCell board i ai)
            ∧ moveStep ai human (bestVal, bestMove, board) i
                = some (if v > bestVal then (v, (i.val : Int), board)
                        else (bestVal, bestMove, board))) := by
  refine ⟨⟨_, minimax_eq board ai human depth isMax hai hhu⟩, ?_, ?_⟩
  · intro l bestVal bestMove
    exact ⟨_, _, foldlM_moveStep ai human hai hhu board l bestVal bestMove⟩
  · intro i hi bestVal bestMove
    refine ⟨_, minimax_eq (setCell board i ai) ai human 0 false hai hhu, ?_⟩
    simp only [moveStep, hi, if_true, minimax_eq _ _ _ _ _ hai hhu, setCell_undo board i ai hi]

theorem minimax_restores_board_witness :
    (∃ v, minimax raceBoard 'X' 'O' 3 true = some (v, raceBoard))
      ∧ (∀ (l : List (Fin 9)) (bestVal bestMove : Int), ∃ bv bm,
          l.foldlM (moveStep 'X' 'O') (bestVal, bestMove, raceBoard)
            = some (bv, bm, raceBoard))
      ∧ (∀ i, raceBoard i = ' ' → ∀ bestVal bestMove : Int, ∃ v,
          minimax (setCell raceBoard i 'X') 'X' 'O' 0 false
              = some (v, setCell raceBoard i 'X')
            ∧ moveStep 'X' 'O' (bestVal, bestMove, raceBoard) i
                = some (if v > bestVal then (v, (i.val : Int), raceBoard)
                        else (bestVal, bestMove, raceBoard))) :=
  minimax_restores_board raceBoard 'X' 'O' 3 true (by decide) (by decide)

end TicTacToe

namespace TicTacToe

/-! ## Depth adjustment and outcome -/

/-- The sign of the depth-adjusted value is the plain minimax value at every
depth `d`, negative ones included, as long as `d` plus the number of empty
cells stays below 10. -/
theorem sign_mmVal_any (n : Nat) (b : Board) (ai human : Char) (d : Int) (isMax : Bool)
    (hb : overXO b) (hp : xoPair ai human) (hn : empties b < n)
    (hde : d + empties b ≤ 9) :
    (mmVal n b ai human d isMax).sign = plainF n b ai human isMax := by
  obtain ⟨hai, hhu, hne, haT, hhT⟩ := xoPair_facts ai human hp
  induction n generalizing b d isMax with
  | zero => omega
  | succ n ih =>
    rw [plainF]
    rcases check_winner_overXO b ai human hb hp with h | h | ⟨h, hE⟩ | ⟨h, hE⟩
    · rw [mmVal_win n b ai human d isMax h, Int.sign_eq_one_of_pos (by omega)]
      simp only [h, hai, if_false, if_true]
    · rw [mmVal_loss n b ai human d isMax hne h, Int.sign_eq_neg_one_of_neg (by omega)]
      have e1 : ¬ (human = ai) := fun e => hne e.symm
      simp only [h, hhu, e1, if_false, if_true]
    · have hchild : ∀ (c : Char) (m : Bool), (c = 'X' ∨ c = 'O') → c ≠ ' ' →
          ∀ i, b i = ' ' →
            (mmVal n (setCell b i c) ai human (d + 1) m).sign
              = plainF n (setCell b i c) ai human m := by
        intro c m hc hc' i hi
        have := empties_setCell b i c hi hc'
        exact ih _ _ _ (overXO_setCell b i c hb hc) (by omega) (by omega)
      simp only [h, if_true]
      cases isMax with
      | true =>
        simp only [if_true]
        rw [mmVal_maxNode n b ai human d hai hhu h,
          scanMax_foldEmpty Int.sign max sign_keep_greater]
        have : INT_MIN.sign = -1 := by decide
        rw [this]
        exact foldEmpty_congr _ _ _ _ _ _
          (fun i hi => hchild ai false (xoPair_ai ai human hp) hai i hi)
      | false =>
        simp only [Bool.false_eq_true, if_false]
        rw [mmVal_minNode n b ai human d hai hhu h,
          scanMin_foldEmpty Int.sign min sign_keep_less]
        have : INT_MAX.sign = 1 := by decide
        rw [this]
        exact foldEmpty_congr _ _ _ _ _ _
          (fun i hi => hchild human true (xoPair_human ai human hp) hhu i hi)
    · have e1 : ¬ ('T' = ai) := fun e => haT e.symm
      have e2 : ¬ ('T' = human) := fun e => hhT e.symm
      have e3 : ¬ ('T' = ' ') := by decide
      rw [mmVal_full n b ai human d isMax (by rw [h]; exact e1) (by rw [h]; exact e2) hE]
      simp only [h, e1, e2, e3, if_false]
      rfl

theorem sign_sign (v : Int) : v.sign.sign = v.sign := by
  rcases sign_cases v with ⟨_, e⟩ | ⟨_, e⟩ | ⟨_, e⟩ <;> rw [e] <;> rfl

/-- C20: depth adjustment does not change the outcome.  On every board over
`{' ', 'X', 'O'}` with `e` empty cells, for `(ai, human)` equal to `('X', 'O')`
or `('O', 'X')`, every flag and every depth `d` with `d + e ≤ 9`, the sign of
the value `minimax` returns equals the sign of the plain minimax value of the
same position (terminal scores `1` for a win of `ai`, `0` for a draw, `-1` for
a win of `human`, no depth term), which is that plain value itself. -/
theorem minimax_sign_is_plain (board : Board) (ai human : Char) (d : Int) (isMax : Bool)
    (hb : overXO board) (hp : xoPair ai human) (hde : d + empties board ≤ 9) :
    ∃ v, minimax board ai human d isMax = some (v, board)
      ∧ v.sign = (plainValue board ai human isMax).sign
      ∧ v.sign = plainValue board ai human isMax := by
  obtain ⟨hai, hhu, _, _, _⟩ := xoPair_facts ai human hp
  have h9 := empties_le board
  have hs := sign_mmVal_any 10 board ai human d isMax hb hp (by omega) hde
  refine ⟨_, minimax_eq board ai human d isMax hai hhu, ?_, hs⟩
  unfold plainValue
  rw [← hs, sign_sign]

theorem minimax_sign_is_plain_witness :
    ∃ v, minimax raceBoard 'X' 'O' 2 true = some (v, raceBoard)
      ∧ v.sign = (plainValue raceBoard 'X' 'O' true).sign
      ∧ v.sign = plainValue raceBoard 'X' 'O' true :=
  minimax_sign_is_plain raceBoard 'X' 'O' 2 true (by unfold overXO; decide)
    (Or.inl ⟨rfl, rfl⟩) (by decide)

end TicTacToe

namespace TicTacToe

/-! ## The search as a recursion on immutable boards -/

/-- As long as no `int` computation overflows, the value at depth `d` stays
within the range spanned by the scores reachable from there. -/
theorem mmVal_range (n : Nat) (b : Board) (ai human : Char) (d : Int) (isMax : Bool)
    (hai : ai ≠ ' ') (hhu : human ≠ ' ') (hn : empties b < n)
    (hlo : INT_MIN + 11 ≤ d) (hhi : d + empties b ≤ INT_MAX) :
    min (min (-10 + d) (10 - (d + empties b))) 0 ≤ mmVal n b ai human d isMax
      ∧ mmVal n b ai human d isMax ≤ max (max (10 - d) (-10 + (d + empties b))) 0 := by
  have hm : INT_MIN = -2147483648 := rfl
  have hM : INT_MAX = 2147483647 := rfl
  induction n generalizing b d isMax with
  | zero => omega
  | succ n ih =>
    unfold mmVal
    simp only []
    by_cases h1 : evaluate_board b ai human = 10
    · simp only [h1, if_true]; omega
    · rw [if_neg h1]
      by_cases h2 : evaluate_board b ai human = -10
      · simp only [h2, if_true]; omega
      · rw [if_neg h2]
        by_cases h3 : (!hasEmpty b) = true
        · simp only [h3, if_true]; omega
        · rw [if_neg h3]
          have he : hasEmpty b = true := by simpa using h3
          obtain ⟨i0, hi0⟩ := (hasEmpty_iff b).mp he
          have hchild : ∀ (c : Char) (m : Bool), c ≠ ' ' → ∀ i, b i = ' ' →
              min (min (-10 + d) (10 - (d + empties b))) 0
                  ≤ mmVal n (setCell b i c) ai human (d + 1) m
                ∧ mmVal n (setCell b i c) ai human (d + 1) m
                  ≤ max (max (10 - d) (-10 + (d + empties b))) 0 := by
            intro c m hc i hi
            have hec := empties_setCell b i c hi hc
            have := ih (setCell b i c) (d + 1) m (by omega) (by omega) (by omega)
            omega
          cases isMax with
          | true =>
            simp only [if_true]
            rcases scanMax_mem b
              (fun i => mmVal n (setCell b i ai) ai human (d + 1) false) cells INT_MIN
              with e | ⟨i, _, hbi, hfi⟩
            · have h0 : mmVal n (setCell b i0 ai) ai human (d + 1) false
                  ≤ scanMax b (fun i => mmVal n (setCell b i ai) ai human (d + 1) false)
                      cells INT_MIN :=
                scanMax_ge b _ cells INT_MIN i0 (mem_cells i0) hi0
              have := hchild ai false hai i0 hi0
              omega
            · rw [← hfi]
              exact hchild ai false hai i hbi
          | false =>
            simp only [Bool.false_eq_true, if_false]
            rcases scanMin_mem b
              (fun i => mmVal n (setCell b i human) ai human (d + 1) true) cells INT_MAX
              with e | ⟨i, _, hbi, hfi⟩
            · have h0 : scanMin b
                    (fun i => mmVal n (setCell b i human) ai human (d + 1) true)
                    cells INT_MAX
                  ≤ mmVal n (setCell b i0 human) ai human (d + 1) true :=
                scanMin_le b _ cells INT_MAX i0 (mem_cells i0) hi0
              have := hchild human true hhu i0 hi0
              omega
            · rw [← hfi]
              exact hchild human true hhu i hbi

end TicTacToe

namespace TicTacToe

theorem mmVal_node (n : Nat) (b : Board) (ai human : Char) (d : Int) (isMax : Bool)
    (h1 : check_winner b ≠ ai) (h2 : check_winner b ≠ human) (hE : hasEmpty b = true) :
    mmVal (n + 1) b ai human d isMax
      = if isMax then
          scanMax b (fun i => mmVal n (setCell b i ai) ai human (d + 1) false)
            cells INT_MIN
        else
          scanMin b (fun i => mmVal n (setCell b i human) ai human (d + 1) true)
            cells INT_MAX := by
  have hs : evaluate_board b ai human = 0 := by
    unfold evaluate_board
    simp only [h1, h2, if_false]
  have z1 : ¬ ((0 : Int) = 10) := by decide
  have z2 : ¬ ((0 : Int) = -10) := by decide
  rw [mmVal]
  simp only [hs, z1, z2, hE, if_false, Bool.not_true, Bool.false_eq_true]

/-- The value of the recursive call for cell `i`, on immutable boards. -/
theorem childValue_eq (b : Board) (ai human : Char) (d : Int) (isMax : Bool) (i : Fin 9)
    (hai : ai ≠ ' ') (hhu : human ≠ ' ') (hi : b i = ' ') :
    childValue b ai human d isMax i
      = some (mmVal 9 (setCell b i (if isMax then ai else human)) ai human (d + 1)
          (!isMax)) := by
  have hc : (if isMax then ai else human) ≠ ' ' := by
    cases isMax
    · exact hhu
    · exact hai
  have he := empties_setCell b i _ hi hc
  have h9 := empties_le b
  unfold childValue
  rw [minimax_eq _ _ _ _ _ hai hhu,
    mmVal_fuel 10 9 _ ai human (d + 1) (!isMax) hai hhu (by omega) (by omega)]
  rfl

/-- C19: the in-place `minimax` is the recursion on immutable boards.  For
every board, distinct marks `ai` and `human` different from `' '` and `'T'`,
flag `isMax` and depth `d` whose `int` arithmetic does not overflow, `minimax`
returns, leaving the board as it was, the value `10 - d` if `check_winner`
answers `ai`; `-10 + d` if it answers `human`; `0` if neither has won and no
cell is empty; and otherwise the maximum (if `isMax`) or the minimum (if not)
over all empty cells `i` of the value `minimax` returns at depth `d + 1`, flag
negated, on the board with cell `i` set to `ai` (if `isMax`) or `human`. -/
theorem minimax_is_pure_recursion (board : Board) (ai human : Char) (d : Int)
    (isMax : Bool) (hai : ai ≠ ' ') (hhu : human ≠ ' ') (_hne : ai ≠ human)
    (_haT : ai ≠ 'T') (_hhT : human ≠ 'T')
    (hlo : INT_MIN + 11 ≤ d) (hhi : d + 9 ≤ INT_MAX) :
    ∃ v, minimax board ai human d isMax = some (v, board)
      ∧ (check_winner board = ai → v = 10 - d)
      ∧ (check_winner board ≠ ai → check_winner board = human → v = -10 + d)
      ∧ (check_winner board ≠ ai → check_winner board ≠ human →
          (∀ i, board i ≠ ' ') → v = 0)
      ∧ (check_winner board ≠ ai → check_winner board ≠ human →
          (∃ i, board i = ' ') →
          (∃ i, board i = ' ' ∧ childValue board ai human d isMax i = some v)
            ∧ ∀ i, board i = ' ' →
                ∃ w, childValue board ai human d isMax i = some w
                  ∧ if isMax then w ≤ v else v ≤ w) := by
  have hm : INT_MIN = -2147483648 := rfl
  have hM : INT_MAX = 2147483647 := rfl
  have h9 := empties_le board
  refine ⟨_, minimax_eq board ai human d isMax hai hhu, ?_, ?_, ?_, ?_⟩
  · intro hw
    exact mmVal_win 9 board ai human d isMax hw
  · intro h1 hw
    exact mmVal_loss 9 board ai human d isMax (fun e => h1 (hw.trans e.symm)) hw
  · intro h1 h2 hfull
    have hE : hasEmpty board = false := by
      by_contra hcon
      have hT : hasEmpty board = true := by simpa using hcon
      obtain ⟨i, hi⟩ := (hasEmpty_iff board).mp hT
      exact hfull i hi
    exact mmVal_full 9 board ai human d isMax h1 h2 hE
  · intro h1 h2 hne
    obtain ⟨i0, hi0⟩ := hne
    have hE : hasEmpty board = true := (hasEmpty_iff board).mpr ⟨i0, hi0⟩
    have hrange : ∀ (c : Char) (m : Bool), c ≠ ' ' → ∀ i, board i = ' ' →
        INT_MIN ≤ mmVal 9 (setCell board i c) ai human (d + 1) m
          ∧ mmVal 9 (setCell board i c) ai human (d + 1) m ≤ INT_MAX := by
      intro c m hc i hi
      have hec := empties_setCell board i c hi hc
      have := mmVal_range 9 (setCell board i c) ai human (d + 1) m hai hhu (by omega)
        (by omega) (by omega)
      omega
    rw [mmVal_node 9 board ai human d isMax h1 h2 hE]
    cases isMax with
    | true =>
      simp only [if_true]
      have hatt : ∃ i, board i = ' ' ∧
          mmVal 9 (setCell board i ai) ai human (d + 1) false
            = scanMax board (fun i => mmVal 9 (setCell board i ai) ai human (d + 1) false)
                cells INT_MIN := by
        rcases scanMax_mem board
          (fun i => mmVal 9 (setCell board i ai) ai human (d + 1) false) cells INT_MIN
          with e | ⟨i, _, hbi, hfi⟩
        · refine ⟨i0, hi0, ?_⟩
          have h0 : mmVal 9 (setCell board i0 ai) ai human (d + 1) false
              ≤ scanMax board
                  (fun i => mmVal 9 (setCell board i ai) ai human (d + 1) false)
                  cells INT_MIN :=
            scanMax_ge board _ cells INT_MIN i0 (mem_cells i0) hi0
          have := (hrange ai false hai i0 hi0).1
          omega
        · exact ⟨i, hbi, hfi⟩
      obtain ⟨i, hbi, hfi⟩ := hatt
      refine ⟨⟨i, hbi, ?_⟩, ?_⟩
      · rw [childValue_eq board ai human d true i hai hhu hbi, ← hfi]
        rfl
      · intro j hj
        refine ⟨_, childValue_eq board ai human d true j hai hhu hj, ?_⟩
        exact scanMax_ge board
          (fun i => mmVal 9 (setCell board i ai) ai human (d + 1) false) cells INT_MIN
          j (mem_cells j) hj
    | false =>
      simp only [Bool.false_eq_true, if_false]
      have hatt : ∃ i, board i = ' ' ∧
          mmVal 9 (setCell board i human) ai human (d + 1) true
            = scanMin board
                (fun i => mmVal 9 (setCell board i human) ai human (d + 1) true)
                cells INT_MAX := by
        rcases scanMin_mem board
          (fun i => mmVal 9 (setCell board i human) ai human (d + 1) true) cells INT_MAX
          with e | ⟨i, _, hbi, hfi⟩
        · refine ⟨i0, hi0, ?_⟩
          have h0 : scanMin board
                (fun i => mmVal 9 (setCell board i human) ai human (d + 1) true)
                cells INT_MAX
              ≤ mmVal 9 (setCell board i0 human) ai human (d + 1) true :=
            scanMin_le board _ cells INT_MAX i0 (mem_cells i0) hi0
          have := (hrange human true hhu i0 hi0).2
          omega
        · exact ⟨i, hbi, hfi⟩
      obtain ⟨i, hbi, hfi⟩ := hatt
      refine ⟨⟨i, hbi, ?_⟩, ?_⟩
      · rw [childValue_eq board ai human d false i hai hhu hbi, ← hfi]
        rfl
      · intro j hj
        refine ⟨_, childValue_eq board ai human d false j hai hhu hj, ?_⟩
        exact scanMin_le board
          (fun i => mmVal 9 (setCell board i human) ai human (d + 1) true) cells INT_MAX
          j (mem_cells j) hj

end TicTacToe

namespace TicTacToe

/-! ## The solver does not depend on which two marks are used -/

theorem relabel_space (a h a' h' : Char) (b : Board) (hp : markPair a h) (i : Fin 9)
    (hi : b i = ' ') : relabel a h a' h' b i = ' ' := by
  obtain ⟨_, ha, hh, _, _⟩ := hp
  have e1 : ¬ (' ' = a) := fun e => ha e.symm
  have e2 : ¬ (' ' = h) := fun e => hh e.symm
  simp only [relabel, hi, e1, e2, if_false]

theorem relabel_first (a h a' h' : Char) (b : Board) (i : Fin 9) (hi : b i = a) :
    relabel a h a' h' b i = a' := by
  simp only [relabel, hi, if_true]

theorem relabel_second (a h a' h' : Char) (b : Board) (hp : markPair a h) (i : Fin 9)
    (hi : b i = h) : relabel a h a' h' b i = h' := by
  have e1 : ¬ (h = a) := fun e => hp.1 e.symm
  simp only [relabel, hi, e1, if_false, if_true]

theorem relabel_space_iff (a h a' h' : Char) (b : Board) (hp : markPair a h)
    (hp' : markPair a' h') (hb : overMarks a h b) (i : Fin 9) :
    relabel a h a' h' b i = ' ' ↔ b i = ' ' := by
  constructor
  · intro hr
    rcases hb i with e | e | e
    · exact e
    · rw [relabel_first a h a' h' b i e] at hr; exact absurd hr hp'.2.1
    · rw [relabel_second a h a' h' b hp i e] at hr; exact absurd hr hp'.2.2.1
  · exact relabel_space a h a' h' b hp i

theorem relabel_eq_iff (a h a' h' : Char) (b : Board) (hp : markPair a h)
    (hp' : markPair a' h') (hb : overMarks a h b) (i j : Fin 9) :
    relabel a h a' h' b i = relabel a h a' h' b j ↔ b i = b j := by
  obtain ⟨hne, ha, hh, _, _⟩ := hp
  obtain ⟨hne', ha', hh', _, _⟩ := hp'
  have hp0 : markPair a h := ⟨hne, ha, hh, ‹_›, ‹_›⟩
  rcases hb i with ei | ei | ei <;> rcases hb j with ej | ej | ej
  all_goals
    first
      | rw [relabel_space a h a' h' b hp0 i ei]
      | rw [relabel_first a h a' h' b i ei]
      | rw [relabel_second a h a' h' b hp0 i ei]
  all_goals
    first
      | rw [relabel_space a h a' h' b hp0 j ej]
      | rw [relabel_first a h a' h' b j ej]
      | rw [relabel_second a h a' h' b hp0 j ej]
  all_goals rw [ei, ej]
  all_goals
    constructor <;> intro e <;>
    first
      | rfl
      | exact absurd e ha
      | exact absurd e.symm ha
      | exact absurd e hh
      | exact absurd e.symm hh
      | exact absurd e hne
      | exact absurd e.symm hne
      | exact absurd e ha'
      | exact absurd e.symm ha'
      | exact absurd e hh'
      | exact absurd e.symm hh'
      | exact absurd e hne'
      | exact absurd e.symm hne'

theorem lineWon_relabel (a h a' h' : Char) (b : Board) (hp : markPair a h)
    (hp' : markPair a' h') (hb : overMarks a h b) (l : Fin 9 × Fin 9 × Fin 9) :
    lineWon (relabel a h a' h' b) l = lineWon b l := by
  rw [Bool.eq_iff_iff, lineWon_iff, lineWon_iff, ne_eq, ne_eq,
    relabel_space_iff a h a' h' b hp hp' hb, relabel_eq_iff a h a' h' b hp hp' hb,
    relabel_eq_iff a h a' h' b hp hp' hb]

theorem hasEmpty_relabel (a h a' h' : Char) (b : Board) (hp : markPair a h)
    (hp' : markPair a' h') (hb : overMarks a h b) :
    hasEmpty (relabel a h a' h' b) = hasEmpty b := by
  rw [Bool.eq_iff_iff, hasEmpty_iff, hasEmpty_iff]
  constructor
  · rintro ⟨i, hi⟩
    exact ⟨i, (relabel_space_iff a h a' h' b hp hp' hb i).mp hi⟩
  · rintro ⟨i, hi⟩
    exact ⟨i, (relabel_space_iff a h a' h' b hp hp' hb i).mpr hi⟩

/-- On a board over `{' ', a, h}`, `check_winner` answers `a`, `h`, `' '` with
an empty cell left, or `'T'` with none. -/
theorem check_winner_overMarks (a h : Char) (b : Board) (hb : overMarks a h b) :
    check_winner b = a ∨ check_winner b = h
      ∨ (check_winner b = ' ' ∧ hasEmpty b = true)
      ∨ (check_winner b = 'T' ∧ hasEmpty b = false) := by
  rcases check_winner_cases b with ⟨l, _, hw, he⟩ | ⟨_, he⟩
  · have hne := ((lineWon_iff b l).mp hw).1
    rw [he]
    rcases hb l.1 with e | e | e
    · exact absurd e hne
    · exact Or.inl e
    · exact Or.inr (Or.inl e)
  · by_cases hE : hasEmpty b = true
    · right; right; left
      rw [he]; simp [hE]
    · right; right; right
      rw [he]; simp [hE]

theorem check_winner_relabel (a h a' h' : Char) (b : Board) (hp : markPair a h)
    (hp' : markPair a' h') (hb : overMarks a h b) :
    check_winner (relabel a h a' h' b)
      = if check_winner b = a then a' else if check_winner b = h then h'
        else check_winner b := by
  have hfun : lineWon (relabel a h a' h' b) = lineWon b :=
    funext (lineWon_relabel a h a' h' b hp hp' hb)
  unfold check_winner
  rw [hfun, hasEmpty_relabel a h a' h' b hp hp' hb]
  obtain ⟨_, ha, hh, haT, hhT⟩ := hp
  cases win_lines.find? (lineWon b) with
  | some l => rfl
  | none =>
    simp only []
    by_cases hE : hasEmpty b = true
    · have e1 : ¬ (' ' = a) := fun e => ha e.symm
      have e2 : ¬ (' ' = h) := fun e => hh e.symm
      simp only [hE, if_true, e1, e2, if_false]
    · have e1 : ¬ ('T' = a) := fun e => haT e.symm
      have e2 : ¬ ('T' = h) := fun e => hhT e.symm
      have hF : hasEmpty b = false := by simpa using hE
      simp only [hF, Bool.false_eq_true, if_false, e1, e2]

theorem evaluate_board_relabel (a h a' h' : Char) (b : Board) (hp : markPair a h)
    (hp' : markPair a' h') (hb : overMarks a h b) :
    evaluate_board (relabel a h a' h' b) a' h' = evaluate_board b a h := by
  unfold evaluate_board
  simp only []
  rw [check_winner_relabel a h a' h' b hp hp' hb]
  obtain ⟨hne, ha, hh, haT, hhT⟩ := hp
  obtain ⟨hne', ha', hh', haT', hhT'⟩ := hp'
  rcases check_winner_overMarks a h b hb with e | e | ⟨e, _⟩ | ⟨e, _⟩
  · simp only [e, if_true]
  · have e1 : ¬ (h = a) := fun x => hne x.symm
    have e2 : ¬ (h' = a') := fun x => hne' x.symm
    simp only [e, e1, e2, if_false, if_true]
  · have e1 : ¬ (' ' = a) := fun x => ha x.symm
    have e2 : ¬ (' ' = h) := fun x => hh x.symm
    have e3 : ¬ (' ' = a') := fun x => ha' x.symm
    have e4 : ¬ (' ' = h') := fun x => hh' x.symm
    simp only [e, e1, e2, e3, e4, if_false]
  · have e1 : ¬ ('T' = a) := fun x => haT x.symm
    have e2 : ¬ ('T' = h) := fun x => hhT x.symm
    have e3 : ¬ ('T' = a') := fun x => haT' x.symm
    have e4 : ¬ ('T' = h') := fun x => hhT' x.symm
    simp only [e, e1, e2, e3, e4, if_false]

end TicTacToe

namespace TicTacToe

theorem setCell_relabel_first (a h a' h' : Char) (b : Board) (i : Fin 9) :
    setCell (relabel a h a' h' b) i a' = relabel a h a' h' (setCell b i a) := by
  funext j
  by_cases hj : j = i
  · subst hj
    rw [setCell_same, relabel_first a h a' h' _ j (setCell_same b j a)]
  · rw [setCell_other _ i j a' hj]
    simp only [relabel, setCell_other b i j a hj]

theorem setCell_relabel_second (a h a' h' : Char) (b : Board) (hp : markPair a h)
    (i : Fin 9) :
    setCell (relabel a h a' h' b) i h' = relabel a h a' h' (setCell b i h) := by
  funext j
  by_cases hj : j = i
  · subst hj
    rw [setCell_same, relabel_second a h a' h' _ hp j (setCell_same b j h)]
  · rw [setCell_other _ i j h' hj]
    simp only [relabel, setCell_other b i j h hj]

theorem overMarks_setCell (a h : Char) (b : Board) (i : Fin 9) (c : Char)
    (hb : overMarks a h b) (hc : c = a ∨ c = h) : overMarks a h (setCell b i c) := by
  intro j
  by_cases hj : j = i
  · subst hj; rw [setCell_same]; exact Or.inr hc
  · rw [setCell_other b i j c hj]; exact hb j

theorem scanMax_boards (b b' : Board) (f f' : Fin 9 → Int) (l : List (Fin 9)) (init : Int)
    (hE : ∀ i, b' i = ' ' ↔ b i = ' ') (hf : ∀ i, b i = ' ' → f' i = f i) :
    scanMax b' f' l init = scanMax b f l init := by
  induction l generalizing init with
  | nil => rfl
  | cons x t ih =>
    rw [scanMax_cons, scanMax_cons]
    by_cases hb : b x = ' '
    · rw [if_pos hb, if_pos ((hE x).mpr hb), hf x hb]; exact ih _
    · rw [if_neg hb, if_neg (fun e => hb ((hE x).mp e))]; exact ih _

theorem scanMin_boards (b b' : Board) (f f' : Fin 9 → Int) (l : List (Fin 9)) (init : Int)
    (hE : ∀ i, b' i = ' ' ↔ b i = ' ') (hf : ∀ i, b i = ' ' → f' i = f i) :
    scanMin b' f' l init = scanMin b f l init := by
  induction l generalizing init with
  | nil => rfl
  | cons x t ih =>
    rw [scanMin_cons, scanMin_cons]
    by_cases hb : b x = ' '
    · rw [if_pos hb, if_pos ((hE x).mpr hb), hf x hb]; exact ih _
    · rw [if_neg hb, if_neg (fun e => hb ((hE x).mp e))]; exact ih _

theorem scanBest_boards (b b' : Board) (f f' : Fin 9 → Int) (l : List (Fin 9))
    (init : Int × Int) (hE : ∀ i, b' i = ' ' ↔ b i = ' ')
    (hf : ∀ i, b i = ' ' → f' i = f i) :
    scanBest b' f' l init = scanBest b f l init := by
  induction l generalizing init with
  | nil => rfl
  | cons x t ih =>
    rw [scanBest_cons, scanBest_cons]
    by_cases hb : b x = ' '
    · rw [if_pos hb, if_pos ((hE x).mpr hb), hf x hb]; exact ih _
    · rw [if_neg hb, if_neg (fun e => hb ((hE x).mp e))]; exact ih _

/-- Renaming the two marks on the board and in the arguments leaves the search
value unchanged. -/
theorem mmVal_relabel (n : Nat) (a h a' h' : Char) (b : Board) (d : Int) (isMax : Bool)
    (hp : markPair a h) (hp' : markPair a' h') (hb : overMarks a h b) :
    mmVal n (relabel a h a' h' b) a' h' d isMax = mmVal n b a h d isMax := by
  induction n generalizing b d isMax with
  | zero => rfl
  | succ n ih =>
    rw [mmVal, mmVal, evaluate_board_relabel a h a' h' b hp hp' hb,
      hasEmpty_relabel a h a' h' b hp hp' hb]
    have hmax :
        scanMax (relabel a h a' h' b)
            (fun i => mmVal n (setCell (relabel a h a' h' b) i a') a' h' (d + 1) false)
            cells INT_MIN
          = scanMax b (fun i => mmVal n (setCell b i a) a h (d + 1) false) cells INT_MIN := by
      apply scanMax_boards
      · exact relabel_space_iff a h a' h' b hp hp' hb
      · intro i _
        rw [setCell_relabel_first]
        exact ih _ _ _ (overMarks_setCell a h b i a hb (Or.inl rfl))
    have hmin :
        scanMin (relabel a h a' h' b)
            (fun i => mmVal n (setCell (relabel a h a' h' b) i h') a' h' (d + 1) true)
            cells INT_MAX
          = scanMin b (fun i => mmVal n (setCell b i h) a h (d + 1) true) cells INT_MAX := by
      apply scanMin_boards
      · exact relabel_space_iff a h a' h' b hp hp' hb
      · intro i _
        rw [setCell_relabel_second a h a' h' b hp]
        exact ih _ _ _ (overMarks_setCell a h b i h hb (Or.inr rfl))
    simp only [hmax, hmin]

/-- C18: the solver is symmetric in the two marks.  For all marks `a`, `h`,
`a'`, `h'` with `a ≠ h` and `a' ≠ h'`, none of them `' '` or `'T'`, and every
board `b` whose cells are in `{' ', a, h}`, if `b'` is `b` with every `a`
replaced by `a'` and every `h` by `h'`, then `get_best_move(b', a', h')` equals
`get_best_move(b, a, h)`, and both calls return. -/
theorem get_best_move_mark_symmetric (a h a' h' : Char) (b : Board)
    (hp : markPair a h) (hp' : markPair a' h') (hb : overMarks a h b) :
    get_best_move (relabel a h a' h' b) a' h' = get_best_move b a h
      ∧ ∃ r, get_best_move b a h = some r := by
  have e1 := get_best_move_eq (relabel a h a' h' b) a' h' hp'.2.1 hp'.2.2.1
  have e2 := get_best_move_eq b a h hp.2.1 hp.2.2.1
  have hs :
      scanBest (relabel a h a' h' b)
          (fun i => mmVal 10 (setCell (relabel a h a' h' b) i a') a' h' 0 false)
          cells (INT_MIN, -1)
        = scanBest b (fun i => mmVal 10 (setCell b i a) a h 0 false) cells
            (INT_MIN, -1) := by
    apply scanBest_boards
    · exact relabel_space_iff a h a' h' b hp hp' hb
    · intro i _
      rw [setCell_relabel_first]
      exact mmVal_relabel 10 a h a' h' _ 0 false hp hp'
        (overMarks_setCell a h b i a hb (Or.inl rfl))
  rw [hs] at e1
  exact ⟨e1.trans e2.symm, _, e2⟩

theorem get_best_move_mark_symmetric_witness :
    relabel 'X' 'O' 'O' 'X' raceBoard
        = ofList ['X', 'X', ' ', ' ', ' ', ' ', 'O', 'O', ' ']
      ∧ get_best_move (relabel 'X' 'O' 'O' 'X' raceBoard) 'O' 'X'
          = get_best_move raceBoard 'X' 'O'
      ∧ ∃ r, get_best_move raceBoard 'X' 'O' = some r :=
  ⟨by decide,
   get_best_move_mark_symmetric 'X' 'O' 'O' 'X' raceBoard (by unfold markPair; decide)
    (by unfold markPair; decide) (by unfold overMarks; decide)⟩

end TicTacToe

namespace TicTacToe

theorem minimax_is_pure_recursion_witness :
    ∃ v, minimax raceBoard 'X' 'O' 0 true = some (v, raceBoard)
      ∧ (check_winner raceBoard = 'X' → v = 10 - 0)
      ∧ (check_winner raceBoard ≠ 'X' → check_winner raceBoard = 'O' → v = -10 + 0)
      ∧ (check_winner raceBoard ≠ 'X' → check_winner raceBoard ≠ 'O' →
          (∀ i, raceBoard i ≠ ' ') → v = 0)
      ∧ (check_winner raceBoard ≠ 'X' → check_winner raceBoard ≠ 'O' →
          (∃ i, raceBoard i = ' ') →
          (∃ i, raceBoard i = ' ' ∧ childValue raceBoard 'X' 'O' 0 true i = some v)
            ∧ ∀ i, raceBoard i = ' ' →
                ∃ w, childValue raceBoard 'X' 'O' 0 true i = some w
                  ∧ if true then w ≤ v else v ≤ w) :=
  minimax_is_pure_recursion raceBoard 'X' 'O' 0 true (by decide) (by decide) (by decide)
    (by decide) (by decide) (by decide) (by decide)

/-! ## The nine opening moves -/

theorem foldlM_some_each {σ : Type} (F : σ → Fin 9 → Option σ) (l : List (Fin 9))
    (s0 s1 : σ) (h : l.foldlM F s0 = some s1) : ∀ i ∈ l, ∃ s s', F s i = some s' := by
  induction l generalizing s0 with
  | nil => intro i hi; cases hi
  | cons a t ih =>
    rw [List.foldlM_cons] at h
    intro i hi
    cases hs : F s0 a with
    | none => rw [hs] at h; cases h
    | some s2 =>
      rw [hs] at h
      rcases List.mem_cons.mp hi with e | e
      · subst e; exact ⟨s0, s2, hs⟩
      · exact ih s2 h i e

set_option maxRecDepth 1000000 in
theorem safe_openings :
    cells.foldlM (fun s i => safeH 10 (setCell init_board i 'X') 'X' 'O' false s)
      openingScript = some [] := by
  decide!

/-- Swapping the two players negates the plain minimax value. -/
theorem plainValue_swap (b : Board) (ai human : Char) (aiToMove : Bool) (hb : overXO b)
    (hp : xoPair ai human) :
    plainValue b ai human aiToMove = - plainValue b human ai (!aiToMove) := by
  obtain ⟨hai, hhu, hne, _, _⟩ := xoPair_facts ai human hp
  have h9 := empties_le b
  unfold plainValue
  rw [← sign_mmVal_any 10 b ai human 0 aiToMove hb hp (by omega) (by omega),
    ← sign_mmVal_any 10 b human ai 0 (!aiToMove) hb (xoPair_swap ai human hp) (by omega)
      (by omega),
    mmVal_swap 10 b ai human 0 aiToMove hai hhu hne (by omega) (le_refl _) (by omega),
    Int.sign_neg]

/-- Whatever cell `'X'` opens with, the game is a draw under best play: the
candidate value of every opening cell is 0. -/
theorem opening_value (i : Fin 9) :
    mmVal 10 (setCell init_board i 'X') 'X' 'O' 0 false = 0 := by
  have hp : xoPair 'X' 'O' := Or.inl ⟨rfl, rfl⟩
  have hx : overXO (setCell init_board i 'X') :=
    overXO_setCell init_board i 'X' overXO_init (Or.inl rfl)
  have hlo : 0 ≤ plainValue (setCell init_board i 'X') 'X' 'O' false := by
    obtain ⟨s, s', hs⟩ := foldlM_some_each _ cells openingScript [] safe_openings i
      (mem_cells i)
    exact safeH_sound 10 _ 'X' 'O' false s s' hs
  have hhi : 0 ≤ plainValue (setCell init_board i 'X') 'O' 'X' true :=
    plain_human_step init_board 'O' 'X' (by decide) (by decide) (by decide) i rfl
      plain_second
  rw [plainValue_swap _ 'X' 'O' false hx hp] at hlo
  have h0 : plainValue (setCell init_board i 'X') 'X' 'O' false = 0 := by
    rw [plainValue_swap _ 'X' 'O' false hx hp]
    simp only [Bool.not_false] at hlo ⊢
    omega
  rw [plainValue_candidate init_board 'X' 'O' i overXO_init hp rfl] at h0
  rcases sign_cases (mmVal 10 (setCell init_board i 'X') 'X' 'O' 0 false)
    with ⟨_, e⟩ | ⟨e, _⟩ | ⟨_, e⟩
  · rw [e] at h0; cases h0
  · exact e
  · rw [e] at h0; cases h0

/-- C11: on the empty board with `ai = 'X'` and `human = 'O'`, each of the
nine opening cells has minimax value 0, that is
`minimax(board with cell i set to 'X', 'X', 'O', 0, false)` returns 0 for every
`i` in `0 .. 8`, and `get_best_move` returns index 0. -/
theorem opening_moves_all_draw :
    (∀ i : Fin 9, minimax (setCell init_board i 'X') 'X' 'O' 0 false
        = some (0, setCell init_board i 'X'))
      ∧ (∀ i : Fin 9, cellValue init_board 'X' 'O' i = some 0)
      ∧ get_best_move init_board 'X' 'O' = some 0 := by
  refine ⟨?_, ?_, ?_⟩
  · intro i
    rw [minimax_eq _ 'X' 'O' 0 false (by decide) (by decide), opening_value i]
  · intro i
    rw [cellValue_eq init_board 'X' 'O' i (by decide) (by decide), opening_value i]
  · obtain ⟨r, hr, _, hall⟩ :=
      get_best_move_argmax init_board 'X' 'O' (by decide) (by decide) ⟨0, rfl⟩
    have h0 : r ≤ 0 := (hall 0 rfl).2 (by rw [opening_value 0, opening_value r])
    have hr0 : r = 0 := le_antisymm h0 (Fin.zero_le r)
    rw [hr0] at hr
    exact hr

end TicTacToe

namespace TicTacToe

/-! ## The fallback on a full board -/

theorem get_best_move_with_minimax (board : Board) (ai human : Char) :
    get_best_move board ai human
      = get_best_move_with (fun b => minimax b ai human 0 false) board ai := rfl

theorem foldlM_moveStepWith_full (call : Board → Option (Int × Board)) (ai : Char)
    (b : Board) (hfull : ∀ i, b i ≠ ' ') (l : List (Fin 9)) (st : Int × Int) :
    l.foldlM (moveStepWith call ai) (st.1, st.2, b) = some (st.1, st.2, b) := by
  induction l with
  | nil => rfl
  | cons a t ih =>
    rw [List.foldlM_cons]
    have h1 : moveStepWith call ai (st.1, st.2, b) a = some (st.1, st.2, b) := by
      simp only [moveStepWith, hfull a, if_false]
    rw [h1]
    exact ih

/-- C30: the full-board fallback of the reference code.  On every board with
no empty cell and for every pair of marks, `get_best_move` returns 0 without
calling `minimax` (the result is 0 whatever stands in the place of `minimax`,
even a call that never returns), although `board[0]` is not empty. -/
theorem get_best_move_full_fallback (board : Board) (ai human : Char)
    (hfull : ∀ i, board i ≠ ' ') :
    get_best_move board ai human = some 0
      ∧ (∀ call : Board → Option (Int × Board), get_best_move_with call board ai = some 0)
      ∧ get_best_move board ai human
          = get_best_move_with (fun b => minimax b ai human 0 false) board ai
      ∧ board 0 ≠ ' ' := by
  have hall : ∀ call : Board → Option (Int × Board),
      get_best_move_with call board ai = some 0 := by
    intro call
    unfold get_best_move_with
    rw [foldlM_moveStepWith_full call ai board hfull cells (INT_MIN, -1)]
    rfl
  refine ⟨?_, hall, rfl, hfull 0⟩
  rw [get_best_move_with_minimax]
  exact hall _

theorem get_best_move_full_fallback_witness :
    get_best_move drawnBoard ' ' ' ' = some 0
      ∧ (∀ call : Board → Option (Int × Board),
          get_best_move_with call drawnBoard ' ' = some 0)
      ∧ get_best_move drawnBoard ' ' ' '
          = get_best_move_with (fun b => minimax b ' ' ' ' 0 false) drawnBoard ' '
      ∧ drawnBoard 0 ≠ ' ' :=
  get_best_move_full_fallback drawnBoard ' ' ' ' (by decide)

/-! ## A double threat cannot be stopped -/

/-- C25: on every board over `{' ', 'X', 'O'}` with no completed winning
triple, for `(ai, human)` equal to `('X', 'O')` or `('O', 'X')`, if no empty
cell completes a triple for `ai` and at least two distinct empty cells each
complete a triple for `human`, then every empty cell has value -9 and
`get_best_move` returns the lowest-indexed empty cell of the board, whether or
not that cell is one of those that complete a triple for `human`. -/
theorem get_best_move_double_threat (board : Board) (ai human : Char)
    (_hb : overXO board) (hl : hasLine board = false) (hp : xoPair ai human)
    (hno : ∀ i, completes board ai i = false) (c1 c2 : Fin 9) (h12 : c1 ≠ c2)
    (hc1 : completes board human c1 = true) (hc2 : completes board human c2 = true) :
    (∀ i, board i = ' ' → cellValue board ai human i = some (-9))
      ∧ ∃ r : Fin 9, get_best_move board ai human = some (r.val : Int) ∧ board r = ' '
          ∧ ∀ j, board j = ' ' → r ≤ j := by
  obtain ⟨hai, hhu, hne, _, _⟩ := xoPair_facts ai human hp
  have hval : ∀ i, board i = ' ' → mmVal 10 (setCell board i ai) ai human 0 false = -9 := by
    intro i hi
    by_cases h1 : i = c1
    · exact candidate_unblocked board ai human i c2 hai hhu hne hl hi
        (fun e => h12 (h1.symm.trans e)) (hno i) hc2
    · exact candidate_unblocked board ai human i c1 hai hhu hne hl hi h1 (hno i) hc1
  have hb1 := ((completes_iff board human c1).mp hc1).1
  obtain ⟨r, hr, hbr, hall⟩ := get_best_move_argmax board ai human hai hhu ⟨c1, hb1⟩
  refine ⟨?_, r, hr, hbr, ?_⟩
  · intro i hi
    rw [cellValue_eq board ai human i hai hhu, hval i hi]
  · intro j hj
    exact (hall j hj).2 (by rw [hval j hj, hval r hbr])

end TicTacToe

namespace TicTacToe

theorem get_best_move_double_threat_witness :
    (∀ i, doubleThreatBoard i = ' ' → cellValue doubleThreatBoard 'X' 'O' i = some (-9))
      ∧ get_best_move doubleThreatBoard 'X' 'O' = some 0
      ∧ completes doubleThreatBoard 'O' 0 = false := by
  obtain ⟨hv, r, hr, _, hmin⟩ := get_best_move_double_threat doubleThreatBoard 'X' 'O'
    (by unfold overXO; decide) (by decide) (Or.inl ⟨rfl, rfl⟩) (by decide) 2 6
    (by decide) (by decide) (by decide)
  have h0 : r = 0 := le_antisymm (hmin 0 (by decide)) (Fin.zero_le r)
  rw [h0] at hr
  exact ⟨hv, hr, by decide⟩

/-! ## Writes of the turn loop of `main.c` -/

/-- C26: no overwrite in the CLI game.  In the game loop of `main.c`, started from the board made
by `init_board`, the passes fed to the loop are made one after the other until all are made or
the game is over, and every pass made either leaves the board as it is or writes one mark to a
cell that holds `' '` at that moment: a human move only after the cell was checked empty, and
the AI move on the cell returned by `get_best_move`, which is called only after
`check_winner(board)` returned `' '` and therefore returns an empty cell.  So every marked cell
keeps its mark in every reachable state. -/
theorem main_loop_never_overwrites (human : Char) (hh : human = 'X' ∨ human = 'O')
    (inputs : List (Fin 9)) :
    ∃ (k : Nat) (g : Game), k ≤ inputs.length
      ∧ playFrom human (startGame human) (inputs.take k) = some g
      ∧ (k < inputs.length → check_winner g.board ≠ ' ')
      ∧ ∀ j, j < k → ∃ (gj gj1 : Game),
          playFrom human (startGame human) (inputs.take j) = some gj
            ∧ playFrom human (startGame human) (inputs.take (j + 1)) = some gj1
            ∧ check_winner gj.board = ' '
            ∧ (gj1.board = gj.board
                ∨ ∃ (i : Fin 9) (m : Char), gj.board i = ' ' ∧ gj1.board = setCell gj.board i m)
            ∧ (gj.human_turn = false →
                ∃ r : Fin 9, get_best_move gj.board (aiMark human) human = some (r.val : Int)
                  ∧ gj.board r = ' ' ∧ gj1.board = setCell gj.board r (aiMark human))
            ∧ ∀ i, gj.board i ≠ ' ' → gj1.board i = gj.board i := by
  obtain ⟨k, g, hk, hrun, hover, hsteps⟩ := playFrom_run human hh inputs (startGame human)
  refine ⟨k, g, hk, hrun, hover, ?_⟩
  intro j hj
  obtain ⟨gj, gj1, pos, h1, h2, hw, hs⟩ := hsteps j hj
  obtain ⟨g1, hs1, hhum, hai⟩ := loopPass_step human hh gj pos hw
  have hg : g1 = gj1 := by
    rw [hs] at hs1
    exact (Option.some.inj hs1).symm
  rw [hg] at hhum hai
  have key : gj1.board = gj.board
      ∨ ∃ (i : Fin 9) (m : Char), gj.board i = ' ' ∧ gj1.board = setCell gj.board i m := by
    by_cases ht : gj.human_turn = true
    · rcases hhum ht with ⟨_, e⟩ | ⟨hpos, e⟩
      · exact Or.inl (by rw [e])
      · exact Or.inr ⟨pos, human, hpos, by rw [e]⟩
    · obtain ⟨r, _, hbr, e⟩ := hai (Bool.eq_false_iff.mpr ht)
      exact Or.inr ⟨r, aiMark human, hbr, by rw [e]⟩
  refine ⟨gj, gj1, h1, h2, hw, key, ?_, ?_⟩
  · intro ht
    obtain ⟨r, hr, hbr, e⟩ := hai ht
    exact ⟨r, hr, hbr, by rw [e]⟩
  · intro i hi
    rcases key with e | ⟨c, m, hc, e⟩
    · rw [e]
    · rw [e]
      exact setCell_other gj.board c i m (fun h => hi (h ▸ hc))

/-- The human opens in the centre and the AI answers: the AI's mark goes on the empty cell that
`get_best_move` returns, and the centre keeps its `'X'`. -/
theorem main_loop_never_overwrites_witness :
    ∃ (g2 : Game) (r : Fin 9),
      playFrom 'X' (startGame 'X') [4, 0] = some g2
        ∧ get_best_move (setCell init_board 4 'X') 'O' 'X' = some (r.val : Int)
        ∧ setCell init_board 4 'X' r = ' '
        ∧ g2.board = setCell (setCell init_board 4 'X') r 'O'
        ∧ g2.board 4 = 'X' := by
  obtain ⟨k, g, hk, hrun, hover, hsteps⟩ :=
    main_loop_never_overwrites 'X' (Or.inl rfl) [4, 0]
  have hk2 : k = 2 := by
    by_contra hne
    have hlt : k < 2 := by
      simp only [List.length_cons, List.length_nil] at hk
      omega
    exact hover (by simp only [List.length_cons, List.length_nil]; omega)
      (centre_opening_goes_on k g hlt hrun)
  subst hk2
  obtain ⟨gj, gj1, h1, h2, _, _, hai, hkeep⟩ := hsteps 1 (by omega)
  have e1 : playFrom 'X' (startGame 'X') (List.take 1 [4, 0])
      = some ⟨setCell init_board 4 'X', false⟩ := rfl
  rw [e1] at h1
  have hgj : gj = ⟨setCell init_board 4 'X', false⟩ := (Option.some.inj h1).symm
  subst hgj
  obtain ⟨r, hr, hbr, e⟩ := hai rfl
  have h4 := hkeep 4 (by decide)
  exact ⟨gj1, r, h2, hr, hbr, e, by rw [h4]; decide⟩

/-! ## Termination of the search -/

/-- C21: for every board and every pair of marks both different from `' '`,
`minimax` terminates: every recursive call is made on a board with exactly one
empty cell fewer than its caller's, so a number of nested calls one above the
number of empty cells of the board (the call itself and one level for each
empty cell) always suffices for it to return; `get_best_move` therefore
returns on every board under the same condition on the marks. -/
theorem minimax_terminates (board : Board) (ai human : Char) (depth : Int) (isMax : Bool)
    (hai : ai ≠ ' ') (hhu : human ≠ ' ') :
    (∀ fuel, empties board < fuel →
        ∃ v, minimaxFuel fuel board ai human depth isMax = some (v, board))
      ∧ (∃ v, minimax board ai human depth isMax = some (v, board))
      ∧ (∀ i, board i = ' ' →
          empties (setCell board i ai) + 1 = empties board
            ∧ empties (setCell board i human) + 1 = empties board)
      ∧ ∃ r, get_best_move board ai human = some r := by
  refine ⟨?_, ⟨_, minimax_eq board ai human depth isMax hai hhu⟩, ?_,
    ⟨_, get_best_move_eq board ai human hai hhu⟩⟩
  · intro fuel hf
    exact ⟨_, minimaxFuel_eq fuel board ai human depth isMax hai hhu hf⟩
  · intro i hi
    exact ⟨empties_setCell board i ai hi hai, empties_setCell board i human hi hhu⟩

theorem minimax_terminates_witness :
    (∀ fuel, empties raceBoard < fuel →
        ∃ v, minimaxFuel fuel raceBoard 'X' 'O' 0 true = some (v, raceBoard))
      ∧ (∃ v, minimax raceBoard 'X' 'O' 0 true = some (v, raceBoard))
      ∧ (∀ i, raceBoard i = ' ' →
          empties (setCell raceBoard i 'X') + 1 = empties raceBoard
            ∧ empties (setCell raceBoard i 'O') + 1 = empties raceBoard)
      ∧ ∃ r, get_best_move raceBoard 'X' 'O' = some r :=
  minimax_terminates raceBoard 'X' 'O' 0 true (by decide) (by decide)

end TicTacToe

namespace TicTacToe

/-! ## Score bounds and overflow -/

theorem checked_ok (x : Int) (h1 : INT_MIN ≤ x) (h2 : x ≤ INT_MAX) : checked x = some x := by
  unfold checked
  rw [if_pos ⟨h1, h2⟩]

theorem foldlM_chkMaxStep (b : Board) (g : Fin 9 → Option Int) (f : Fin 9 → Int)
    (h : ∀ i, b i = ' ' → g i = some (f i)) (l : List (Fin 9)) (best : Int) :
    l.foldlM (chkMaxStep b g) best = some (scanMax b f l best) := by
  induction l generalizing best with
  | nil => rfl
  | cons a t ih =>
    rw [List.foldlM_cons, scanMax_cons]
    by_cases hb : b a = ' '
    · have h1 : chkMaxStep b g best a = some (if f a > best then f a else best) := by
        simp only [chkMaxStep, hb, if_true, h a hb]
      rw [h1, if_pos hb]
      exact ih _
    · have h1 : chkMaxStep b g best a = some best := by
        simp only [chkMaxStep, hb, if_false]
      rw [h1, if_neg hb]
      exact ih _

theorem foldlM_chkMinStep (b : Board) (g : Fin 9 → Option Int) (f : Fin 9 → Int)
    (h : ∀ i, b i = ' ' → g i = some (f i)) (l : List (Fin 9)) (best : Int) :
    l.foldlM (chkMinStep b g) best = some (scanMin b f l best) := by
  induction l generalizing best with
  | nil => rfl
  | cons a t ih =>
    rw [List.foldlM_cons, scanMin_cons]
    by_cases hb : b a = ' '
    · have h1 : chkMinStep b g best a = some (if f a < best then f a else best) := by
        simp only [chkMinStep, hb, if_true, h a hb]
      rw [h1, if_pos hb]
      exact ih _
    · have h1 : chkMinStep b g best a = some best := by
        simp only [chkMinStep, hb, if_false]
      rw [h1, if_neg hb]
      exact ih _

/-- At depths from 0 on, with depth plus empty cells at most 10, no `int`
operation of the search overflows. -/
theorem minimaxChecked_eq (n : Nat) (b : Board) (ai human : Char) (d : Int) (isMax : Bool)
    (hai : ai ≠ ' ') (hhu : human ≠ ' ') (hn : empties b < n) (hd : 0 ≤ d)
    (hde : d + empties b ≤ 10) :
    minimaxChecked n b ai human d isMax = some (mmVal n b ai human d isMax) := by
  have hm : INT_MIN = -2147483648 := rfl
  have hM : INT_MAX = 2147483647 := rfl
  induction n generalizing b d isMax with
  | zero => omega
  | succ n ih =>
    rw [minimaxChecked, mmVal]
    by_cases h1 : evaluate_board b ai human = 10
    · simp only [h1, if_true]
      exact checked_ok _ (by omega) (by omega)
    · rw [if_neg h1, if_neg h1]
      by_cases h2 : evaluate_board b ai human = -10
      · simp only [h2, if_true]
        exact checked_ok _ (by omega) (by omega)
      · rw [if_neg h2, if_neg h2]
        by_cases h3 : (!hasEmpty b) = true
        · simp only [h3, if_true]
        · rw [if_neg h3, if_neg h3]
          have hd1 : checked (d + 1) = some (d + 1) := checked_ok _ (by omega) (by omega)
          cases isMax with
          | true =>
            simp only [if_true, hd1]
            apply foldlM_chkMaxStep
            intro i hi
            have := empties_setCell b i ai hi hai
            exact ih _ _ _ (by omega) (by omega) (by omega)
          | false =>
            simp only [Bool.false_eq_true, if_false, hd1]
            apply foldlM_chkMinStep
            intro i hi
            have := empties_setCell b i human hi hhu
            exact ih _ _ _ (by omega) (by omega) (by omega)

/-- C22: score bounds.  On every board with `e` empty cells, for marks
different from `' '`, every flag and every depth `d ≥ 0` with `d + e ≤ 10`,
`minimax` returns a value `v` with `-10 + d ≤ v ≤ 10 - d`; the sentinels
`INT_MIN` and `INT_MAX` are never returned; and no `int` operation overflows
(the search with every operation checked returns the same value).  In
particular every value computed on behalf of `get_best_move` (depth 0, at most
8 empty cells) lies in `[-10, 10]`. -/
theorem minimax_score_bounds (board : Board) (ai human : Char) (d : Int) (isMax : Bool)
    (hai : ai ≠ ' ') (hhu : human ≠ ' ') (hd : 0 ≤ d) (hde : d + empties board ≤ 10) :
    (∃ v, minimax board ai human d isMax = some (v, board)
        ∧ -10 + d ≤ v ∧ v ≤ 10 - d ∧ v ≠ INT_MIN ∧ v ≠ INT_MAX
        ∧ minimaxChecked 10 board ai human d isMax = some v)
      ∧ ∀ i, board i = ' ' →
          ∃ w, cellValue board ai human i = some w ∧ -10 ≤ w ∧ w ≤ 10
            ∧ minimaxChecked 10 (setCell board i ai) ai human 0 false = some w := by
  have hm : INT_MIN = -2147483648 := rfl
  have hM : INT_MAX = 2147483647 := rfl
  have h9 := empties_le board
  have hbd := mmVal_bounds 10 board ai human d isMax hai hhu (by omega) hd hde
  refine ⟨⟨_, minimax_eq board ai human d isMax hai hhu, hbd.1, hbd.2, by omega, by omega,
    minimaxChecked_eq 10 board ai human d isMax hai hhu (by omega) hd hde⟩, ?_⟩
  intro i hi
  have he := empties_setCell board i ai hi hai
  have hc := candidate_bounds board ai human i hai hhu hi
  exact ⟨_, cellValue_eq board ai human i hai hhu, hc.1, hc.2,
    minimaxChecked_eq 10 (setCell board i ai) ai human 0 false hai hhu (by omega)
      (le_refl _) (by omega)⟩

theorem minimax_score_bounds_witness :
    (∃ v, minimax raceBoard 'X' 'O' 4 true = some (v, raceBoard)
        ∧ -10 + 4 ≤ v ∧ v ≤ 10 - 4 ∧ v ≠ INT_MIN ∧ v ≠ INT_MAX
        ∧ minimaxChecked 10 raceBoard 'X' 'O' 4 true = some v)
      ∧ ∀ i, raceBoard i = ' ' →
          ∃ w, cellValue raceBoard 'X' 'O' i = some w ∧ -10 ≤ w ∧ w ≤ 10
            ∧ minimaxChecked 10 (setCell raceBoard i 'X') 'X' 'O' 0 false = some w :=
  minimax_score_bounds raceBoard 'X' 'O' 4 true (by decide) (by decide) (by decide)
    (by decide)

end TicTacToe

namespace TicTacToe

/-! ## Zero-sum antisymmetry at every depth -/

/-- Swapping the two players negates the search value at every depth whose
`int` arithmetic does not overflow. -/
theorem mmVal_swap_range (n : Nat) (b : Board) (ai human : Char) (d : Int) (isMax : Bool)
    (hai : ai ≠ ' ') (hhu : human ≠ ' ') (hne : ai ≠ human) (hn : empties b < n)
    (hlo : INT_MIN + 11 ≤ d) (hhi : d + empties b ≤ INT_MAX) :
    mmVal n b ai human d isMax = - mmVal n b human ai d (!isMax) := by
  have hm : INT_MIN = -2147483648 := rfl
  have hM : INT_MAX = 2147483647 := rfl
  induction n generalizing b d isMax with
  | zero => omega
  | succ n ih =>
    have hsw := evaluate_board_swap b ai human hne
    rw [mmVal, mmVal]
    by_cases h1 : evaluate_board b ai human = 10
    · have h1' : evaluate_board b human ai = -10 := by omega
      have z : ¬ ((-10 : Int) = 10) := by decide
      simp only [h1, h1', z, if_true, if_false]
      omega
    · by_cases h2 : evaluate_board b ai human = -10
      · have h2' : evaluate_board b human ai = 10 := by omega
        have z : ¬ ((-10 : Int) = 10) := by decide
        simp only [h2, h2', z, if_true, if_false]
        omega
      · have h1' : ¬ (evaluate_board b human ai = -10) := by omega
        have h2' : ¬ (evaluate_board b human ai = 10) := by omega
        rw [if_neg h1, if_neg h2, if_neg h2', if_neg h1']
        by_cases h3 : (!hasEmpty b) = true
        · simp only [h3, if_true]; rfl
        · rw [if_neg h3, if_neg h3]
          have he : hasEmpty b = true := by simpa using h3
          obtain ⟨i0, hi0⟩ := (hasEmpty_iff b).mp he
          have hbd : ∀ (c : Char) (m : Bool), c ≠ ' ' → ∀ i, b i = ' ' →
              INT_MIN + 1 ≤ mmVal n (setCell b i c) human ai (d + 1) m
                ∧ mmVal n (setCell b i c) human ai (d + 1) m ≤ INT_MAX := by
            intro c m hc i hi
            have hec := empties_setCell b i c hi hc
            have := mmVal_range n (setCell b i c) human ai (d + 1) m hhu hai (by omega)
              (by omega) (by omega)
            omega
          have hsw' : ∀ (c : Char) (m : Bool), c ≠ ' ' → ∀ i, b i = ' ' →
              mmVal n (setCell b i c) ai human (d + 1) m
                = - mmVal n (setCell b i c) human ai (d + 1) (!m) := by
            intro c m hc i hi
            have := empties_setCell b i c hi hc
            exact ih _ _ _ (by omega) (by omega) (by omega)
          cases isMax with
          | true =>
            simp only [if_true, Bool.not_true, Bool.false_eq_true, if_false]
            rw [scanMax_congr b _ (fun i => - mmVal n (setCell b i ai) human ai (d + 1) true)
              cells INT_MIN (fun i hi => hsw' ai false hai i hi)]
            obtain ⟨i, _, hbi, hfi⟩ := scanMax_attains b
              (fun i => - mmVal n (setCell b i ai) human ai (d + 1) true) cells INT_MIN
              i0 (mem_cells i0) hi0
              (by
                show INT_MIN < - mmVal n (setCell b i0 ai) human ai (d + 1) true
                have := (hbd ai true hai i0 hi0).2
                omega)
            have hfi' : - mmVal n (setCell b i ai) human ai (d + 1) true
                = scanMax b (fun i => - mmVal n (setCell b i ai) human ai (d + 1) true)
                    cells INT_MIN := hfi
            have a2 : scanMin b (fun i => mmVal n (setCell b i ai) human ai (d + 1) true)
                  cells INT_MAX
                ≤ mmVal n (setCell b i ai) human ai (d + 1) true :=
              scanMin_le b _ cells INT_MAX i (mem_cells i) hbi
            have hbi' := (hbd ai true hai i hbi).2
            rcases scanMin_mem b
              (fun i => mmVal n (setCell b i ai) human ai (d + 1) true) cells INT_MAX
              with e | ⟨k, _, hbk, hfk⟩
            · omega
            · have hfk' : mmVal n (setCell b k ai) human ai (d + 1) true
                  = scanMin b (fun i => mmVal n (setCell b i ai) human ai (d + 1) true)
                      cells INT_MAX := hfk
              have a1 : - mmVal n (setCell b k ai) human ai (d + 1) true
                  ≤ scanMax b (fun i => - mmVal n (setCell b i ai) human ai (d + 1) true)
                      cells INT_MIN :=
                scanMax_ge b (fun i => - mmVal n (setCell b i ai) human ai (d + 1) true)
                  cells INT_MIN k (mem_cells k) hbk
              omega
          | false =>
            simp only [if_true, Bool.not_false, Bool.false_eq_true, if_false]
            rw [scanMin_congr b _
              (fun i => - mmVal n (setCell b i human) human ai (d + 1) false)
              cells INT_MAX (fun i hi => hsw' human true hhu i hi)]
            obtain ⟨k, _, hbk, hfk⟩ := scanMax_attains b
              (fun i => mmVal n (setCell b i human) human ai (d + 1) false) cells INT_MIN
              i0 (mem_cells i0) hi0
              (by
                show INT_MIN < mmVal n (setCell b i0 human) human ai (d + 1) false
                have := (hbd human false hhu i0 hi0).1
                omega)
            have hfk' : mmVal n (setCell b k human) human ai (d + 1) false
                = scanMax b (fun i => mmVal n (setCell b i human) human ai (d + 1) false)
                    cells INT_MIN := hfk
            have a1 : scanMin b
                  (fun i => - mmVal n (setCell b i human) human ai (d + 1) false)
                  cells INT_MAX
                ≤ - mmVal n (setCell b k human) human ai (d + 1) false :=
              scanMin_le b (fun i => - mmVal n (setCell b i human) human ai (d + 1) false)
                cells INT_MAX k (mem_cells k) hbk
            have hbk' := (hbd human false hhu k hbk).1
            rcases scanMin_mem b
              (fun i => - mmVal n (setCell b i human) human ai (d + 1) false) cells INT_MAX
              with e | ⟨i, _, hbi, hfi⟩
            · omega
            · have hfi' : - mmVal n (setCell b i human) human ai (d + 1) false
                  = scanMin b
                      (fun i => - mmVal n (setCell b i human) human ai (d + 1) false)
                      cells INT_MAX := hfi
              have a2 : mmVal n (setCell b i human) human ai (d + 1) false
                  ≤ scanMax b
                      (fun i => mmVal n (setCell b i human) human ai (d + 1) false)
                      cells INT_MIN :=
                scanMax_ge b _ cells INT_MIN i (mem_cells i) hbi
              omega

/-- C23: zero-sum antisymmetry.  For every board, distinct marks `a` and `h`
both different from `' '`, every flag and every depth `d` whose `int`
arithmetic does not overflow, the value `minimax` returns for `(a, h)` is the
negation of the value it returns for `(h, a)` with the flag negated. -/
theorem minimax_antisymmetric (board : Board) (a h : Char) (d : Int) (isMax : Bool)
    (ha : a ≠ ' ') (hh : h ≠ ' ') (hne : a ≠ h)
    (hlo : INT_MIN + 11 ≤ d) (hhi : d + 9 ≤ INT_MAX) :
    ∃ v, minimax board a h d isMax = some (v, board)
      ∧ minimax board h a d (!isMax) = some (-v, board) := by
  have h9 := empties_le board
  refine ⟨_, minimax_eq board a h d isMax ha hh, ?_⟩
  rw [minimax_eq board h a d (!isMax) hh ha,
    mmVal_swap_range 10 board a h d isMax ha hh hne (by omega) hlo (by omega), neg_neg]

theorem minimax_antisymmetric_witness :
    ∃ v, minimax threatBoard 'X' 'O' 0 true = some (v, threatBoard)
      ∧ minimax threatBoard 'O' 'X' 0 (!true) = some (-v, threatBoard) :=
  minimax_antisymmetric threatBoard 'X' 'O' 0 true (by decide) (by decide) (by decide)
    (by decide) (by decide)

end TicTacToe

namespace TicTacToe

/-! ## Clicks near the right and bottom edge of the grid -/

/-- C27, the code at a failing input: the positions 498 and 499 lie inside the
grid, yet their column and row are 3, so the index is 3 (a cell of the wrong
row) for `(498, 0)` and 12, outside `board[9]`, for `(498, 498)`. -/
theorem click_index_off_board :
    cellW = 166 ∧ (0 ≤ (498 : Int) ∧ (498 : Int) < gridSize) ∧ (498 : Int) / cellW = 3
      ∧ clickIndex 498 0 = some 3 ∧ clickIndex 498 498 = some 12
      ∧ clickIndex 499 499 = some 12 := by
  decide

theorem isMoveDigit_range (c : Char) (h : isMoveDigit c = true) :
    0 ≤ digitValue c ∧ digitValue c < 9 := by
  unfold isMoveDigit at h
  simp only [Bool.and_eq_true, decide_eq_true_eq] at h
  obtain ⟨h1, h2⟩ := h
  have e1 : ('0' : Char).toNat ≤ c.toNat := h1
  have e2 : c.toNat ≤ ('8' : Char).toNat := h2
  have z0 : ('0' : Char).toNat = 48 := rfl
  have z8 : ('8' : Char).toNat = 56 := rfl
  unfold digitValue
  omega

end TicTacToe

namespace TicTacToe

/-! ## The move read from the remote response -/

theorem readAt_cell (b : Board) (i : Fin 9) : readAt b (i.val : Int) = some (b i) := by
  unfold readAt
  have h : 0 ≤ (i.val : Int) ∧ (i.val : Int) < 9 := by omega
  rw [dif_pos h]
  congr

theorem digit_cell (c : Char) (h : isMoveDigit c = true) :
    ∃ i : Fin 9, (i.val : Int) = digitValue c := by
  obtain ⟨h0, h9⟩ := isMoveDigit_range c h
  exact ⟨⟨(digitValue c).toNat, by omega⟩, by simp only []; omega⟩

/-- For the text read so far, `move` is still -1 or names an occupied cell. -/
theorem parseLoop_no_good (b : Board) (text : List Char)
    (hbad : ∀ c ∈ text, ¬ (isMoveDigit c = true ∧ readAt b (digitValue c) = some ' '))
    (m0 : Int) (h0 : m0 = -1 ∨ ∃ i : Fin 9, (i.val : Int) = m0 ∧ b i ≠ ' ') :
    ∃ m, parseLoop b text m0 = some m
      ∧ (m = -1 ∨ ∃ i : Fin 9, (i.val : Int) = m ∧ b i ≠ ' ') := by
  induction text generalizing m0 with
  | nil => exact ⟨m0, rfl, h0⟩
  | cons c rest ih =>
    have hrest : ∀ c' ∈ rest,
        ¬ (isMoveDigit c' = true ∧ readAt b (digitValue c') = some ' ') :=
      fun c' hc' => hbad c' (List.mem_cons_of_mem _ hc')
    rw [parseLoop]
    by_cases hd : isMoveDigit c = true
    · obtain ⟨i, hi⟩ := digit_cell c hd
      have hr : readAt b (digitValue c) = some (b i) := by rw [← hi]; exact readAt_cell b i
      have hne : b i ≠ ' ' := by
        intro e
        exact hbad c (List.mem_cons_self _ _) ⟨hd, by rw [hr, e]⟩
      simp only [hd, if_true, hr, hne, if_false]
      exact ih hrest _ (Or.inr ⟨i, hi, hne⟩)
    · simp only [hd, Bool.false_eq_true, if_false]
      exact ih hrest m0 h0

/-- The parsing loop stops on the first digit `'0'..'8'` whose cell is empty. -/
theorem parseLoop_first_good (b : Board) (pre : List Char) (c : Char) (post : List Char)
    (hd : isMoveDigit c = true) (hc : readAt b (digitValue c) = some ' ')
    (hbad : ∀ c' ∈ pre, ¬ (isMoveDigit c' = true ∧ readAt b (digitValue c') = some ' '))
    (m0 : Int) : parseLoop b (pre ++ c :: post) m0 = some (digitValue c) := by
  induction pre generalizing m0 with
  | nil =>
    rw [List.nil_append, parseLoop]
    simp only [hd, if_true, hc]
  | cons a rest ih =>
    have hrest : ∀ c' ∈ rest,
        ¬ (isMoveDigit c' = true ∧ readAt b (digitValue c') = some ' ') :=
      fun c' hc' => hbad c' (List.mem_cons_of_mem _ hc')
    rw [List.cons_append, parseLoop]
    by_cases ha : isMoveDigit a = true
    · obtain ⟨i, hi⟩ := digit_cell a ha
      have hr : readAt b (digitValue a) = some (b i) := by rw [← hi]; exact readAt_cell b i
      have hne : b i ≠ ' ' := by
        intro e
        exact hbad a (List.mem_cons_self _ _) ⟨ha, by rw [hr, e]⟩
      simp only [ha, if_true, hr, hne, if_false]
      exact ih hrest _
    · simp only [ha, Bool.false_eq_true, if_false]
      exact ih hrest m0

theorem firstEmpty_least (b : Board) (l : List (Fin 9)) (hl : l.Pairwise (fun x y => x < y))
    (i : Fin 9) (hi : i ∈ l) (hb : b i = ' ') (hlow : ∀ j, j < i → b j ≠ ' ') (m : Int) :
    firstEmpty b l m = (i.val : Int) := by
  induction l with
  | nil => cases hi
  | cons a t ih =>
    have hp := List.pairwise_cons.mp hl
    rw [firstEmpty]
    rcases List.mem_cons.mp hi with e | e
    · subst e
      rw [if_pos hb]
    · have hlt : a < i := hp.1 i e
      rw [if_neg (hlow a hlt)]
      exact ih hp.2 e

/-- A board with an empty cell has a lowest-indexed one. -/
theorem lowest_empty (b : Board) (h : ∃ i, b i = ' ') :
    ∃ i, b i = ' ' ∧ ∀ j, j < i → b j ≠ ' ' := by
  obtain ⟨i, hi⟩ := h
  induction i using Fin.induction with
  | zero => exact ⟨0, hi, fun j hj => absurd hj (Fin.not_lt_zero j)⟩
  | succ k ih =>
    by_cases hlow : ∀ j, j < k.succ → b j ≠ ' '
    · exact ⟨k.succ, hi, hlow⟩
    · push_neg at hlow
      obtain ⟨j, hj, hbj⟩ := hlow
      clear ih
      -- take the least empty index by strong induction on its value
      have key : ∀ n : Nat, ∀ j : Fin 9, j.val ≤ n → b j = ' ' →
          ∃ i, b i = ' ' ∧ ∀ j', j' < i → b j' ≠ ' ' := by
        intro n
        induction n with
        | zero =>
          intro j hj0 hbj0
          refine ⟨j, hbj0, fun j' hj' => ?_⟩
          exfalso
          have : j'.val < j.val := hj'
          omega
        | succ n ihn =>
          intro j hjn hbj0
          by_cases hl : ∀ j', j' < j → b j' ≠ ' '
          · exact ⟨j, hbj0, hl⟩
          · push_neg at hl
            obtain ⟨j', hj', hbj'⟩ := hl
            have : j'.val < j.val := hj'
            exact ihn j' (by omega) hbj'
      exact key j.val j (le_refl _) hbj

end TicTacToe

namespace TicTacToe

theorem openai_first_good (board : Board) (player opponent : Char)
    (pre : List Char) (c : Char) (post : List Char)
    (hd : isMoveDigit c = true) (hc : readAt board (digitValue c) = some ' ')
    (hbad : ∀ c' ∈ pre, ¬ (isMoveDigit c' = true ∧ readAt board (digitValue c') = some ' ')) :
    openai_get_move board player opponent (some (pre ++ c :: post)) = some (digitValue c) := by
  have h0 := (isMoveDigit_range c hd).1
  have hne : digitValue c ≠ -1 := by omega
  unfold openai_get_move
  simp only [parseLoop_first_good board pre c post hd hc hbad (-1), if_neg hne, hc]
  rfl

theorem openai_no_good (board : Board) (player opponent : Char) (text : List Char)
    (hbad : ∀ c ∈ text, ¬ (isMoveDigit c = true ∧ readAt board (digitValue c) = some ' '))
    (i : Fin 9) (hi : board i = ' ') (hlow : ∀ j, j < i → board j ≠ ' ') :
    openai_get_move board player opponent (some text) = some (i.val : Int) := by
  obtain ⟨m, hm, hv⟩ := parseLoop_no_good board text hbad (-1) (Or.inl rfl)
  have hf : ∀ m', firstEmpty board cells m' = (i.val : Int) :=
    fun m' => firstEmpty_least board cells cells_sorted i (mem_cells i) hi hlow m'
  unfold openai_get_move
  simp only [hm]
  rcases hv with e | ⟨k, hk, hkb⟩
  · rw [if_pos e, hf]
  · have hne : m ≠ -1 := by omega
    rw [if_neg hne]
    have hr : readAt board m = some (board k) := by rw [← hk]; exact readAt_cell board k
    simp only [hr, ne_eq, hkb, not_false_eq_true, if_true, hf]

/-- Either some character of the text is a digit `'0'..'8'` naming an empty cell, and then there
is a first one, or none is. -/
theorem first_good_or_none (board : Board) (text : List Char) :
    (∃ pre c post, text = pre ++ c :: post
        ∧ (isMoveDigit c = true ∧ readAt board (digitValue c) = some ' ')
        ∧ ∀ c' ∈ pre, ¬ (isMoveDigit c' = true ∧ readAt board (digitValue c') = some ' '))
      ∨ ∀ c ∈ text, ¬ (isMoveDigit c = true ∧ readAt board (digitValue c) = some ' ') := by
  induction text with
  | nil => exact Or.inr (fun c hc => by cases hc)
  | cons a rest ih =>
    by_cases ha : isMoveDigit a = true ∧ readAt board (digitValue a) = some ' '
    · exact Or.inl ⟨[], a, rest, rfl, ha, fun c' hc' => by cases hc'⟩
    · rcases ih with ⟨pre, c, post, e, hc, hpre⟩ | hnone
      · refine Or.inl ⟨a :: pre, c, post, by rw [e]; rfl, hc, ?_⟩
        intro c' hc'
        rcases List.mem_cons.mp hc' with e' | e'
        · rw [e']; exact ha
        · exact hpre c' e'
      · refine Or.inr ?_
        intro c hc
        rcases List.mem_cons.mp hc with e' | e'
        · rw [e']; exact ha
        · exact hnone c e'

/-- C29: for every board and every non-NULL response text, `openai_get_move` returns the digit
value of the first character in `'0'..'8'` of the response whose board cell is `' '`; if the
response has no such character and the board has an empty cell, it returns the lowest-indexed
empty cell; hence on a board with an empty cell the returned index is in `[0,8]` and names an
empty cell. -/
theorem openai_get_move_parses (board : Board) (player opponent : Char) (text : List Char) :
    (∀ pre c post, text = pre ++ c :: post →
        isMoveDigit c = true → readAt board (digitValue c) = some ' ' →
        (∀ c' ∈ pre, ¬ (isMoveDigit c' = true ∧ readAt board (digitValue c') = some ' ')) →
        openai_get_move board player opponent (some text) = some (digitValue c))
    ∧ ((∀ c ∈ text, ¬ (isMoveDigit c = true ∧ readAt board (digitValue c) = some ' ')) →
        ∀ i : Fin 9, board i = ' ' → (∀ j, j < i → board j ≠ ' ') →
        openai_get_move board player opponent (some text) = some (i.val : Int))
    ∧ ((∃ i, board i = ' ') →
        ∃ r : Fin 9, openai_get_move board player opponent (some text) = some (r.val : Int)
          ∧ board r = ' ') := by
  refine ⟨?_, ?_, ?_⟩
  · intro pre c post e hd hc hbad
    rw [e]
    exact openai_first_good board player opponent pre c post hd hc hbad
  · intro hbad i hi hlow
    exact openai_no_good board player opponent text hbad i hi hlow
  · intro hex
    rcases first_good_or_none board text with ⟨pre, c, post, e, ⟨hd, hc⟩, hpre⟩ | hnone
    · obtain ⟨k, hk⟩ := digit_cell c hd
      refine ⟨k, ?_, ?_⟩
      · rw [e, hk]
        exact openai_first_good board player opponent pre c post hd hc hpre
      · have hr := readAt_cell board k
        rw [hk, hc] at hr
        exact (Option.some.inj hr).symm
    · obtain ⟨i, hi, hlow⟩ := lowest_empty board hex
      exact ⟨i, openai_no_good board player opponent text hnone i hi hlow, hi⟩

/-- On the board `X O . / . X . / . . .` the reply "Move 0, or 1? 5!" yields cell 5 (cells 0 and 1
are taken), and the reply "01" yields the lowest empty cell 2. -/
theorem openai_get_move_parses_witness :
    openai_get_move (ofList ['X', 'O', ' ', ' ', 'X', ' ', ' ', ' ', ' ']) 'O' 'X'
        (some "Move 0, or 1? 5!".toList) = some 5
    ∧ openai_get_move (ofList ['X', 'O', ' ', ' ', 'X', ' ', ' ', ' ', ' ']) 'O' 'X'
        (some "01".toList) = some 2
    ∧ ∃ r : Fin 9, openai_get_move (ofList ['X', 'O', ' ', ' ', 'X', ' ', ' ', ' ', ' ']) 'O' 'X'
        (some "no digit".toList) = some (r.val : Int)
          ∧ ofList ['X', 'O', ' ', ' ', 'X', ' ', ' ', ' ', ' '] r = ' ' :=
  ⟨by decide, by decide,
    (openai_get_move_parses (ofList ['X', 'O', ' ', ' ', 'X', ' ', ' ', ' ', ' ']) 'O' 'X'
      "no digit".toList).2.2 ⟨2, by decide⟩⟩

end TicTacToe

namespace TicTacToe

/-! ## The end-of-game check of `gui_main_openai.c` -/

theorem aiTurn_finished (oa : Bool) (s : Gui) (now : Nat) (response : Option (List Char))
    (hw : check_winner s.board ≠ ' ') : aiTurn oa s now response = some s := by
  unfold aiTurn
  rw [if_neg (fun h => hw h.2.2.1)]

theorem endCheck_thinking (s : Gui) (ht : s.ai_thinking = true) : endCheck s = s := by
  unfold endCheck
  rw [if_neg (fun h => by rw [ht] at h; exact Bool.noConfusion h.2.2)]

/-- Once the flag `ai_thinking` is set on a finished board in the game scene, a frame without
events changes nothing: the AI turn is skipped because the game is over, and the end-of-game
check is skipped because of the flag. -/
theorem frame_stuck (oa : Bool) (s : Gui) (now : Nat) (response : Option (List Char))
    (hw : check_winner s.board ≠ ' ') (ht : s.ai_thinking = true) :
    frame oa s [] now response = some s := by
  unfold frame
  simp only [List.foldlM_nil, Option.pure_def, aiTurn_finished oa s now response hw,
    endCheck_thinking s ht]

/-- In that state a click is ignored as well. -/
theorem click_stuck (oa : Bool) (s : Gui) (mx my : Int) (ticks : Nat)
    (hs : s.scene = Scene.SCENE_GAME) (ht : s.ai_thinking = true) :
    handleEvent oa s (Event.leftDown mx my ticks) = some s := by
  simp only [handleEvent, onLeftDown, hs, ht, if_true]

/-- In the game against an AI (local or remote), a human click on an empty cell that ends the
game (completes a triple or fills the last cell) sets `ai_thinking`, and the frame of that click
neither changes the scene nor the score. -/
theorem last_click_frame (oa : Bool) (s : Gui) (mx my : Int) (ticks now : Nat)
    (response : Option (List Char)) (i : Fin 9)
    (hs : s.scene = Scene.SCENE_GAME) (hm : s.gameMode = GameMode.MODE_AI)
    (ht : s.ai_thinking = false) (hp : s.player_can_move ≠ 0)
    (hidx : clickIndex (mx - gridX) (my - gridY) = some (i.val : Int))
    (he : s.board i = ' ') (hw : check_winner (setCell s.board i s.human) ≠ ' ') :
    frame oa s [Event.leftDown mx my ticks] now response
      = some { s with board := setCell s.board i s.human, player_can_move := 0,
                      ai_thinking := true, aiThinkStartTime := ticks % 2 ^ 32 } := by
  have hne : GameMode.MODE_AI ≠ GameMode.MODE_TWO_PLAYER := by decide
  have h1 : handleEvent oa s (Event.leftDown mx my ticks)
      = some { s with board := setCell s.board i s.human, player_can_move := 0,
                      ai_thinking := true, aiThinkStartTime := ticks % 2 ^ 32 } := by
    simp only [handleEvent, onLeftDown, hs, ht, Bool.false_eq_true, if_false, onGameClick, hidx,
      readAt_cell, he, if_true, hm, hne, hp, ne_eq, not_false_eq_true, and_self, writeAt_cell]
  unfold frame
  simp only [List.foldlM_nil, List.foldlM_cons, Option.pure_def, Option.bind_eq_bind,
    Option.some_bind, h1]
  rw [aiTurn_finished oa _ now response hw]
  simp only []
  rw [endCheck_thinking _ rfl]

set_option maxRecDepth 100000 in
/-- C28, the code at a failing input: against the remote AI the human takes cells 0, 1 and 2
(the replies being cells 3 and 4).  After the frame of the winning click `check_winner` is `'X'`,
yet the scene is still `SCENE_GAME`, `ai_thinking` is set and the score is 0/0/0; a later frame,
with or without a click, leaves all of this as it is.  The same three cells in a two-player game
end in `SCENE_POPUP` with `x_wins = 1`. -/
theorem human_win_not_tallied :
    (runFrames true initGui humanWinsFrames).map tally
        = some ('X', Scene.SCENE_GAME, true, ⟨0, 0, 0⟩)
    ∧ (runFrames true initGui
          (humanWinsFrames ++ [([], 9000, none), ([Event.leftDown 326 456 9500], 9999, none)])).map
          tally = some ('X', Scene.SCENE_GAME, true, ⟨0, 0, 0⟩)
    ∧ (runFrames true initGui twoPlayerFrames).map tally
        = some ('X', Scene.SCENE_POPUP, false, ⟨1, 0, 0⟩) := by
  decide

end TicTacToe

namespace TicTacToe

/-! ## Board symmetries -/

set_option maxRecDepth 100000 in
/-- The eight symmetries are eight different maps. -/
theorem symmetries_distinct : (symmetries.map (fun s => cells.map s)).Nodup := by decide

theorem rotate_injective : ∀ i j : Fin 9, rotate i = rotate j → i = j := by decide!

theorem mirror_injective : ∀ i j : Fin 9, mirror i = mirror j → i = j := by decide!

theorem rotate_surjective : ∀ j : Fin 9, ∃ i : Fin 9, rotate i = j := by decide!

theorem mirror_surjective : ∀ j : Fin 9, ∃ i : Fin 9, mirror i = j := by decide!

set_option maxRecDepth 100000 in
/-- The image of a line under the quarter turn covers a line of the table. -/
theorem rotate_line_image :
    ∀ l ∈ win_lines, ∃ k ∈ win_lines,
      onLine k.1 (rotate l.1, rotate l.2.1, rotate l.2.2) = true
        ∧ onLine k.2.1 (rotate l.1, rotate l.2.1, rotate l.2.2) = true
        ∧ onLine k.2.2 (rotate l.1, rotate l.2.1, rotate l.2.2) = true := by
  decide!

set_option maxRecDepth 100000 in
/-- Every line of the table is covered by the image of a line under the quarter turn. -/
theorem rotate_line_preimage :
    ∀ l ∈ win_lines, ∃ k ∈ win_lines,
      onLine (rotate k.1) l = true ∧ onLine (rotate k.2.1) l = true
        ∧ onLine (rotate k.2.2) l = true := by
  decide!

set_option maxRecDepth 100000 in
theorem mirror_line_image :
    ∀ l ∈ win_lines, ∃ k ∈ win_lines,
      onLine k.1 (mirror l.1, mirror l.2.1, mirror l.2.2) = true
        ∧ onLine k.2.1 (mirror l.1, mirror l.2.1, mirror l.2.2) = true
        ∧ onLine k.2.2 (mirror l.1, mirror l.2.1, mirror l.2.2) = true := by
  decide!

set_option maxRecDepth 100000 in
theorem mirror_line_preimage :
    ∀ l ∈ win_lines, ∃ k ∈ win_lines,
      onLine (mirror k.1) l = true ∧ onLine (mirror k.2.1) l = true
        ∧ onLine (mirror k.2.2) l = true := by
  decide!

end TicTacToe

namespace TicTacToe

theorem hasTriple_iff (b : Board) (m : Char) :
    hasTriple b m = true ↔ ∃ l ∈ win_lines, b l.1 = m ∧ b l.2.1 = m ∧ b l.2.2 = m := by
  unfold hasTriple
  rw [List.any_eq_true]
  constructor
  · rintro ⟨l, hl, h⟩
    exact ⟨l, hl, (lineOf_iff b m l).mp h⟩
  · rintro ⟨l, hl, h⟩
    exact ⟨l, hl, (lineOf_iff b m l).mpr h⟩

/-- A map of the cells under which lines cover lines, both ways, keeps the triples. -/
theorem hasTriple_lines (s : Fin 9 → Fin 9)
    (himg : ∀ l ∈ win_lines, ∃ k ∈ win_lines,
      onLine k.1 (s l.1, s l.2.1, s l.2.2) = true
        ∧ onLine k.2.1 (s l.1, s l.2.1, s l.2.2) = true
        ∧ onLine k.2.2 (s l.1, s l.2.1, s l.2.2) = true)
    (hpre : ∀ l ∈ win_lines, ∃ k ∈ win_lines,
      onLine (s k.1) l = true ∧ onLine (s k.2.1) l = true ∧ onLine (s k.2.2) l = true)
    (b : Board) (m : Char) : hasTriple (symBoard s b) m = hasTriple b m := by
  rw [Bool.eq_iff_iff, hasTriple_iff, hasTriple_iff]
  constructor
  · rintro ⟨l, hl, h1, h2, h3⟩
    obtain ⟨k, hk, o1, o2, o3⟩ := himg l hl
    rw [onLine_iff] at o1 o2 o3
    simp only [symBoard] at h1 h2 h3
    simp only [] at o1 o2 o3
    refine ⟨k, hk, ?_, ?_, ?_⟩
    · rcases o1 with e | e | e <;> rw [← e] <;> assumption
    · rcases o2 with e | e | e <;> rw [← e] <;> assumption
    · rcases o3 with e | e | e <;> rw [← e] <;> assumption
  · rintro ⟨l, hl, h1, h2, h3⟩
    obtain ⟨k, hk, o1, o2, o3⟩ := hpre l hl
    rw [onLine_iff] at o1 o2 o3
    refine ⟨k, hk, ?_, ?_, ?_⟩
    · show b (s k.1) = m
      rcases o1 with e | e | e <;> rw [← e] <;> assumption
    · show b (s k.2.1) = m
      rcases o2 with e | e | e <;> rw [← e] <;> assumption
    · show b (s k.2.2) = m
      rcases o3 with e | e | e <;> rw [← e] <;> assumption

theorem gridSym_id : gridSym id :=
  ⟨fun _ _ h => h, fun j => ⟨j, rfl⟩, fun _ _ => rfl⟩

theorem gridSym_rotate : gridSym rotate :=
  ⟨fun i j h => rotate_injective i j h, rotate_surjective,
    hasTriple_lines rotate rotate_line_image rotate_line_preimage⟩

theorem gridSym_mirror : gridSym mirror :=
  ⟨fun i j h => mirror_injective i j h, mirror_surjective,
    hasTriple_lines mirror mirror_line_image mirror_line_preimage⟩

theorem gridSym_comp (s t : Fin 9 → Fin 9) (hs : gridSym s) (ht : gridSym t) :
    gridSym (s ∘ t) := by
  refine ⟨hs.1.comp ht.1, hs.2.1.comp ht.2.1, ?_⟩
  intro b m
  have e : symBoard (s ∘ t) b = symBoard t (symBoard s b) := rfl
  rw [e, ht.2.2, hs.2.2]

theorem gridSym_of_mem (s : Fin 9 → Fin 9) (hs : s ∈ symmetries) : gridSym s := by
  have r1 := gridSym_rotate
  have r2 := gridSym_comp rotate rotate r1 r1
  have r3 := gridSym_comp (rotate ∘ rotate) rotate r2 r1
  have m1 := gridSym_mirror
  simp only [symmetries, List.mem_cons, List.mem_singleton, List.not_mem_nil, or_false] at hs
  rcases hs with e | e | e | e | e | e | e | e <;> rw [e]
  · exact gridSym_id
  · exact r1
  · exact r2
  · exact r3
  · exact m1
  · exact gridSym_comp rotate mirror r1 m1
  · exact gridSym_comp (rotate ∘ rotate) mirror r2 m1
  · exact gridSym_comp (rotate ∘ rotate ∘ rotate) mirror r3 m1

theorem sym_injective (s : Fin 9 → Fin 9) (hs : s ∈ symmetries) (i j : Fin 9)
    (h : s i = s j) : i = j :=
  (gridSym_of_mem s hs).1 h

theorem sym_surjective (s : Fin 9 → Fin 9) (hs : s ∈ symmetries) (j : Fin 9) :
    ∃ i, s i = j :=
  (gridSym_of_mem s hs).2.1 j

theorem hasTriple_symBoard (s : Fin 9 → Fin 9) (hs : s ∈ symmetries) (b : Board) (m : Char) :
    hasTriple (symBoard s b) m = hasTriple b m :=
  (gridSym_of_mem s hs).2.2 b m

theorem hasEmpty_symBoard (s : Fin 9 → Fin 9) (hs : s ∈ symmetries) (b : Board) :
    hasEmpty (symBoard s b) = hasEmpty b := by
  rw [Bool.eq_iff_iff, hasEmpty_iff, hasEmpty_iff]
  constructor
  · rintro ⟨i, hi⟩
    exact ⟨s i, hi⟩
  · rintro ⟨j, hj⟩
    obtain ⟨i, hi⟩ := sym_surjective s hs j
    exact ⟨i, by show b (s i) = ' '; rw [hi]; exact hj⟩

theorem hasTriple_hasLine (b : Board) (m : Char) (hm : m ≠ ' ') (h : hasTriple b m = true) :
    hasLine b = true := by
  obtain ⟨l, hl, h1, h2, h3⟩ := (hasTriple_iff b m).mp h
  rw [hasLine_iff]
  refine ⟨l, hl, (lineWon_iff b l).mpr ⟨?_, ?_, ?_⟩⟩
  · rw [h1]; exact hm
  · rw [h1, h2]
  · rw [h2, h3]

/-- On a board over `{' ', 'X', 'O'}` where at most one mark has a triple, the answer of
`check_winner` does not depend on the order of the table. -/
theorem check_winner_oneWinner (b : Board) (hb : overXO b) (h1 : oneWinner b) :
    check_winner b = if hasTriple b 'X' = true then 'X'
      else if hasTriple b 'O' = true then 'O'
      else if hasEmpty b = true then ' ' else 'T' := by
  rcases check_winner_cases b with ⟨l, hl, hw, he⟩ | ⟨hno, he⟩
  · obtain ⟨hne, e1, e2⟩ := (lineWon_iff b l).mp hw
    rcases hb l.1 with h | h | h
    · exact absurd h hne
    · have ht : hasTriple b 'X' = true :=
        (hasTriple_iff b 'X').mpr ⟨l, hl, h, by rw [← e1]; exact h, by rw [← e2, ← e1]; exact h⟩
      rw [he, h, if_pos ht]
    · have ht : hasTriple b 'O' = true :=
        (hasTriple_iff b 'O').mpr ⟨l, hl, h, by rw [← e1]; exact h, by rw [← e2, ← e1]; exact h⟩
      have hx : ¬ hasTriple b 'X' = true := fun hx => h1 ⟨hx, ht⟩
      rw [he, h, if_neg hx, if_pos ht]
  · have hx : ¬ hasTriple b 'X' = true := by
      intro hx
      rw [hasTriple_hasLine b 'X' (by decide) hx] at hno
      cases hno
    have ho : ¬ hasTriple b 'O' = true := by
      intro ho
      rw [hasTriple_hasLine b 'O' (by decide) ho] at hno
      cases hno
    rw [he, if_neg hx, if_neg ho]

theorem overXO_symBoard (s : Fin 9 → Fin 9) (b : Board) (hb : overXO b) :
    overXO (symBoard s b) := fun i => hb (s i)

theorem oneWinner_symBoard (s : Fin 9 → Fin 9) (hs : s ∈ symmetries) (b : Board)
    (h1 : oneWinner b) : oneWinner (symBoard s b) := by
  unfold oneWinner
  rw [hasTriple_symBoard s hs, hasTriple_symBoard s hs]
  exact h1

theorem check_winner_symBoard (s : Fin 9 → Fin 9) (hs : s ∈ symmetries) (b : Board)
    (hb : overXO b) (h1 : oneWinner b) : check_winner (symBoard s b) = check_winner b := by
  rw [check_winner_oneWinner b hb h1,
    check_winner_oneWinner (symBoard s b) (overXO_symBoard s b hb) (oneWinner_symBoard s hs b h1),
    hasTriple_symBoard s hs, hasTriple_symBoard s hs, hasEmpty_symBoard s hs]

theorem setCell_symBoard (s : Fin 9 → Fin 9) (hs : s ∈ symmetries) (b : Board) (i : Fin 9)
    (c : Char) : setCell (symBoard s b) i c = symBoard s (setCell b (s i) c) := by
  funext j
  by_cases hj : j = i
  · subst hj
    show setCell (symBoard s b) j c j = setCell b (s j) c (s j)
    rw [setCell_same, setCell_same]
  · have hne : s j ≠ s i := fun e => hj (sym_injective s hs j i e)
    show setCell (symBoard s b) i c j = setCell b (s i) c (s j)
    rw [setCell_other _ i j c hj, setCell_other _ (s i) (s j) c hne]
    rfl

theorem scanMax_symBoard (s : Fin 9 → Fin 9) (hs : s ∈ symmetries) (b : Board)
    (g : Fin 9 → Int) (init : Int) :
    scanMax (symBoard s b) (fun i => g (s i)) cells init = scanMax b g cells init := by
  apply le_antisymm
  · rcases scanMax_mem (symBoard s b) (fun i => g (s i)) cells init with e | ⟨i, _, hi, e⟩
    · rw [e]; exact scanMax_ge_init b g cells init
    · rw [← e]
      exact scanMax_ge b g cells init (s i) (mem_cells _) hi
  · rcases scanMax_mem b g cells init with e | ⟨j, _, hj, e⟩
    · rw [e]; exact scanMax_ge_init _ _ cells init
    · obtain ⟨i, hi⟩ := sym_surjective s hs j
      rw [← e, ← hi]
      exact scanMax_ge (symBoard s b) (fun i => g (s i)) cells init i (mem_cells _)
        (by show b (s i) = ' '; rw [hi]; exact hj)

theorem scanMin_symBoard (s : Fin 9 → Fin 9) (hs : s ∈ symmetries) (b : Board)
    (g : Fin 9 → Int) (init : Int) :
    scanMin (symBoard s b) (fun i => g (s i)) cells init = scanMin b g cells init := by
  apply le_antisymm
  · rcases scanMin_mem b g cells init with e | ⟨j, _, hj, e⟩
    · rw [e]; exact scanMin_le_init _ _ cells init
    · obtain ⟨i, hi⟩ := sym_surjective s hs j
      rw [← e, ← hi]
      exact scanMin_le (symBoard s b) (fun i => g (s i)) cells init i (mem_cells _)
        (by show b (s i) = ' '; rw [hi]; exact hj)
  · rcases scanMin_mem (symBoard s b) (fun i => g (s i)) cells init with e | ⟨i, _, hi, e⟩
    · rw [e]; exact scanMin_le_init b g cells init
    · rw [← e]
      exact scanMin_le b g cells init (s i) (mem_cells _) hi

/-- Writing a mark `c` cannot complete a triple of another mark. -/
theorem hasTriple_setCell (b : Board) (j : Fin 9) (c m : Char) (hc : c ≠ m)
    (h : hasTriple (setCell b j c) m = true) : hasTriple b m = true := by
  obtain ⟨l, hl, h1, h2, h3⟩ := (hasTriple_iff _ m).mp h
  have key : ∀ k, setCell b j c k = m → b k = m := by
    intro k hk
    by_cases e : k = j
    · subst e
      rw [setCell_same] at hk
      exact absurd hk hc
    · rw [setCell_other b j k c e] at hk
      exact hk
  exact (hasTriple_iff b m).mpr ⟨l, hl, key _ h1, key _ h2, key _ h3⟩

/-- A position that `minimax` goes on from has no complete triple, so after one more mark at most
one of the marks has one. -/
theorem oneWinner_child (b : Board) (ai human c : Char) (hb : overXO b) (h1 : oneWinner b)
    (hp : xoPair ai human) (hc : c = 'X' ∨ c = 'O')
    (h10 : evaluate_board b ai human ≠ 10) (h10' : evaluate_board b ai human ≠ -10)
    (j : Fin 9) : oneWinner (setCell b j c) := by
  have hw := check_winner_oneWinner b hb h1
  obtain ⟨_, _, hne, _, _⟩ := xoPair_facts ai human hp
  have hnx : check_winner b ≠ 'X' ∧ check_winner b ≠ 'O' := by
    unfold evaluate_board at h10 h10'
    simp only [] at h10 h10'
    have ha : check_winner b ≠ ai := by
      intro e
      rw [if_pos e] at h10
      exact h10 rfl
    have hh : check_winner b ≠ human := by
      intro e
      rw [if_neg ha, if_pos e] at h10'
      exact h10' rfl
    rcases hp with ⟨e1, e2⟩ | ⟨e1, e2⟩
    · rw [e1] at ha; rw [e2] at hh; exact ⟨ha, hh⟩
    · rw [e1] at ha; rw [e2] at hh; exact ⟨hh, ha⟩
  have hx : ¬ hasTriple b 'X' = true := by
    intro hx
    rw [if_pos hx] at hw
    exact hnx.1 hw
  have ho : ¬ hasTriple b 'O' = true := by
    intro ho
    rw [if_neg hx, if_pos ho] at hw
    exact hnx.2 hw
  rintro ⟨htx, hto⟩
  rcases hc with e | e
  · exact ho (hasTriple_setCell b j c 'O' (by rw [e]; decide) hto)
  · exact hx (hasTriple_setCell b j c 'X' (by rw [e]; decide) htx)

theorem evaluate_board_symBoard (s : Fin 9 → Fin 9) (hs : s ∈ symmetries) (b : Board)
    (ai human : Char) (hb : overXO b) (h1 : oneWinner b) :
    evaluate_board (symBoard s b) ai human = evaluate_board b ai human := by
  unfold evaluate_board
  rw [check_winner_symBoard s hs b hb h1]

/-- The value of a position does not change under a symmetry of the grid. -/
theorem mmVal_symBoard (s : Fin 9 → Fin 9) (hs : s ∈ symmetries) (ai human : Char)
    (hp : xoPair ai human) (n : Nat) (b : Board) (d : Int) (isMax : Bool)
    (hb : overXO b) (h1 : oneWinner b) :
    mmVal n (symBoard s b) ai human d isMax = mmVal n b ai human d isMax := by
  induction n generalizing b d isMax with
  | zero => rfl
  | succ n ih =>
    unfold mmVal
    simp only []
    rw [evaluate_board_symBoard s hs b ai human hb h1, hasEmpty_symBoard s hs]
    by_cases h10 : evaluate_board b ai human = 10
    · rw [if_pos h10, if_pos h10]
    · rw [if_neg h10, if_neg h10]
      by_cases h10' : evaluate_board b ai human = -10
      · rw [if_pos h10', if_pos h10']
      · rw [if_neg h10', if_neg h10']
        by_cases he : (!hasEmpty b) = true
        · rw [if_pos he, if_pos he]
        · rw [if_neg he, if_neg he]
          cases isMax with
          | true =>
            simp only [if_true]
            rw [← scanMax_symBoard s hs b
              (fun j => mmVal n (setCell b j ai) ai human (d + 1) false) INT_MIN]
            apply scanMax_congr
            intro i _
            rw [setCell_symBoard s hs]
            exact ih (setCell b (s i) ai) (d + 1) false
              (overXO_setCell b (s i) ai hb (xoPair_ai ai human hp))
              (oneWinner_child b ai human ai hb h1 hp (xoPair_ai ai human hp) h10 h10' (s i))
          | false =>
            simp only [Bool.false_eq_true, if_false]
            rw [← scanMin_symBoard s hs b
              (fun j => mmVal n (setCell b j human) ai human (d + 1) true) INT_MAX]
            apply scanMin_congr
            intro i _
            rw [setCell_symBoard s hs]
            exact ih (setCell b (s i) human) (d + 1) true
              (overXO_setCell b (s i) human hb (xoPair_human ai human hp))
              (oneWinner_child b ai human human hb h1 hp (xoPair_human ai human hp) h10 h10'
                (s i))

end TicTacToe

namespace TicTacToe

/-- C24: board-symmetry invariance of the value.  For every board over `{' ', 'X', 'O'}` on
which at most one mark has a complete winning triple, each of the 8 symmetries `s` of the grid,
marks `(ai, human) = ('X', 'O')` or `('O', 'X')`, every depth and every flag, `minimax` returns
on `s(board)` the value it returns on `board` (leaving either board as it was), and
`check_winner` gives the same answer on both. -/
theorem minimax_symmetric (board : Board) (s : Fin 9 → Fin 9) (ai human : Char) (d : Int)
    (isMax : Bool) (hb : overXO board) (h1 : oneWinner board) (hs : s ∈ symmetries)
    (hp : xoPair ai human) :
    (∃ v, minimax (symBoard s board) ai human d isMax = some (v, symBoard s board)
        ∧ minimax board ai human d isMax = some (v, board))
      ∧ check_winner (symBoard s board) = check_winner board := by
  obtain ⟨ha, hh, _, _, _⟩ := xoPair_facts ai human hp
  refine ⟨⟨mmVal 10 board ai human d isMax, ?_, minimax_eq board ai human d isMax ha hh⟩,
    check_winner_symBoard s hs board hb h1⟩
  rw [minimax_eq (symBoard s board) ai human d isMax ha hh,
    mmVal_symBoard s hs ai human hp 10 board d isMax hb h1]

/-- The quarter turn of `cornerBoard` has its `'X'` in cell 6, and the value and the winner are
those of `cornerBoard`. -/
theorem minimax_symmetric_witness :
    symBoard rotate cornerBoard 6 = 'X'
      ∧ (∃ v, minimax (symBoard rotate cornerBoard) 'X' 'O' 0 true
            = some (v, symBoard rotate cornerBoard)
          ∧ minimax cornerBoard 'X' 'O' 0 true = some (v, cornerBoard))
      ∧ check_winner (symBoard rotate cornerBoard) = check_winner cornerBoard :=
  ⟨by decide,
    minimax_symmetric cornerBoard rotate 'X' 'O' 0 true (by unfold overXO; decide)
      (by unfold oneWinner; decide)
      (List.mem_cons_of_mem _ (List.mem_cons_self _ _)) (Or.inl ⟨rfl, rfl⟩)⟩

end TicTacToe
